import Mathlib

/-!
Verification of the TenType/connect-four engine core against its specification.

The Rust sources are shallowly embedded: `u64` bitboards become `Nat` with an
explicit truncation `u64` applied wherever the Rust operation can wrap
(left shifts and additions); `u8` counters are `Nat` with `% 256` on the
wrapping increment/decrement.  Operations whose Rust counterparts provably
cannot wrap on any `u64` input (right shifts, `&`, `|`, `^` of in-range
values) are translated without truncation.
-/

namespace C4V

/-- Truncation to 64 bits, modelling Rust `u64` wrapping semantics. -/
def u64 (x : Nat) : Nat := x % 2 ^ 64

/-- Bitwise complement on 64-bit words, modelling Rust `!` on `u64`. -/
def u64not (x : Nat) : Nat := (2 ^ 64 - 1) ^^^ x

/-- `u64` left shift (high bits dropped), modelling Rust `<<` on `u64`. -/
def shl (x k : Nat) : Nat := u64 (x <<< k)

/-- The number of rows in a standard board (`HEIGHT` in lib.rs). -/
def HEIGHT : Nat := 6

/-- The number of columns in a standard board (`WIDTH` in lib.rs). -/
def WIDTH : Nat := 7

/-- The number of tiles in a standard board (`AREA` in lib.rs). -/
def AREA : Nat := WIDTH * HEIGHT

/-- The number of players (`NUM_PLAYERS`). -/
def NUM_PLAYERS : Nat := 2

/-- `bitboard::bottom_index`: index of the bottom tile of a column. -/
def bottom_index (col : Nat) : Nat := col * (HEIGHT + 1)

/-- `bitboard::bottom_piece_mask`. -/
def bottom_piece_mask (col : Nat) : Nat := 1 <<< bottom_index col

/-- `bitboard::top_piece_mask`. -/
def top_piece_mask (col : Nat) : Nat := 1 <<< (bottom_index col + HEIGHT - 1)

/-- `bitboard::FIRST_COLUMN_MASK`. -/
def FIRST_COLUMN_MASK : Nat := (1 <<< HEIGHT) - 1

/-- `bitboard::column_mask`. -/
def column_mask (col : Nat) : Nat := FIRST_COLUMN_MASK <<< bottom_index col

/-- `bitboard::BOTTOM_ROW_MASK` (the const-fn while loop over columns). -/
def BOTTOM_ROW_MASK : Nat :=
  (List.range WIDTH).foldl (fun mask col => mask ||| bottom_piece_mask col) 0

/-- `bitboard::FULL_BOARD_MASK`. -/
def FULL_BOARD_MASK : Nat := BOTTOM_ROW_MASK * FIRST_COLUMN_MASK

/-- `bitboard::mirror`: reflect a bitboard horizontally.  No truncation is
needed: each masked column is below `2 ^ (7*col + 6)` and is shifted to
another in-board column position, so the Rust shifts never drop bits. -/
def mirror (bitboard : Nat) : Nat :=
  (List.range WIDTH).foldl
    (fun result col =>
      let col_bits := bitboard &&& column_mask col
      let mirrored_col := WIDTH - 1 - col
      let src_shift := bottom_index col
      let dst_shift := bottom_index mirrored_col
      if dst_shift > src_shift then
        result ||| (col_bits <<< (dst_shift - src_shift))
      else
        result ||| (col_bits >>> (src_shift - dst_shift)))
    0

/-- `board::WinDirection`. -/
inductive WinDirection where
  | AscendingDiagonal
  | DescendingDiagonal
  | Horizontal
  | Vertical
deriving DecidableEq, Repr

/-- `board::Board`: two bitboards plus the move counter. -/
structure Board where
  player_bb : Nat
  occupied_bb : Nat
  num_moves : Nat
deriving DecidableEq, Repr

/-- `Board::new` (the `Default` values). -/
def Board.new : Board := ⟨0, 0, 0⟩

/-- `Board::opponent_bb`. -/
def Board.opponent_bb (b : Board) : Nat := b.player_bb ^^^ b.occupied_bb

/-- `Board::play_bb`.  The `u8` move counter wraps at 256. -/
def Board.play_bb (b : Board) (move_bb : Nat) : Board :=
  { player_bb := b.player_bb ^^^ b.occupied_bb
    occupied_bb := b.occupied_bb ||| move_bb
    num_moves := (b.num_moves + 1) % 256 }

/-- `Board::play_unchecked`. -/
def Board.play_unchecked (b : Board) (col : Nat) : Board :=
  b.play_bb (u64 (b.occupied_bb + bottom_piece_mask col))

/-- `Board::undo_unchecked`.  The `u8` decrement `num_moves -= 1` is modelled
as the wrapping `+ 255` mod 256. -/
def Board.undo_unchecked (b : Board) (col : Nat) : Board :=
  let move_bb := u64 (b.occupied_bb + bottom_piece_mask col) >>> 1
  let occ := b.occupied_bb ^^^ (move_bb &&& column_mask col)
  { player_bb := b.player_bb ^^^ occ
    occupied_bb := occ
    num_moves := (b.num_moves + 255) % 256 }

/-- `Board::is_open`. -/
def Board.is_open (b : Board) (col : Nat) : Bool :=
  b.occupied_bb &&& top_piece_mask col == 0

/-- `Board::is_full`. -/
def Board.is_full (b : Board) : Bool := decide (AREA ≤ b.num_moves)

/-- `Board::check_win`: the four paired-shift line detectors. -/
def Board.check_win (_b : Board) (bitboard : Nat) : Option (Nat × WinDirection) :=
  let x1 := bitboard &&& (bitboard >>> (HEIGHT + 2))
  let a := x1 &&& (x1 >>> ((HEIGHT + 2) * 2))
  if a != 0 then some (a, .AscendingDiagonal) else
  let x2 := bitboard &&& (bitboard >>> HEIGHT)
  let d := x2 &&& (x2 >>> (HEIGHT * 2))
  if d != 0 then some (d, .DescendingDiagonal) else
  let x3 := bitboard &&& (bitboard >>> (HEIGHT + 1))
  let h := x3 &&& (x3 >>> ((HEIGHT + 1) * 2))
  if h != 0 then some (h, .Horizontal) else
  let x4 := bitboard &&& (bitboard >>> 1)
  let v := x4 &&& (x4 >>> 2)
  if v != 0 then some (v, .Vertical) else
  none

/-- `Board::opponent_winning_bb`. -/
def Board.opponent_winning_bb (b : Board) : Option (Nat × WinDirection) :=
  b.check_win b.opponent_bb

/-- `Board::has_opponent_won`. -/
def Board.has_opponent_won (b : Board) : Bool := b.opponent_winning_bb.isSome

/-- `Board::is_terminal`. -/
def Board.is_terminal (b : Board) : Bool := b.is_full || b.has_opponent_won

/-- `Board::possible_bb`. -/
def Board.possible_bb (b : Board) : Nat :=
  u64 (b.occupied_bb + BOTTOM_ROW_MASK) &&& FULL_BOARD_MASK

/-- The pure shift-combination part of `Board::winning_bb` (everything before
the final mask with the empty tiles); it depends only on the stone bitboard.
Left shifts are truncated to 64 bits as in Rust; right shifts cannot wrap. -/
def winCells (bitboard : Nat) : Nat :=
  -- Vertical |
  let x1 := shl bitboard 1 &&& shl bitboard 2 &&& shl bitboard 3
  -- shifts by HEIGHT
  let y1 := shl bitboard HEIGHT &&& shl bitboard (2 * HEIGHT)
  let x2 := x1 ||| (y1 &&& shl bitboard (3 * HEIGHT))
  let x3 := x2 ||| (y1 &&& (bitboard >>> HEIGHT))
  let y2 := (bitboard >>> HEIGHT) &&& (bitboard >>> (2 * HEIGHT))
  let x4 := x3 ||| (y2 &&& (bitboard >>> (3 * HEIGHT)))
  let x5 := x4 ||| (y2 &&& shl bitboard HEIGHT)
  -- shifts by HEIGHT + 1
  let y3 := shl bitboard (HEIGHT + 1) &&& shl bitboard (2 * (HEIGHT + 1))
  let x6 := x5 ||| (y3 &&& shl bitboard (3 * (HEIGHT + 1)))
  let x7 := x6 ||| (y3 &&& (bitboard >>> (HEIGHT + 1)))
  let y4 := (bitboard >>> (HEIGHT + 1)) &&& (bitboard >>> (2 * (HEIGHT + 1)))
  let x8 := x7 ||| (y4 &&& (bitboard >>> (3 * (HEIGHT + 1))))
  let x9 := x8 ||| (y4 &&& shl bitboard (HEIGHT + 1))
  -- shifts by HEIGHT + 2
  let y5 := shl bitboard (HEIGHT + 2) &&& shl bitboard (2 * (HEIGHT + 2))
  let x10 := x9 ||| (y5 &&& shl bitboard (3 * (HEIGHT + 2)))
  let x11 := x10 ||| (y5 &&& (bitboard >>> (HEIGHT + 2)))
  let y6 := (bitboard >>> (HEIGHT + 2)) &&& (bitboard >>> (2 * (HEIGHT + 2)))
  let x12 := x11 ||| (y6 &&& (bitboard >>> (3 * (HEIGHT + 2))))
  x12 ||| (y6 &&& shl bitboard (HEIGHT + 2))

/-- `Board::winning_bb`: tiles that complete a line of four for `bitboard`:
the shift combination masked with the empty tiles of the board. -/
def Board.winning_bb (b : Board) (bitboard : Nat) : Nat :=
  winCells bitboard &&& (b.occupied_bb ^^^ FULL_BOARD_MASK)

/-- `Board::non_losing_moves_bb`. -/
def Board.non_losing_moves_bb (b : Board) : Nat :=
  let possible_moves := b.possible_bb
  let opponent_win := b.winning_bb b.opponent_bb
  let forced_moves := possible_moves &&& opponent_win
  if forced_moves != 0 then
    if forced_moves &&& (forced_moves - 1) != 0 then
      0
    else
      forced_moves &&& u64not (opponent_win >>> 1)
  else
    possible_moves &&& u64not (opponent_win >>> 1)

/-- `Board::can_win_next`. -/
def Board.can_win_next (b : Board) : Bool :=
  b.winning_bb b.player_bb &&& b.possible_bb != 0

/-- `Board::is_winning_move`. -/
def Board.is_winning_move (b : Board) (col : Nat) : Bool :=
  b.winning_bb b.player_bb &&& b.possible_bb &&& column_mask col != 0

/-- Population count, modelling `u64::count_ones`. -/
def popcount (x : Nat) : Nat := (Nat.bits x).count true

/-- `Board::count_winning_moves`. -/
def Board.count_winning_moves (b : Board) (move_bb : Nat) : Nat :=
  popcount (b.winning_bb (b.player_bb ||| move_bb))

/-- `Board::position_score`.  The `u8` subtraction `AREA - num_moves` is
modelled by truncated `Nat` subtraction; the two differ only when
`num_moves > AREA`, outside the reachable-board invariant. -/
def Board.position_score (b : Board) (win_this_turn : Bool) : Int :=
  if win_this_turn then ((AREA - b.num_moves + 1) / 2 : Nat)
  else ((AREA - b.num_moves) / 2 : Nat)

/-- `Board::key`: the transposition key. -/
def Board.key (b : Board) : Nat := u64 (b.player_bb + b.occupied_bb)

/-- `Board::mirror`. -/
def Board.mirror (b : Board) : Board :=
  { b with player_bb := C4V.mirror b.player_bb, occupied_bb := C4V.mirror b.occupied_bb }

/-- The while loop inside `Board::partial_key3`, with explicit fuel.  The Rust
loop shifts `mask` left each iteration, so with `mask = 2 ^ (7*col)` and a
64-bit `occupied_bb` it exits after at most 64 iterations; fuel 64 therefore
reproduces it exactly.  `u128` key arithmetic is left untruncated: for boards
satisfying the board invariant the key stays below `3 ^ 49 < 2 ^ 128`. -/
def pkey3Loop (player_bb occupied_bb : Nat) : Nat → Nat → Nat → Nat
  | _mask, key, 0 => key * 3
  | mask, key, fuel + 1 =>
    if occupied_bb &&& mask != 0 then
      pkey3Loop player_bb occupied_bb (mask <<< 1)
        (key * 3 + (if player_bb &&& mask == 0 then 2 else 1)) fuel
    else
      key * 3

/-- `Board::partial_key3` (the name avoids a reserved word). -/
def Board.pkey3 (b : Board) (key : Nat) (col : Nat) : Nat :=
  pkey3Loop b.player_bb b.occupied_bb (bottom_piece_mask col) key 64

/-- `Board::key3`: the symmetric base-3 key. -/
def Board.key3 (b : Board) : Nat :=
  let key_forward := (List.range WIDTH).foldl b.pkey3 0
  let key_backward := (List.range WIDTH).reverse.foldl b.pkey3 0
  if key_forward < key_backward then key_forward / 3 else key_backward / 3

/-! ### The `Game` layer (game.rs) -/

/-- `Player` from lib.rs. -/
inductive Player where
  | P1
  | P2
deriving DecidableEq, Repr

/-- `impl Not for Player`. -/
def Player.other (p : Player) : Player :=
  if p = .P1 then .P2 else .P1

/-- `MoveError` from error.rs. -/
inductive MoveError where
  | ColumnFull
  | InvalidColumn
  | GameOver
deriving DecidableEq, Repr

/-- `game::Status`. -/
inductive Status where
  | Draw
  | Ongoing
  | Win (player : Player)
deriving DecidableEq, Repr

/-- `game::Game`: the user-facing game state (its own bitboard record). -/
structure Game where
  player_board : Nat
  pieces_board : Nat
  moves : Nat
deriving DecidableEq, Repr

/-- `Game::new` (the `Default` values). -/
def Game.new : Game := ⟨0, 0, 0⟩

/-- `Game::opponent_board`. -/
def Game.opponent_board (g : Game) : Nat := g.player_board ^^^ g.pieces_board

/-- `Game::turn`. -/
def Game.turn (g : Game) : Player :=
  if g.moves % NUM_PLAYERS = 0 then .P1 else .P2

/-- `Game::check_win` (duplicated in game.rs from board.rs). -/
def Game.check_win (_g : Game) (board : Nat) : Option (Nat × WinDirection) :=
  let x1 := board &&& (board >>> (HEIGHT + 2))
  let a := x1 &&& (x1 >>> ((HEIGHT + 2) * 2))
  if a != 0 then some (a, .AscendingDiagonal) else
  let x2 := board &&& (board >>> HEIGHT)
  let d := x2 &&& (x2 >>> (HEIGHT * 2))
  if d != 0 then some (d, .DescendingDiagonal) else
  let x3 := board &&& (board >>> (HEIGHT + 1))
  let h := x3 &&& (x3 >>> ((HEIGHT + 1) * 2))
  if h != 0 then some (h, .Horizontal) else
  let x4 := board &&& (board >>> 1)
  let v := x4 &&& (x4 >>> 2)
  if v != 0 then some (v, .Vertical) else
  none

/-- `Game::is_winning_board`. -/
def Game.is_winning_board (g : Game) (board : Nat) : Bool :=
  (g.check_win board).isSome

/-- `Game::winner`. -/
def Game.winner (g : Game) : Option Player :=
  if g.is_winning_board g.opponent_board then some g.turn.other else none

/-- `Game::has_won`. -/
def Game.has_won (g : Game) : Bool := g.winner.isSome

/-- `Game::has_full_board`. -/
def Game.has_full_board (g : Game) : Bool := decide (AREA ≤ g.moves)

/-- `Game::is_game_over`. -/
def Game.is_game_over (g : Game) : Bool := g.has_full_board || g.has_won

/-- `Game::status`. -/
def Game.status (g : Game) : Status :=
  match g.winner with
  | some player => .Win player
  | none => if g.has_full_board then .Draw else .Ongoing

/-- `Game::is_inside`. -/
def Game.is_inside (_g : Game) (col : Nat) : Bool := decide (col < WIDTH)

/-- `Game::is_unfilled`. -/
def Game.is_unfilled (g : Game) (col : Nat) : Bool :=
  g.pieces_board &&& top_piece_mask col == 0

/-- `Game::pieces_in_col`. -/
def Game.pieces_in_col (g : Game) (col : Nat) : Nat :=
  popcount (g.pieces_board &&& column_mask col)

/-- `Game::can_play`. -/
def Game.can_play (g : Game) (col : Nat) : Except MoveError Nat :=
  if g.is_game_over then .error .GameOver
  else if !g.is_inside col then .error .InvalidColumn
  else if !g.is_unfilled col then .error .ColumnFull
  else .ok (g.pieces_in_col col)

/-- `Game::play_board`. -/
def Game.play_board (g : Game) (move_board : Nat) : Game :=
  { player_board := g.player_board ^^^ g.pieces_board
    pieces_board := g.pieces_board ||| move_board
    moves := (g.moves + 1) % 256 }

/-- `Game::play_unchecked`. -/
def Game.play_unchecked (g : Game) (col : Nat) : Game :=
  g.play_board (u64 (g.pieces_board + bottom_piece_mask col))

/-- `Game::play`.  Rust mutates `self` and returns `Result<u8, MoveError>`;
the embedding returns the result together with the post-call state. -/
def Game.play (g : Game) (col : Nat) : Except MoveError Nat × Game :=
  match g.can_play col with
  | .error e => (.error e, g)
  | .ok row => (.ok row, g.play_unchecked col)

/-- The `char_to_col` helper inside `Game::play_str` (`to_digit(10)` then
`checked_sub(1)`). -/
def char_to_col (c : Char) : Except MoveError Nat :=
  if c.isDigit then
    let n := c.toNat - 48
    if n = 0 then .error .InvalidColumn else .ok (n - 1)
  else .error .InvalidColumn

/-- The loop in `Game::play_str` over all but the last character: plays each
parsed column in turn, stopping at (and keeping the state reached before) the
first error. -/
def playChars (g : Game) : List Char → Option MoveError × Game
  | [] => (none, g)
  | c :: rest =>
    match char_to_col c with
    | .error e => (some e, g)
    | .ok col =>
      match g.play col with
      | (.error e, g') => (some e, g')
      | (.ok _, g') => playChars g' rest

/-- `Game::play_str`.  Rust panics on an empty string; the embedding returns
`none` in that case.  Otherwise the last character is parsed first, then the
leading characters are played in order, then the last column is played. -/
def Game.play_str (g : Game) (moves : List Char) : Option (Except MoveError Nat × Game) :=
  match moves.getLast? with
  | none => none
  | some last_char =>
    match char_to_col last_char with
    | .error e => some (.error e, g)
    | .ok last =>
      match playChars g moves.dropLast with
      | (some e, g') => some (.error e, g')
      | (none, g') => some (g'.play last)

/-! ### Column-digit toolkit

A bitboard of a well-formed position decomposes into seven base-`2^7` digits,
one per column (six playable bits plus the zero sentinel).  `fromDigs`
reassembles a digit list, least-significant column first. -/

/-- Reassemble a list of 7-bit column digits into a bitboard. -/
def fromDigs : List Nat → Nat
  | [] => 0
  | d :: ds => d + 2 ^ 7 * fromDigs ds

theorem fromDigs_nil : fromDigs [] = 0 := rfl

theorem fromDigs_cons (d : Nat) (ds : List Nat) :
    fromDigs (d :: ds) = d + 2 ^ 7 * fromDigs ds := rfl

theorem fromDigs_lt (ds : List Nat) (h : ∀ d ∈ ds, d < 2 ^ 7) :
    fromDigs ds < 2 ^ (7 * ds.length) := by
  induction ds with
  | nil => simp [fromDigs]
  | cons d ds ih =>
    have hd : d < 2 ^ 7 := h d (List.mem_cons_self d ds)
    have hds := ih (fun x hx => h x (List.mem_cons_of_mem d hx))
    have : d + 2 ^ 7 * fromDigs ds < 2 ^ 7 * (fromDigs ds + 1) := by omega
    calc fromDigs (d :: ds) = d + 2 ^ 7 * fromDigs ds := rfl
      _ < 2 ^ 7 * (fromDigs ds + 1) := this
      _ ≤ 2 ^ 7 * 2 ^ (7 * ds.length) := by
          exact Nat.mul_le_mul_left _ (by omega)
      _ = 2 ^ (7 * (d :: ds).length) := by
          rw [← Nat.pow_add]
          congr 1
          simp [List.length_cons]
          ring

theorem testBit_fromDigs (ds : List Nat) (h : ∀ d ∈ ds, d < 2 ^ 7) (i : Nat) :
    (fromDigs ds).testBit i = (ds.getD (i / 7) 0).testBit (i % 7) := by
  induction ds generalizing i with
  | nil => simp [fromDigs]
  | cons d ds ih =>
    have hd : d < 2 ^ 7 := h d (List.mem_cons_self d ds)
    have hrec := ih (fun x hx => h x (List.mem_cons_of_mem d hx))
    have hform : fromDigs (d :: ds) = 2 ^ 7 * fromDigs ds + d := by
      rw [fromDigs_cons]; ring
    rw [hform, Nat.testBit_mul_pow_two_add _ hd]
    by_cases hi : i < 7
    · simp only [if_pos hi]
      have h1 : i / 7 = 0 := Nat.div_eq_of_lt hi
      have h2 : i % 7 = i := Nat.mod_eq_of_lt hi
      rw [h1, h2, List.getD_cons_zero]
    · simp only [if_neg hi]
      rw [hrec (i - 7)]
      have h7 : 7 ≤ i := Nat.le_of_not_lt hi
      have h1 : i / 7 = (i - 7) / 7 + 1 := by omega
      have h2 : i % 7 = (i - 7) % 7 := by omega
      rw [h1, h2, List.getD_cons_succ]

theorem fromDigs_inj (as bs : List Nat) (hlen : as.length = bs.length)
    (ha : ∀ d ∈ as, d < 2 ^ 7) (hb : ∀ d ∈ bs, d < 2 ^ 7)
    (h : fromDigs as = fromDigs bs) : as = bs := by
  induction as generalizing bs with
  | nil => cases bs with
    | nil => rfl
    | cons b bs => simp at hlen
  | cons a as ih =>
    cases bs with
    | nil => simp at hlen
    | cons b bs =>
      have ha' : a < 2 ^ 7 := ha a (List.mem_cons_self a as)
      have hb' : b < 2 ^ 7 := hb b (List.mem_cons_self b bs)
      rw [fromDigs_cons, fromDigs_cons] at h
      have hab : a = b ∧ fromDigs as = fromDigs bs := by
        constructor <;> omega
      have := ih bs (by simpa using hlen)
        (fun x hx => ha x (List.mem_cons_of_mem a hx))
        (fun x hx => hb x (List.mem_cons_of_mem b hx)) hab.2
      rw [hab.1, this]

theorem getD_zipWith (f : Nat → Nat → Nat) (hf : f 0 0 = 0)
    (as bs : List Nat) (hlen : as.length = bs.length) (n : Nat) :
    (List.zipWith f as bs).getD n 0 = f (as.getD n 0) (bs.getD n 0) := by
  induction as generalizing bs n with
  | nil =>
    cases bs with
    | nil => simp [hf]
    | cons b bs => simp at hlen
  | cons a as ih =>
    cases bs with
    | nil => simp at hlen
    | cons b bs =>
      cases n with
      | zero => simp
      | succ n => simpa using ih bs (by simpa using hlen) n

theorem fromDigs_bitwise (f : Nat → Nat → Nat) (g : Bool → Bool → Bool)
    (hf : ∀ x y i, (f x y).testBit i = g (x.testBit i) (y.testBit i))
    (hg : g false false = false)
    (as bs : List Nat) (hlen : as.length = bs.length)
    (ha : ∀ d ∈ as, d < 2 ^ 7) (hb : ∀ d ∈ bs, d < 2 ^ 7) :
    f (fromDigs as) (fromDigs bs) = fromDigs (List.zipWith f as bs) := by
  have hbound : ∀ x y, x < 2 ^ 7 → y < 2 ^ 7 → f x y < 2 ^ 7 := by
    intro x y hx hy
    apply Nat.lt_pow_two_of_testBit
    intro i hi
    rw [hf, Nat.testBit_lt_two_pow (Nat.lt_of_lt_of_le hx (Nat.pow_le_pow_right (by omega) hi)),
      Nat.testBit_lt_two_pow (Nat.lt_of_lt_of_le hy (Nat.pow_le_pow_right (by omega) hi)), hg]
  have hf0 : f 0 0 = 0 := by
    apply Nat.eq_of_testBit_eq
    intro i
    rw [hf]
    simp [hg]
  have hgetD : ∀ (l : List Nat), (∀ d ∈ l, d < 2 ^ 7) → ∀ n, l.getD n 0 < 2 ^ 7 := by
    intro l hl n
    by_cases hn : n < l.length
    · rw [List.getD_eq_getElem l 0 hn]
      exact hl _ (List.getElem_mem hn)
    · rw [List.getD_eq_default l 0 (Nat.le_of_not_lt hn)]
      exact Nat.pos_pow_of_pos 7 (by omega)
  have hz : ∀ d ∈ List.zipWith f as bs, d < 2 ^ 7 := by
    intro d hd
    obtain ⟨n, hn, rfl⟩ := List.getElem_of_mem hd
    rw [List.getElem_zipWith]
    exact hbound _ _
      (by
        rw [← List.getD_eq_getElem as 0 (by simp at hn; omega)]
        exact hgetD as ha n)
      (by
        rw [← List.getD_eq_getElem bs 0 (by simp at hn; omega)]
        exact hgetD bs hb n)
  apply Nat.eq_of_testBit_eq
  intro i
  rw [hf, testBit_fromDigs as ha, testBit_fromDigs bs hb, testBit_fromDigs _ hz,
    getD_zipWith f hf0 as bs hlen, hf]

theorem getD_lt_two_pow (l : List Nat) (h : ∀ d ∈ l, d < 2 ^ 7) (n : Nat) :
    l.getD n 0 < 2 ^ 7 := by
  by_cases hn : n < l.length
  · rw [List.getD_eq_getElem l 0 hn]
    exact h _ (List.getElem_mem hn)
  · rw [List.getD_eq_default l 0 (Nat.le_of_not_lt hn)]
    exact Nat.pos_pow_of_pos 7 (by omega)

theorem u64_eq_of_lt {x : Nat} (h : x < 2 ^ 64) : u64 x = x :=
  Nat.mod_eq_of_lt h

theorem fromDigs_add (as bs : List Nat) (hlen : as.length = bs.length) :
    fromDigs as + fromDigs bs = fromDigs (List.zipWith (· + ·) as bs) := by
  induction as generalizing bs with
  | nil => cases bs with
    | nil => rfl
    | cons b bs => simp at hlen
  | cons a as ih =>
    cases bs with
    | nil => simp at hlen
    | cons b bs =>
      simp only [List.zipWith_cons_cons, fromDigs_cons]
      rw [← ih bs (by simpa using hlen)]
      ring

theorem fromDigs_add_pow (os : List Nat) (c : Nat) (hc : c < os.length) :
    fromDigs os + 2 ^ (7 * c) = fromDigs (os.set c (os.getD c 0 + 1)) := by
  induction os generalizing c with
  | nil => simp at hc
  | cons o os ih =>
    cases c with
    | zero =>
      simp only [List.set_cons_zero, fromDigs_cons, List.getD_cons_zero]
      ring
    | succ c =>
      simp only [List.set_cons_succ, fromDigs_cons, List.getD_cons_succ]
      rw [← ih c (by simpa using hc)]
      have : 2 ^ (7 * (c + 1)) = 2 ^ 7 * 2 ^ (7 * c) := by
        rw [← Nat.pow_add]; ring_nf
      rw [this]
      ring

theorem fromDigs_single (c v : Nat) (hc : c < 7) :
    fromDigs ((List.replicate 7 0).set c v) = v * 2 ^ (7 * c) := by
  interval_cases c <;> simp [List.replicate, fromDigs] <;> ring

theorem sum_set_getD (l : List Nat) (c v : Nat) (hc : c < l.length) :
    (l.set c v).sum + l.getD c 0 = l.sum + v := by
  induction l generalizing c with
  | nil => simp at hc
  | cons x l ih =>
    cases c with
    | zero => simp [List.set_cons_zero]; ring
    | succ c =>
      simp only [List.set_cons_succ, List.sum_cons, List.getD_cons_succ]
      have := ih c (by simpa using hc)
      omega

theorem set_getD_self (l : List Nat) (c : Nat) :
    l.set c (l.getD c 0) = l := by
  induction l generalizing c with
  | nil => rfl
  | cons x l ih =>
    cases c with
    | zero => simp
    | succ c =>
      simp only [List.set_cons_succ, List.getD_cons_succ]
      rw [ih c]

theorem getD_set_self (l : List Nat) (c v : Nat) (hc : c < l.length) :
    (l.set c v).getD c 0 = v := by
  induction l generalizing c with
  | nil => simp at hc
  | cons x l ih =>
    cases c with
    | zero => simp
    | succ c =>
      simp only [List.set_cons_succ, List.getD_cons_succ]
      exact ih c (by simpa using hc)

theorem getD_set_ne (l : List Nat) (c i v : Nat) (hne : c ≠ i) :
    (l.set c v).getD i 0 = l.getD i 0 := by
  induction l generalizing c i with
  | nil => simp
  | cons x l ih =>
    cases c with
    | zero => cases i with
      | zero => omega
      | succ i => simp
    | succ c =>
      cases i with
      | zero => simp
      | succ i =>
        simp only [List.set_cons_succ, List.getD_cons_succ]
        exact ih c i (by omega)

theorem getD_map_pow (hs : List Nat) (c : Nat) (hc : c < hs.length) :
    (hs.map (fun h => 2 ^ h - 1)).getD c 0 = 2 ^ hs.getD c 0 - 1 := by
  induction hs generalizing c with
  | nil => simp at hc
  | cons x l ih =>
    cases c with
    | zero => simp
    | succ c =>
      simp only [List.map_cons, List.getD_cons_succ]
      exact ih c (by simpa using hc)

theorem forall_mem_of_forall_getD {P : Nat → Prop} (l : List Nat)
    (h : ∀ i, i < l.length → P (l.getD i 0)) : ∀ x ∈ l, P x := by
  intro x hx
  obtain ⟨n, hn, rfl⟩ := List.getElem_of_mem hx
  have := h n hn
  rwa [List.getD_eq_getElem l 0 hn] at this

theorem zipWith_self_id (f : Nat → Nat → Nat) (hid : ∀ x, f x x = x)
    (xs : List Nat) : List.zipWith f xs xs = xs := by
  induction xs with
  | nil => rfl
  | cons x xs ih => simp [hid, ih]

theorem zipWith_set_right (f : Nat → Nat → Nat) (hid : ∀ x, f x x = x)
    (xs : List Nat) (c v : Nat) (hc : c < xs.length) :
    List.zipWith f xs (xs.set c v) = xs.set c (f (xs.getD c 0) v) := by
  induction xs generalizing c with
  | nil => simp at hc
  | cons x xs ih =>
    cases c with
    | zero =>
      simp only [List.set_cons_zero, List.zipWith_cons_cons, List.getD_cons_zero]
      rw [zipWith_self_id f hid]
    | succ c =>
      simp only [List.set_cons_succ, List.zipWith_cons_cons, List.getD_cons_succ, hid]
      rw [ih c (by simpa using hc)]

/-! ### Mask normal forms -/

theorem bottom_piece_mask_eq (c : Nat) : bottom_piece_mask c = 2 ^ (7 * c) := by
  simp [bottom_piece_mask, bottom_index, HEIGHT, Nat.shiftLeft_eq, Nat.mul_comm]

theorem top_piece_mask_eq (c : Nat) : top_piece_mask c = 2 ^ (7 * c + 5) := by
  simp [top_piece_mask, bottom_index, HEIGHT, Nat.shiftLeft_eq, Nat.mul_comm]

theorem column_mask_eq (c : Nat) : column_mask c = 63 * 2 ^ (7 * c) := by
  simp [column_mask, FIRST_COLUMN_MASK, bottom_index, HEIGHT, Nat.shiftLeft_eq, Nat.mul_comm]

theorem BOTTOM_ROW_MASK_eq : BOTTOM_ROW_MASK = fromDigs (List.replicate 7 1) := by decide

theorem FULL_BOARD_MASK_eq : FULL_BOARD_MASK = fromDigs (List.replicate 7 63) := by decide

theorem testBit_column_mask (c i : Nat) :
    (column_mask c).testBit i = decide (7 * c ≤ i ∧ i < 7 * c + 6) := by
  rw [column_mask_eq]
  have h63 : (63 : Nat) = 2 ^ 6 - 1 := by norm_num
  rw [Nat.mul_comm, Nat.testBit_mul_pow_two, h63, Nat.testBit_two_pow_sub_one]
  by_cases hge : 7 * c ≤ i
  · simp only [ge_iff_le, hge, decide_True, Bool.true_and, decide_eq_decide, true_and]
    omega
  · simp [hge]

/-- Bits `[7c, 7c+6)` of a right-shifted digit decomposition: the shifted
column digit. -/
theorem shiftr_mask_col (ds : List Nat) (hds : ∀ d ∈ ds, d < 2 ^ 7) (c : Nat) :
    (fromDigs ds >>> 1) &&& column_mask c = (ds.getD c 0 / 2) * 2 ^ (7 * c) := by
  apply Nat.eq_of_testBit_eq
  intro i
  rw [Nat.testBit_and, Nat.testBit_shiftRight, testBit_fromDigs ds hds,
    testBit_column_mask, Nat.mul_comm (ds.getD c 0 / 2), Nat.testBit_mul_pow_two]
  by_cases hin : 7 * c ≤ i ∧ i < 7 * c + 6
  · have h1 : (1 + i) / 7 = c := by omega
    have h2 : (1 + i) % 7 = i - 7 * c + 1 := by omega
    rw [h1, h2]
    simp only [hin, and_self, decide_True, Bool.and_true, ge_iff_le, hin.1, Bool.true_and]
    rw [← Nat.testBit_div_two]
  · simp only [hin, decide_False, Bool.and_false]
    by_cases hge : 7 * c ≤ i
    · have h6 : 7 * c + 6 ≤ i := by omega
      simp only [ge_iff_le, hge, decide_True, Bool.true_and]
      have : ds.getD c 0 / 2 < 2 ^ 6 := by
        have := getD_lt_two_pow ds hds c
        omega
      rw [Nat.testBit_lt_two_pow]
      calc ds.getD c 0 / 2 < 2 ^ 6 := this
        _ ≤ 2 ^ (i - 7 * c) := Nat.pow_le_pow_right (by omega) (by omega)
    · simp [hge]

/-! ### The reachable-board invariant -/

/-- Well-formed per-column data: seven heights at most 6, and seven
current-player column digits fitting under the column heights. -/
def ColsOk (hs ps : List Nat) : Prop :=
  hs.length = 7 ∧ ps.length = 7 ∧
    ∀ i, i < 7 → hs.getD i 0 ≤ 6 ∧ ps.getD i 0 < 2 ^ hs.getD i 0

/-- Digit list of the occupancy bitboard determined by column heights. -/
def occDigs (hs : List Nat) : List Nat := hs.map (fun h => 2 ^ h - 1)

/-- The board is assembled from the given column data. -/
def reprOf (hs ps : List Nat) (b : Board) : Prop :=
  b.occupied_bb = fromDigs (occDigs hs) ∧ b.player_bb = fromDigs ps ∧
    b.num_moves = hs.sum

/-- The gravity/sentinel invariant of well-formed boards. -/
def ValidB (b : Board) : Prop := ∃ hs ps, ColsOk hs ps ∧ reprOf hs ps b

/-- Boards reachable from the empty board by playing into open columns. -/
inductive ReachableB : Board → Prop where
  | empty : ReachableB Board.new
  | step {b : Board} {c : Nat} : ReachableB b → c < 7 → b.is_open c = true →
      ReachableB (b.play_unchecked c)

theorem occDigs_lt (hs : List Nat)
    (h : ∀ i, i < hs.length → hs.getD i 0 ≤ 6) :
    ∀ d ∈ occDigs hs, d < 2 ^ 7 := by
  intro d hd
  obtain ⟨x, hx, rfl⟩ := List.mem_map.mp hd
  obtain ⟨n, hn, rfl⟩ := List.getElem_of_mem hx
  have := h n hn
  rw [List.getD_eq_getElem hs 0 hn] at this
  have : 2 ^ hs[n] ≤ 2 ^ 6 := Nat.pow_le_pow_right (by omega) this
  omega

theorem ps_lt (hs ps : List Nat) (hok : ColsOk hs ps) : ∀ d ∈ ps, d < 2 ^ 7 := by
  obtain ⟨hl, pl, hb⟩ := hok
  apply forall_mem_of_forall_getD
  intro i hi
  rw [pl] at hi
  have h1 := (hb i hi).1
  have h2 := (hb i hi).2
  have : 2 ^ hs.getD i 0 ≤ 2 ^ 6 := Nat.pow_le_pow_right (by omega) h1
  omega

theorem occDigs_length (hs : List Nat) : (occDigs hs).length = hs.length := by
  simp [occDigs]

theorem sum_le_len_mul (l : List Nat) (n : Nat) (h : ∀ x ∈ l, x ≤ n) :
    l.sum ≤ l.length * n := by
  induction l with
  | nil => simp
  | cons x l ih =>
    simp only [List.sum_cons, List.length_cons]
    have hx := h x (List.mem_cons_self x l)
    have := ih (fun y hy => h y (List.mem_cons_of_mem x hy))
    have hrw : (l.length + 1) * n = l.length * n + n := by ring
    omega

theorem hs_sum_le (hs : List Nat) (hlen : hs.length = 7)
    (h : ∀ i, i < 7 → hs.getD i 0 ≤ 6) : hs.sum ≤ 42 := by
  have hmem : ∀ x ∈ hs, x ≤ 6 := by
    apply forall_mem_of_forall_getD
    intro i hi
    exact h i (hlen ▸ hi)
  have := sum_le_len_mul hs 6 hmem
  omega

theorem open_height_le (hs ps : List Nat) (b : Board) (hok : ColsOk hs ps)
    (hrep : reprOf hs ps b) (c : Nat) (hc : c < 7) (hopen : b.is_open c = true) :
    hs.getD c 0 ≤ 5 := by
  obtain ⟨hlen, plen, hbound⟩ := hok
  obtain ⟨ho, hp, hm⟩ := hrep
  have hos_lt : ∀ d ∈ occDigs hs, d < 2 ^ 7 :=
    occDigs_lt hs (fun i hi => (hbound i (hlen ▸ hi)).1)
  have h0 : b.occupied_bb &&& top_piece_mask c = 0 := by
    simpa [Board.is_open] using hopen
  have htop : b.occupied_bb.testBit (7 * c + 5) = false := by
    have h1 := congrArg (fun x : Nat => x.testBit (7 * c + 5)) h0
    simp only [Nat.testBit_and, top_piece_mask_eq c, Nat.testBit_two_pow_self,
      Bool.and_true, Nat.zero_testBit] at h1
    exact h1
  have h2 : (2 ^ hs.getD c 0 - 1).testBit 5 = false := by
    rw [ho, testBit_fromDigs (occDigs hs) hos_lt] at htop
    have hdiv : (7 * c + 5) / 7 = c := by omega
    have hmod : (7 * c + 5) % 7 = 5 := by omega
    rw [hdiv, hmod, occDigs, getD_map_pow hs c (by omega)] at htop
    exact htop
  rw [Nat.testBit_two_pow_sub_one] at h2
  simpa using h2

/-- Playing an open column of a well-formed board bumps its height digit and
xors the player digits with the occupancy digits. -/
theorem play_repr (hs ps : List Nat) (b : Board) (hok : ColsOk hs ps)
    (hrep : reprOf hs ps b) (c : Nat) (hc : c < 7) (hopen : b.is_open c = true) :
    ColsOk (hs.set c (hs.getD c 0 + 1)) (List.zipWith (· ^^^ ·) ps (occDigs hs)) ∧
    reprOf (hs.set c (hs.getD c 0 + 1)) (List.zipWith (· ^^^ ·) ps (occDigs hs))
      (b.play_unchecked c) := by
  have hh5 := open_height_le hs ps b hok hrep c hc hopen
  obtain ⟨hlen, plen, hbound⟩ := hok
  obtain ⟨ho, hp, hm⟩ := hrep
  have hoslen : (occDigs hs).length = 7 := by rw [occDigs_length, hlen]
  have hos_lt : ∀ d ∈ occDigs hs, d < 2 ^ 7 :=
    occDigs_lt hs (fun i hi => (hbound i (hlen ▸ hi)).1)
  have hps_lt : ∀ d ∈ ps, d < 2 ^ 7 := ps_lt hs ps ⟨hlen, plen, hbound⟩
  have hgetc : (occDigs hs).getD c 0 = 2 ^ hs.getD c 0 - 1 :=
    getD_map_pow hs c (by omega)
  have hpow_pos : 0 < 2 ^ hs.getD c 0 := Nat.pos_pow_of_pos _ (by omega)
  -- the move bitboard
  have hmove : u64 (b.occupied_bb + bottom_piece_mask c) =
      fromDigs ((occDigs hs).set c (2 ^ hs.getD c 0)) := by
    have hset_lt : ∀ d ∈ (occDigs hs).set c (2 ^ hs.getD c 0), d < 2 ^ 7 := by
      intro d hd
      rcases List.mem_or_eq_of_mem_set hd with hmem | rfl
      · exact hos_lt d hmem
      · calc 2 ^ hs.getD c 0 ≤ 2 ^ 5 := Nat.pow_le_pow_right (by omega) hh5
          _ < 2 ^ 7 := by norm_num
    have hlt : fromDigs ((occDigs hs).set c (2 ^ hs.getD c 0)) < 2 ^ 64 := by
      have := fromDigs_lt _ hset_lt
      rw [List.length_set, hoslen] at this
      calc fromDigs ((occDigs hs).set c (2 ^ hs.getD c 0)) < 2 ^ (7 * 7) := this
        _ ≤ 2 ^ 64 := Nat.pow_le_pow_right (by omega) (by omega)
    rw [ho, bottom_piece_mask_eq, fromDigs_add_pow (occDigs hs) c (by omega), hgetc]
    rw [show 2 ^ hs.getD c 0 - 1 + 1 = 2 ^ hs.getD c 0 by omega]
    exact u64_eq_of_lt hlt
  -- the occupancy digit of the played column
  have hor : (2 ^ hs.getD c 0 - 1) ||| 2 ^ hs.getD c 0 = 2 ^ (hs.getD c 0 + 1) - 1 := by
    have hor1 := Nat.mul_add_lt_is_or (show 2 ^ hs.getD c 0 - 1 < 2 ^ hs.getD c 0 by omega) 1
    rw [Nat.mul_one] at hor1
    rw [Nat.lor_comm, ← hor1, Nat.pow_succ]
    omega
  have hocc' : b.occupied_bb ||| fromDigs ((occDigs hs).set c (2 ^ hs.getD c 0)) =
      fromDigs (occDigs (hs.set c (hs.getD c 0 + 1))) := by
    rw [ho, fromDigs_bitwise (· ||| ·) (· || ·) Nat.testBit_or rfl _ _
      (by rw [List.length_set]) hos_lt (by
        intro d hd
        rcases List.mem_or_eq_of_mem_set hd with hmem | rfl
        · exact hos_lt d hmem
        · calc 2 ^ hs.getD c 0 ≤ 2 ^ 5 := Nat.pow_le_pow_right (by omega) hh5
            _ < 2 ^ 7 := by norm_num)]
    rw [zipWith_set_right (· ||| ·) Nat.or_self (occDigs hs) c _ (by omega), hgetc, hor]
    congr 1
    simp only [occDigs, List.map_set]
  constructor
  · -- ColsOk of the updated lists
    refine ⟨by simp [hlen], by simp [List.length_zipWith, plen, occDigs_length, hlen], ?_⟩
    intro i hi
    have hzip : (List.zipWith (· ^^^ ·) ps (occDigs hs)).getD i 0 =
        ps.getD i 0 ^^^ (occDigs hs).getD i 0 :=
      getD_zipWith (· ^^^ ·) rfl ps (occDigs hs) (by rw [plen, occDigs_length, hlen]) i
    have hgi : (occDigs hs).getD i 0 = 2 ^ hs.getD i 0 - 1 :=
      getD_map_pow hs i (by omega)
    by_cases hic : i = c
    · subst hic
      rw [getD_set_self hs i _ (by omega), hzip, hgi]
      refine ⟨by omega, ?_⟩
      apply Nat.xor_lt_two_pow
      · calc ps.getD i 0 < 2 ^ hs.getD i 0 := (hbound i hi).2
          _ ≤ 2 ^ (hs.getD i 0 + 1) := Nat.pow_le_pow_right (by omega) (by omega)
      · have : (0:Nat) < 2 ^ hs.getD i 0 := hpow_pos
        calc 2 ^ hs.getD i 0 - 1 < 2 ^ hs.getD i 0 := by omega
          _ ≤ 2 ^ (hs.getD i 0 + 1) := Nat.pow_le_pow_right (by omega) (by omega)
    · rw [getD_set_ne hs c i _ (fun h => hic h.symm), hzip, hgi]
      refine ⟨(hbound i hi).1, ?_⟩
      apply Nat.xor_lt_two_pow (hbound i hi).2
      have : (0:Nat) < 2 ^ hs.getD i 0 := Nat.pos_pow_of_pos _ (by omega)
      omega
  · -- reprOf of the played board
    refine ⟨?_, ?_, ?_⟩
    · show b.occupied_bb ||| u64 (b.occupied_bb + bottom_piece_mask c) = _
      rw [hmove, hocc']
    · show b.player_bb ^^^ b.occupied_bb = _
      rw [hp, ho]
      exact fromDigs_bitwise (· ^^^ ·) (fun x y => xor x y) Nat.testBit_xor rfl ps
        (occDigs hs) (by rw [plen, occDigs_length, hlen]) hps_lt hos_lt
    · show (b.num_moves + 1) % 256 = _
      have hsum := sum_set_getD hs c (hs.getD c 0 + 1) (by omega)
      have hle := hs_sum_le hs hlen (fun i hi => (hbound i hi).1)
      rw [hm]
      omega

theorem zipWith_replicate_zero (f : Nat → Nat → Nat) (hid : ∀ x, f x 0 = x)
    (xs : List Nat) : List.zipWith f xs (List.replicate xs.length 0) = xs := by
  induction xs with
  | nil => rfl
  | cons x xs ih => simp [List.replicate_succ, hid, ih]

theorem zipWith_replicate_set (f : Nat → Nat → Nat) (hid : ∀ x, f x 0 = x)
    (xs : List Nat) (c v : Nat) (hc : c < xs.length) :
    List.zipWith f xs ((List.replicate xs.length 0).set c v) =
      xs.set c (f (xs.getD c 0) v) := by
  induction xs generalizing c with
  | nil => simp at hc
  | cons x xs ih =>
    cases c with
    | zero =>
      simp only [List.length_cons, List.replicate_succ, List.set_cons_zero,
        List.zipWith_cons_cons, List.getD_cons_zero]
      rw [zipWith_replicate_zero f hid]
    | succ c =>
      simp only [List.length_cons, List.replicate_succ, List.set_cons_succ,
        List.zipWith_cons_cons, List.getD_cons_succ, hid]
      rw [ih c (by simpa using hc)]

theorem list_ext_getD (as bs : List Nat) (hlen : as.length = bs.length)
    (h : ∀ i, i < as.length → as.getD i 0 = bs.getD i 0) : as = bs := by
  induction as generalizing bs with
  | nil => cases bs with
    | nil => rfl
    | cons b bs => simp at hlen
  | cons a as ih =>
    cases bs with
    | nil => simp at hlen
    | cons b bs =>
      have h0 := h 0 (by simp)
      simp only [List.getD_cons_zero] at h0
      rw [h0, ih bs (by simpa using hlen)]
      intro i hi
      have := h (i + 1) (by simpa using hi)
      simpa using this

/-- Every reachable board satisfies the column-data invariant. -/
theorem reachable_valid {b : Board} (h : ReachableB b) : ValidB b := by
  induction h with
  | empty =>
    refine ⟨List.replicate 7 0, List.replicate 7 0, ⟨by simp, by simp, ?_⟩, ?_, ?_, ?_⟩
    · intro i hi
      interval_cases i <;> exact ⟨by decide, by decide⟩
    · show (0 : Nat) = _
      decide
    · show (0 : Nat) = _
      decide
    · show (0 : Nat) = _
      decide
  | step hr hc hopen ih =>
    obtain ⟨hs, ps, hok, hrep⟩ := ih
    obtain ⟨hok2, hrep2⟩ := play_repr hs ps _ hok hrep _ hc hopen
    exact ⟨_, _, hok2, hrep2⟩

theorem digit_decomp_unique (h1 h2 p1 p2 : Nat) (hh1 : h1 ≤ 6) (hh2 : h2 ≤ 6)
    (hp1 : p1 < 2 ^ h1) (hp2 : p2 < 2 ^ h2)
    (heq : p1 + (2 ^ h1 - 1) = p2 + (2 ^ h2 - 1)) : h1 = h2 ∧ p1 = p2 := by
  interval_cases h1 <;> interval_cases h2 <;> omega

/-- `Board::key` determines a well-formed board completely. -/
theorem valid_key_inj (b1 b2 : Board) (h1 : ValidB b1) (h2 : ValidB b2)
    (hk : b1.key = b2.key) : b1 = b2 := by
  obtain ⟨hs1, ps1, ⟨hl1, pl1, hb1⟩, ho1, hp1, hm1⟩ := h1
  obtain ⟨hs2, ps2, ⟨hl2, pl2, hb2⟩, ho2, hp2, hm2⟩ := h2
  have key_digits : ∀ (hs ps : List Nat), hs.length = 7 → ps.length = 7 →
      (∀ i, i < 7 → hs.getD i 0 ≤ 6 ∧ ps.getD i 0 < 2 ^ hs.getD i 0) →
      ∀ d ∈ List.zipWith (· + ·) ps (occDigs hs), d < 2 ^ 7 := by
    intro hs ps hl pl hb
    apply forall_mem_of_forall_getD
    intro i hi
    rw [List.length_zipWith, pl, occDigs_length, hl] at hi
    rw [getD_zipWith (· + ·) rfl ps (occDigs hs) (by rw [pl, occDigs_length, hl]) i]
    rw [occDigs, getD_map_pow hs i (by omega)]
    have hh := (hb i (by omega)).1
    have hp := (hb i (by omega)).2
    have : 2 ^ hs.getD i 0 ≤ 2 ^ 6 := Nat.pow_le_pow_right (by omega) hh
    omega
  have hkey : ∀ (hs ps : List Nat) (b : Board), hs.length = 7 → ps.length = 7 →
      (∀ i, i < 7 → hs.getD i 0 ≤ 6 ∧ ps.getD i 0 < 2 ^ hs.getD i 0) →
      b.occupied_bb = fromDigs (occDigs hs) → b.player_bb = fromDigs ps →
      b.key = fromDigs (List.zipWith (· + ·) ps (occDigs hs)) := by
    intro hs ps b hl pl hb ho hp
    show u64 _ = _
    rw [ho, hp, fromDigs_add ps (occDigs hs) (by rw [pl, occDigs_length, hl])]
    apply u64_eq_of_lt
    have := fromDigs_lt _ (key_digits hs ps hl pl hb)
    rw [List.length_zipWith, pl, occDigs_length, hl] at this
    calc fromDigs (List.zipWith (· + ·) ps (occDigs hs)) < 2 ^ (7 * min 7 7) := this
      _ ≤ 2 ^ 64 := Nat.pow_le_pow_right (by omega) (by norm_num)
  rw [hkey hs1 ps1 b1 hl1 pl1 hb1 ho1 hp1, hkey hs2 ps2 b2 hl2 pl2 hb2 ho2 hp2] at hk
  have hlists := fromDigs_inj _ _
    (by rw [List.length_zipWith, List.length_zipWith, pl1, pl2, occDigs_length,
      occDigs_length, hl1, hl2])
    (key_digits hs1 ps1 hl1 pl1 hb1) (key_digits hs2 ps2 hl2 pl2 hb2) hk
  have hpoint : ∀ i, i < 7 → hs1.getD i 0 = hs2.getD i 0 ∧ ps1.getD i 0 = ps2.getD i 0 := by
    intro i hi
    have := congrArg (fun l => l.getD i 0) hlists
    simp only at this
    rw [getD_zipWith (· + ·) rfl ps1 (occDigs hs1) (by rw [pl1, occDigs_length, hl1]) i,
      getD_zipWith (· + ·) rfl ps2 (occDigs hs2) (by rw [pl2, occDigs_length, hl2]) i,
      occDigs, occDigs, getD_map_pow hs1 i (by omega), getD_map_pow hs2 i (by omega)] at this
    have r := digit_decomp_unique (hs1.getD i 0) (hs2.getD i 0) (ps1.getD i 0) (ps2.getD i 0)
      (hb1 i hi).1 (hb2 i hi).1 (hb1 i hi).2 (hb2 i hi).2 (by omega)
    exact r
  have hhs : hs1 = hs2 := by
    apply list_ext_getD hs1 hs2 (by rw [hl1, hl2])
    intro i hi
    exact (hpoint i (by omega)).1
  have hps : ps1 = ps2 := by
    apply list_ext_getD ps1 ps2 (by rw [pl1, pl2])
    intro i hi
    exact (hpoint i (by omega)).2
  cases b1 with
  | mk q1 c1 n1 =>
    cases b2 with
    | mk q2 c2 n2 =>
      simp only at ho1 hp1 hm1 ho2 hp2 hm2
      rw [Board.mk.injEq]
      refine ⟨?_, ?_, ?_⟩
      · rw [hp1, hp2, hps]
      · rw [ho1, ho2, hhs]
      · rw [hm1, hm2, hhs]

theorem xor_top_digit (h : Nat) (hh : h ≤ 5) :
    (2 ^ (h + 1) - 1) ^^^ 2 ^ h = 2 ^ h - 1 := by
  interval_cases h <;> decide

/-- Round trip at the digit level: `undo_unchecked` after `play_unchecked`
restores a well-formed board exactly. -/
theorem play_undo (hs ps : List Nat) (b : Board) (hok : ColsOk hs ps)
    (hrep : reprOf hs ps b) (c : Nat) (hc : c < 7) (hopen : b.is_open c = true) :
    (b.play_unchecked c).undo_unchecked c = b := by
  have hh5 := open_height_le hs ps b hok hrep c hc hopen
  obtain ⟨hok2, hrep2⟩ := play_repr hs ps b hok hrep c hc hopen
  obtain ⟨hlen, plen, hbound⟩ := hok
  obtain ⟨ho, hp, hm⟩ := hrep
  obtain ⟨hlen2, plen2, hbound2⟩ := hok2
  obtain ⟨ho2, hp2, hm2⟩ := hrep2
  have hgetc : (occDigs hs).getD c 0 = 2 ^ hs.getD c 0 - 1 :=
    getD_map_pow hs c (by omega)
  have hos2 : occDigs (hs.set c (hs.getD c 0 + 1)) =
      (occDigs hs).set c (2 ^ (hs.getD c 0 + 1) - 1) := by
    simp only [occDigs, List.map_set]
  have hos2len : (occDigs (hs.set c (hs.getD c 0 + 1))).length = 7 := by
    rw [occDigs_length, List.length_set, hlen]
  have hos2getc : (occDigs (hs.set c (hs.getD c 0 + 1))).getD c 0 =
      2 ^ (hs.getD c 0 + 1) - 1 := by
    rw [hos2, getD_set_self _ c _ (by rw [occDigs_length, hlen]; omega)]
  have hos2_lt : ∀ d ∈ occDigs (hs.set c (hs.getD c 0 + 1)), d < 2 ^ 7 :=
    occDigs_lt _ (fun i hi => (hbound2 i (by rwa [List.length_set, hlen] at hi)).1)
  have hpow1 : 0 < 2 ^ hs.getD c 0 := Nat.pos_pow_of_pos _ (by omega)
  have hpow2 : 2 ^ (hs.getD c 0 + 1) ≤ 2 ^ 6 := Nat.pow_le_pow_right (by omega) (by omega)
  have hpow3 : 0 < 2 ^ (hs.getD c 0 + 1) := Nat.pos_pow_of_pos _ (by omega)
  -- the digit list after the undo addition
  have hset_lt : ∀ d ∈ (occDigs (hs.set c (hs.getD c 0 + 1))).set c
      (2 ^ (hs.getD c 0 + 1)), d < 2 ^ 7 := by
    intro d hd
    rcases List.mem_or_eq_of_mem_set hd with hmem | rfl
    · exact hos2_lt d hmem
    · omega
  have hX : u64 ((b.play_unchecked c).occupied_bb + bottom_piece_mask c) =
      fromDigs ((occDigs (hs.set c (hs.getD c 0 + 1))).set c (2 ^ (hs.getD c 0 + 1))) := by
    rw [ho2, bottom_piece_mask_eq,
      fromDigs_add_pow _ c (by rw [occDigs_length, List.length_set, hlen]; omega),
      hos2getc, show 2 ^ (hs.getD c 0 + 1) - 1 + 1 = 2 ^ (hs.getD c 0 + 1) by omega]
    apply u64_eq_of_lt
    have := fromDigs_lt _ hset_lt
    rw [List.length_set, hos2len] at this
    calc fromDigs _ < 2 ^ (7 * 7) := this
      _ ≤ 2 ^ 64 := Nat.pow_le_pow_right (by omega) (by omega)
  have hmasked : (fromDigs ((occDigs (hs.set c (hs.getD c 0 + 1))).set c
        (2 ^ (hs.getD c 0 + 1))) >>> 1) &&& column_mask c =
      fromDigs ((List.replicate 7 0).set c (2 ^ hs.getD c 0)) := by
    rw [shiftr_mask_col _ hset_lt c,
      getD_set_self _ c _ (by rw [hos2len]; omega),
      fromDigs_single c _ hc]
    congr 1
    rw [Nat.pow_succ]
    omega
  have hsingle_lt : ∀ d ∈ (List.replicate 7 0).set c (2 ^ hs.getD c 0), d < 2 ^ 7 := by
    intro d hd
    rcases List.mem_or_eq_of_mem_set hd with hmem | rfl
    · have := List.eq_of_mem_replicate hmem
      omega
    · have : 2 ^ hs.getD c 0 ≤ 2 ^ 5 := Nat.pow_le_pow_right (by omega) hh5
      omega
  have hocc_eq : (b.play_unchecked c).occupied_bb ^^^
      (((u64 ((b.play_unchecked c).occupied_bb + bottom_piece_mask c)) >>> 1)
        &&& column_mask c) = b.occupied_bb := by
    rw [hX, hmasked, ho2]
    rw [fromDigs_bitwise (· ^^^ ·) (fun x y => xor x y) Nat.testBit_xor rfl _ _
      (by rw [List.length_set, List.length_replicate, hos2len]) hos2_lt hsingle_lt]
    rw [show (List.replicate 7 0) = List.replicate
      (occDigs (hs.set c (hs.getD c 0 + 1))).length 0 by rw [hos2len]]
    rw [zipWith_replicate_set (· ^^^ ·) Nat.xor_zero _ c _ (by rw [hos2len]; omega)]
    rw [hos2getc, xor_top_digit _ hh5, hos2, List.set_set, ← hgetc,
      set_getD_self _ c, ho]
  have hnum : ((b.play_unchecked c).num_moves + 255) % 256 = b.num_moves := by
    have hle := hs_sum_le hs hlen (fun i hi => (hbound i hi).1)
    show ((b.num_moves + 1) % 256 + 255) % 256 = b.num_moves
    rw [hm]
    omega
  have hpl : (b.play_unchecked c).player_bb ^^^ b.occupied_bb = b.player_bb := by
    show (b.player_bb ^^^ b.occupied_bb) ^^^ b.occupied_bb = b.player_bb
    rw [Nat.xor_assoc, Nat.xor_self, Nat.xor_zero]
  show Board.mk _ _ _ = b
  have hb : b = Board.mk b.player_bb b.occupied_bb b.num_moves := rfl
  rw [hb, Board.mk.injEq]
  refine ⟨?_, hocc_eq, hnum⟩
  rw [hocc_eq]
  exact hpl

/-! ### Error atomicity of the Game entry points -/

theorem play_error_state (g : Game) (col : Nat) (e : MoveError)
    (h : (g.play col).1 = .error e) : (g.play col).2 = g := by
  unfold Game.play at h ⊢
  cases hcp : g.can_play col with
  | error e2 => simp [hcp]
  | ok row => simp [hcp] at h

theorem playChars_error_prefix : ∀ (cs : List Char) (g : Game) (e : MoveError)
    (g' : Game), playChars g cs = (some e, g') →
    ∃ k, k ≤ cs.length ∧ playChars g (cs.take k) = (none, g') := by
  intro cs
  induction cs with
  | nil =>
    intro g e g' h
    simp [playChars] at h
  | cons c cs ih =>
    intro g e g' h
    rw [playChars] at h
    cases hcc : char_to_col c with
    | error e2 =>
      rw [hcc] at h
      refine ⟨0, by omega, ?_⟩
      simp only [List.take_zero, playChars]
      obtain ⟨h1, h2⟩ := Prod.mk.injEq _ _ _ _ ▸ h
      simp_all
    | ok col =>
      rw [hcc] at h
      dsimp only at h
      cases hpl : g.play col with
      | mk res g1 =>
        rw [hpl] at h
        cases res with
        | error e2 =>
          dsimp only at h
          have hst : g1 = g := by
            have := play_error_state g col e2 (by rw [hpl])
            rw [hpl] at this
            exact this
          refine ⟨0, by omega, ?_⟩
          simp only [List.take_zero, playChars]
          simp only [Prod.mk.injEq] at h
          simp_all
        | ok row =>
          dsimp only at h
          obtain ⟨k, hk, hpre⟩ := ih g1 e g' h
          refine ⟨k + 1, by simpa using Nat.succ_le_succ hk, ?_⟩
          simp only [List.take_succ_cons, playChars, hcc, hpl]
          exact hpre

theorem play_str_error_prefix (g : Game) (s : List Char) (e : MoveError) (g' : Game)
    (h : g.play_str s = some (.error e, g')) :
    ∃ k, k ≤ s.dropLast.length ∧ playChars g (s.dropLast.take k) = (none, g') := by
  unfold Game.play_str at h
  cases hl : s.getLast? with
  | none => rw [hl] at h; simp at h
  | some last_char =>
    rw [hl] at h
    dsimp only at h
    cases hcc : char_to_col last_char with
    | error e2 =>
      rw [hcc] at h
      dsimp only at h
      simp only [Option.some.injEq, Prod.mk.injEq] at h
      refine ⟨0, by omega, ?_⟩
      simp only [List.take_zero, playChars]
      rw [h.2]
    | ok last =>
      rw [hcc] at h
      dsimp only at h
      cases hpc : playChars g s.dropLast with
      | mk r1 g1 =>
        rw [hpc] at h
        cases r1 with
        | some e2 =>
          dsimp only at h
          simp only [Option.some.injEq, Prod.mk.injEq] at h
          obtain ⟨k, hk, hpre⟩ := playChars_error_prefix s.dropLast g e2 g1 hpc
          exact ⟨k, hk, by rw [hpre, h.2]⟩
        | none =>
          dsimp only at h
          simp only [Option.some.injEq] at h
          have hst : (g1.play last).2 = g1 := by
            apply play_error_state g1 last e
            rw [h]
          refine ⟨s.dropLast.length, by omega, ?_⟩
          rw [List.take_length, hpc, ← hst, h]

/-! ### Scaffolding for concrete reachable boards -/

/-- Play a list of columns through checked legality (bounds and open column),
producing `none` if any move is illegal. -/
def playStepsB (b : Board) : List Nat → Option Board
  | [] => some b
  | c :: rest =>
    if _h : c < 7 ∧ b.is_open c = true then playStepsB (b.play_unchecked c) rest
    else none

theorem playStepsB_reachable : ∀ (l : List Nat) (b b' : Board), ReachableB b →
    playStepsB b l = some b' → ReachableB b' := by
  intro l
  induction l with
  | nil =>
    intro b b' hb h
    simp only [playStepsB, Option.some.injEq] at h
    rwa [← h]
  | cons c rest ih =>
    intro b b' hb h
    rw [playStepsB] at h
    split at h
    · next hcond => exact ih _ b' (ReachableB.step hb hcond.1 hcond.2) h
    · exact absurd h (by simp)

/-! ### Claim C7: play followed by undo restores the board -/

/-- C7: for every reachable position and every legal column `c` (in bounds and
not full), `play_unchecked c` followed by `undo_unchecked c` restores the
original board: `player_bb`, `occupied_bb` and the move counter. -/
theorem c7_play_undo_roundtrip (b : Board) (c : Nat) (hb : ReachableB b)
    (hc : c < 7) (hopen : b.is_open c = true) :
    (b.play_unchecked c).undo_unchecked c = b := by
  obtain ⟨hs, ps, hok, hrep⟩ := reachable_valid hb
  exact play_undo hs ps b hok hrep c hc hopen

/-- Witness for C7 at the empty board and column 3. -/
theorem c7_witness :
    (3 < 7 ∧ Board.new.is_open 3 = true) ∧
      (Board.new.play_unchecked 3).undo_unchecked 3 = Board.new :=
  ⟨⟨by decide, by decide⟩,
    c7_play_undo_roundtrip Board.new 3 ReachableB.empty (by decide) (by decide)⟩

/-! ### Claim C5: the transposition key is collision-free on reachable boards -/

/-- C5: `Board::key` is injective on boards reachable by legal play: two
reachable positions with equal keys are the same position.  Equivalently,
distinct reachable positions have distinct keys. -/
theorem c5_key_collision_free (b1 b2 : Board) (h1 : ReachableB b1)
    (h2 : ReachableB b2) (hk : b1.key = b2.key) : b1 = b2 :=
  valid_key_inj b1 b2 (reachable_valid (b := b1) h1) (reachable_valid (b := b2) h2) hk

/-- The position after the column sequence 1,1,2,2 (1-indexed). -/
def keyWitnessA : Board := (playStepsB Board.new [0, 0, 1, 1]).getD Board.new

/-- The position after the column sequence 2,2,1,1 (1-indexed): the same
position reached through a transposed move order. -/
def keyWitnessB : Board := (playStepsB Board.new [1, 1, 0, 0]).getD Board.new

/-- Witness for C5: two games transposing into the same position carry equal
keys, and the theorem identifies the boards. -/
theorem c5_witness : keyWitnessA.key = keyWitnessB.key ∧ keyWitnessA = keyWitnessB :=
  ⟨by decide,
    c5_key_collision_free keyWitnessA keyWitnessB
      (playStepsB_reachable [0, 0, 1, 1] Board.new keyWitnessA ReachableB.empty (by decide))
      (playStepsB_reachable [1, 1, 0, 0] Board.new keyWitnessB ReachableB.empty (by decide))
      (by decide)⟩

/-! ### Claim C10: a win on the final stone beats the draw in status -/

/-- C10: whenever the board is completely full (42 plies) and the player who
made the last move has completed four in a row, `Game::status` reports
`Win` for that player (the negation of the side to move), not `Draw`.  The
theorem holds for every such game state, reachable ones included. -/
theorem c10_win_over_draw (g : Game) (_hfull : AREA ≤ g.moves)
    (hwin : g.is_winning_board g.opponent_board = true) :
    g.status = Status.Win g.turn.other := by
  unfold Game.status Game.winner
  rw [hwin]
  simp

/-- The full-board winning game from the repository test `last_win`
(move string `111112222233333144444255555376666667777754`). -/
def game42 : Game :=
  (playChars Game.new "111112222233333144444255555376666667777754".toList).2

/-- Witness for C10: `game42` is full, has a winner, and `status` reports
`Win P2` rather than `Draw`. -/
theorem c10_witness :
    AREA ≤ game42.moves ∧ game42.is_winning_board game42.opponent_board = true ∧
      game42.status = Status.Win Player.P2 := by
  refine ⟨by decide, by decide, ?_⟩
  have h := c10_win_over_draw game42 (by decide) (by decide)
  rw [h]
  have : game42.turn.other = Player.P2 := by decide
  rw [this]

/-! ### Claim C4: error atomicity of the move entry points -/

/-- C4 counterexample: `play_str "4444444"` from the empty game returns
`ColumnFull`, but the game state is the six-stone column, not the pre-call
empty state: `play_str` is not atomic on error. -/
theorem c4_counterexample :
    Game.new.play_str ['4', '4', '4', '4', '4', '4', '4'] =
      some (.error .ColumnFull, Game.mk (21 * 2 ^ 21) (63 * 2 ^ 21) 6) ∧
      Game.mk (21 * 2 ^ 21) (63 * 2 ^ 21) 6 ≠ Game.new := by
  constructor
  · rfl
  · decide

/-- C4 amended: `Game::play` is atomic — on error the state is exactly the
pre-call state.  `Game::play_str` is not: on error the final state is the
state reached after successfully playing some prefix of the leading moves
(the empty prefix when the last character fails to parse or the first move
fails, but a proper prefix otherwise). -/
theorem c4_amended :
    (∀ (g : Game) (col : Nat) (e : MoveError),
      (g.play col).1 = .error e → (g.play col).2 = g) ∧
    (∀ (g : Game) (s : List Char) (e : MoveError) (g' : Game),
      g.play_str s = some (.error e, g') →
      ∃ k, k ≤ s.dropLast.length ∧ playChars g (s.dropLast.take k) = (none, g')) :=
  ⟨play_error_state, play_str_error_prefix⟩

/-- Witness for C4 amended: playing out-of-bounds column 7 errors and leaves
the empty game unchanged; the `"4444444"` string errors with the six-stone
column as the state after the 6-move prefix. -/
theorem c4_witness :
    ((Game.new.play 7).1 = .error .InvalidColumn ∧ (Game.new.play 7).2 = Game.new) ∧
      ∃ k, k ≤ (['4', '4', '4', '4', '4', '4', '4'] : List Char).dropLast.length ∧
        playChars Game.new ((['4', '4', '4', '4', '4', '4', '4'] : List Char).dropLast.take k) =
          (none, Game.mk (21 * 2 ^ 21) (63 * 2 ^ 21) 6) :=
  ⟨⟨rfl, c4_amended.1 Game.new 7 .InvalidColumn rfl⟩,
    c4_amended.2 Game.new ['4', '4', '4', '4', '4', '4', '4'] .ColumnFull
      (Game.mk (21 * 2 ^ 21) (63 * 2 ^ 21) 6) rfl⟩

/-! ### Claim C3: forced-block behavior of non_losing_moves_bb -/

theorem pow_and_pred (k : Nat) : 2 ^ k &&& (2 ^ k - 1) = 0 := by
  apply Nat.eq_of_testBit_eq
  intro i
  rw [Nat.testBit_and, Nat.testBit_two_pow, Nat.testBit_two_pow_sub_one, Nat.zero_testBit]
  by_cases h : k = i
  · subst h
    simp
  · simp [h]

theorem pow_and_eq_ite (k x : Nat) : 2 ^ k &&& x = if x.testBit k then 2 ^ k else 0 := by
  apply Nat.eq_of_testBit_eq
  intro i
  rw [Nat.testBit_and, Nat.testBit_two_pow]
  by_cases h : k = i
  · subst h
    cases hx : x.testBit k <;> simp [hx]
  · cases hx : x.testBit k <;> simp [h, Nat.testBit_two_pow, Nat.zero_testBit]

theorem testBit_u64not (x i : Nat) (hi : i < 64) :
    (u64not x).testBit i = !x.testBit i := by
  unfold u64not
  rw [Nat.testBit_xor, Nat.testBit_two_pow_sub_one]
  simp [hi]

/-- C3 amended: when the opponent has exactly one immediate winning reply
among the playable cells (`possible_bb &&& opponent winning_bb` is the single
bit `2 ^ k`), `non_losing_moves_bb` returns that blocking bit — unless the
cell directly above it is also an opponent winning cell, in which case it
returns 0 (blocking would hand the opponent the win on top). -/
theorem c3_single_forced_block (b : Board) (k : Nat)
    (hforced : b.possible_bb &&& b.winning_bb b.opponent_bb = 2 ^ k) :
    b.non_losing_moves_bb =
      if (b.winning_bb b.opponent_bb).testBit (k + 1) then 0 else 2 ^ k := by
  have hk64 : k < 49 := by
    have h1 : 2 ^ k ≤ b.possible_bb := by
      rw [← hforced]
      exact Nat.and_le_left
    have h2 : b.possible_bb ≤ FULL_BOARD_MASK := Nat.and_le_right
    have h3 : FULL_BOARD_MASK < 2 ^ 49 := by decide
    by_contra hcon
    have : 2 ^ 49 ≤ 2 ^ k := Nat.pow_le_pow_right (by omega) (by omega)
    omega
  simp only [Board.non_losing_moves_bb, hforced]
  have hpos : 0 < 2 ^ k := Nat.pos_pow_of_pos _ (by omega)
  have hne : (2 ^ k != 0) = true := by
    simp only [bne_iff_ne, ne_eq]
    omega
  have hand : (2 ^ k &&& (2 ^ k - 1) != 0) = false := by
    rw [pow_and_pred]
    simp
  rw [hne, if_pos rfl, hand, if_neg (by simp)]
  rw [pow_and_eq_ite, testBit_u64not _ _ (by omega), Nat.testBit_shiftRight]
  cases hb : (b.winning_bb b.opponent_bb).testBit (1 + k) with
  | false =>
    rw [show k + 1 = 1 + k by omega, hb]
    simp
  | true =>
    rw [show k + 1 = 1 + k by omega, hb]
    simp

/-- A reachable position in which the opponent threatens to win at the bottom
of column 4 (1-indexed) and directly above it: columns 1,2,3 hold two
opponent rows, columns 5,6,7 hold two mover rows. -/
def c3Board : Board :=
  (playStepsB Board.new [4, 0, 5, 1, 6, 2, 4, 0, 5, 1, 6, 2]).getD Board.new

/-- C3 counterexample: `c3Board` is reachable, non-terminal, and the opponent
has exactly one immediate winning reply among the playable cells (the bottom
of column 4) — yet `non_losing_moves_bb` returns 0, not that blocking bit,
because the cell above is also an opponent winning cell. -/
theorem c3_counterexample :
    ReachableB c3Board ∧ c3Board.is_terminal = false ∧
      c3Board.possible_bb &&& c3Board.winning_bb c3Board.opponent_bb =
        bottom_piece_mask 3 ∧
      c3Board.non_losing_moves_bb = 0 ∧ bottom_piece_mask 3 ≠ 0 :=
  ⟨playStepsB_reachable [4, 0, 5, 1, 6, 2, 4, 0, 5, 1, 6, 2] Board.new c3Board ReachableB.empty (by decide),
    by decide, by decide, by decide, by decide⟩

/-- A reachable position whose single forced block (top of column 7) is safe:
the blocking cell is returned. -/
def c3WitnessBoard : Board := (playStepsB Board.new [6, 3, 6, 4, 6]).getD Board.new

/-- Witness for C3 amended: the forced block at bit 45 is not under another
opponent threat, and `non_losing_moves_bb` returns exactly that bit. -/
theorem c3_witness :
    c3WitnessBoard.possible_bb &&& c3WitnessBoard.winning_bb c3WitnessBoard.opponent_bb =
      2 ^ 45 ∧
      c3WitnessBoard.non_losing_moves_bb =
        (if (c3WitnessBoard.winning_bb c3WitnessBoard.opponent_bb).testBit 46 then 0
          else 2 ^ 45) ∧
      c3WitnessBoard.non_losing_moves_bb = 2 ^ 45 :=
  ⟨by decide, c3_single_forced_block c3WitnessBoard 45 (by decide), by decide⟩

/-! ### Mirror on digit decompositions (for C8 and C6) -/

theorem fromDigs_and_column (ds : List Nat) (hds : ∀ d ∈ ds, d < 2 ^ 6) (c : Nat) :
    fromDigs ds &&& column_mask c = ds.getD c 0 * 2 ^ (7 * c) := by
  have hds7 : ∀ d ∈ ds, d < 2 ^ 7 := fun d hd => by
    have := hds d hd
    omega
  apply Nat.eq_of_testBit_eq
  intro i
  rw [Nat.testBit_and, testBit_fromDigs ds hds7, testBit_column_mask,
    Nat.mul_comm (ds.getD c 0), Nat.testBit_mul_pow_two]
  by_cases hin : 7 * c ≤ i ∧ i < 7 * c + 6
  · have h1 : i / 7 = c := by omega
    have h2 : i % 7 = i - 7 * c := by omega
    rw [h1, h2]
    simp only [hin, and_self, decide_True, Bool.and_true, ge_iff_le, hin.1, Bool.true_and]
  · simp only [hin, decide_False, Bool.and_false]
    by_cases hge : 7 * c ≤ i
    · have h6 : 7 * c + 6 ≤ i := by omega
      simp only [ge_iff_le, hge, decide_True, Bool.true_and]
      have hd : ds.getD c 0 < 2 ^ 6 := by
        by_cases hc : c < ds.length
        · rw [List.getD_eq_getElem ds 0 hc]
          exact hds _ (List.getElem_mem hc)
        · rw [List.getD_eq_default ds 0 (Nat.le_of_not_lt hc)]
          positivity
      rw [Nat.testBit_lt_two_pow]
      calc ds.getD c 0 < 2 ^ 6 := hd
        _ ≤ 2 ^ (i - 7 * c) := Nat.pow_le_pow_right (by omega) (by omega)
    · simp [hge]

theorem mul_pow_shl (d a s : Nat) : (d * 2 ^ a) <<< s = d * 2 ^ (a + s) := by
  rw [Nat.shiftLeft_eq, Nat.mul_assoc, ← Nat.pow_add]

theorem mul_pow_shr (d a s : Nat) (h : s ≤ a) : (d * 2 ^ a) >>> s = d * 2 ^ (a - s) := by
  have hsplit : 2 ^ a = 2 ^ (a - s) * 2 ^ s := by
    rw [← Nat.pow_add]
    congr 1
    omega
  rw [Nat.shiftRight_eq_div_pow, hsplit, ← Nat.mul_assoc,
    Nat.mul_div_cancel _ (Nat.pos_pow_of_pos s (by omega))]

theorem lor_add_of_bound (m A t q : Nat) (hA : A = 2 ^ m * q) (ht : t < 2 ^ m) :
    A ||| t = A + t := by
  subst hA
  rw [← Nat.mul_add_lt_is_or ht q]

/-- `mirror` reverses the seven column digits of an in-board bitboard. -/
theorem mirror_digs7 (d0 d1 d2 d3 d4 d5 d6 : Nat) (h0 : d0 < 2 ^ 6)
    (h1 : d1 < 2 ^ 6) (h2 : d2 < 2 ^ 6) (h3 : d3 < 2 ^ 6) (h4 : d4 < 2 ^ 6)
    (h5 : d5 < 2 ^ 6) (h6 : d6 < 2 ^ 6) :
    mirror (fromDigs [d0, d1, d2, d3, d4, d5, d6]) =
      fromDigs [d6, d5, d4, d3, d2, d1, d0] := by
  have hlt : ∀ d ∈ [d0, d1, d2, d3, d4, d5, d6], d < 2 ^ 6 := by
    intro d hd
    simp only [List.mem_cons, List.not_mem_nil, or_false] at hd
    rcases hd with rfl | rfl | rfl | rfl | rfl | rfl | rfl <;> assumption
  have hm := fromDigs_and_column [d0, d1, d2, d3, d4, d5, d6] hlt
  have hrange : List.range WIDTH = [0, 1, 2, 3, 4, 5, 6] := rfl
  unfold mirror
  rw [hrange]
  simp only [List.foldl_cons, List.foldl_nil, WIDTH]
  norm_num [bottom_index, HEIGHT]
  rw [hm 0, hm 1, hm 2, hm 3, hm 4, hm 5, hm 6]
  simp only [List.getD_cons_zero, List.getD_cons_succ]
  have e0 : (d0 * 2 ^ (7 * 0)) <<< 42 = d0 * 2 ^ 42 := by
    rw [mul_pow_shl]
  have e1 : (d1 * 2 ^ (7 * 1)) <<< 28 = d1 * 2 ^ 35 := by
    rw [mul_pow_shl]
  have e2 : (d2 * 2 ^ (7 * 2)) <<< 14 = d2 * 2 ^ 28 := by
    rw [mul_pow_shl]
  have e3 : d3 * 2 ^ (7 * 3) = d3 * 2 ^ 21 := by norm_num
  have e4 : (d4 * 2 ^ (7 * 4)) >>> 14 = d4 * 2 ^ 14 := by
    rw [mul_pow_shr d4 (7 * 4) 14 (by norm_num)]
  have e5 : (d5 * 2 ^ (7 * 5)) >>> 28 = d5 * 2 ^ 7 := by
    rw [mul_pow_shr d5 (7 * 5) 28 (by norm_num)]
  have e6 : (d6 * 2 ^ (7 * 6)) >>> 42 = d6 := by
    rw [mul_pow_shr d6 (7 * 6) 42 (by norm_num)]
    norm_num
  rw [e0, e1, e2, e3, e4, e5, e6]
  rw [lor_add_of_bound 41 (d0 * 2 ^ 42) (d1 * 2 ^ 35) (2 * d0) (by ring)
    (by calc d1 * 2 ^ 35 < 2 ^ 6 * 2 ^ 35 := by exact Nat.mul_lt_mul_of_lt_of_le h1 (le_refl _) (by positivity)
          _ = 2 ^ 41 := by norm_num)]
  rw [lor_add_of_bound 34 _ (d2 * 2 ^ 28) (d0 * 2 ^ 8 + d1 * 2) (by ring)
    (by calc d2 * 2 ^ 28 < 2 ^ 6 * 2 ^ 28 := by exact Nat.mul_lt_mul_of_lt_of_le h2 (le_refl _) (by positivity)
          _ = 2 ^ 34 := by norm_num)]
  rw [lor_add_of_bound 27 _ (d3 * 2 ^ 21) (d0 * 2 ^ 15 + d1 * 2 ^ 8 + d2 * 2) (by ring)
    (by calc d3 * 2 ^ 21 < 2 ^ 6 * 2 ^ 21 := by exact Nat.mul_lt_mul_of_lt_of_le h3 (le_refl _) (by positivity)
          _ = 2 ^ 27 := by norm_num)]
  rw [lor_add_of_bound 20 _ (d4 * 2 ^ 14) (d0 * 2 ^ 22 + d1 * 2 ^ 15 + d2 * 2 ^ 8 + d3 * 2) (by ring)
    (by calc d4 * 2 ^ 14 < 2 ^ 6 * 2 ^ 14 := by exact Nat.mul_lt_mul_of_lt_of_le h4 (le_refl _) (by positivity)
          _ = 2 ^ 20 := by norm_num)]
  rw [lor_add_of_bound 13 _ (d5 * 2 ^ 7)
    (d0 * 2 ^ 29 + d1 * 2 ^ 22 + d2 * 2 ^ 15 + d3 * 2 ^ 8 + d4 * 2) (by ring)
    (by calc d5 * 2 ^ 7 < 2 ^ 6 * 2 ^ 7 := by exact Nat.mul_lt_mul_of_lt_of_le h5 (le_refl _) (by positivity)
          _ = 2 ^ 13 := by norm_num)]
  rw [lor_add_of_bound 6 _ d6
    (d0 * 2 ^ 36 + d1 * 2 ^ 29 + d2 * 2 ^ 22 + d3 * 2 ^ 15 + d4 * 2 ^ 8 + d5 * 2) (by ring)
    h6]
  simp only [fromDigs]
  ring

/-- The seven column digits of a bitboard. -/
def digsOf (x : Nat) : List Nat :=
  [x % 2 ^ 7, x / 2 ^ 7 % 2 ^ 7, x / 2 ^ 14 % 2 ^ 7, x / 2 ^ 21 % 2 ^ 7,
    x / 2 ^ 28 % 2 ^ 7, x / 2 ^ 35 % 2 ^ 7, x / 2 ^ 42 % 2 ^ 7]

theorem fromDigs_digsOf (x : Nat) (hx : x < 2 ^ 49) : fromDigs (digsOf x) = x := by
  have h42 : x / 2 ^ 42 % 2 ^ 7 = x / 2 ^ 42 := by
    apply Nat.mod_eq_of_lt
    apply Nat.div_lt_of_lt_mul
    calc x < 2 ^ 49 := hx
      _ = 2 ^ 42 * 2 ^ 7 := by norm_num
  have s5 : x / 2 ^ 35 % 2 ^ 7 + 2 ^ 7 * (x / 2 ^ 42) = x / 2 ^ 35 := by
    rw [show x / 2 ^ 42 = x / 2 ^ 35 / 2 ^ 7 by rw [Nat.div_div_eq_div_mul]; norm_num]
    exact Nat.mod_add_div _ _
  have s4 : x / 2 ^ 28 % 2 ^ 7 + 2 ^ 7 * (x / 2 ^ 35) = x / 2 ^ 28 := by
    rw [show x / 2 ^ 35 = x / 2 ^ 28 / 2 ^ 7 by rw [Nat.div_div_eq_div_mul]; norm_num]
    exact Nat.mod_add_div _ _
  have s3 : x / 2 ^ 21 % 2 ^ 7 + 2 ^ 7 * (x / 2 ^ 28) = x / 2 ^ 21 := by
    rw [show x / 2 ^ 28 = x / 2 ^ 21 / 2 ^ 7 by rw [Nat.div_div_eq_div_mul]; norm_num]
    exact Nat.mod_add_div _ _
  have s2 : x / 2 ^ 14 % 2 ^ 7 + 2 ^ 7 * (x / 2 ^ 21) = x / 2 ^ 14 := by
    rw [show x / 2 ^ 21 = x / 2 ^ 14 / 2 ^ 7 by rw [Nat.div_div_eq_div_mul]; norm_num]
    exact Nat.mod_add_div _ _
  have s1 : x / 2 ^ 7 % 2 ^ 7 + 2 ^ 7 * (x / 2 ^ 14) = x / 2 ^ 7 := by
    rw [show x / 2 ^ 14 = x / 2 ^ 7 / 2 ^ 7 by rw [Nat.div_div_eq_div_mul]; norm_num]
    exact Nat.mod_add_div _ _
  simp only [digsOf, fromDigs, Nat.mul_zero, Nat.add_zero]
  rw [h42, s5, s4, s3, s2, s1]
  exact Nat.mod_add_div _ _

theorem digit_lt_64_of_masked (x : Nat) (h : x &&& FULL_BOARD_MASK = x)
    (k : Nat) (hk : k < 7) : x / 2 ^ (7 * k) % 2 ^ 7 < 2 ^ 6 := by
  have hfull : FULL_BOARD_MASK.testBit (7 * k + 6) = false := by
    rw [FULL_BOARD_MASK_eq, testBit_fromDigs _ (by
      intro d hd
      have := List.eq_of_mem_replicate hd
      omega)]
    have hdiv : (7 * k + 6) / 7 = k := by omega
    have hmod : (7 * k + 6) % 7 = 6 := by omega
    rw [hdiv, hmod]
    have hg : (List.replicate 7 63).getD k 0 = 63 := by
      rw [List.getD_eq_getElem _ 0 (by simpa using hk), List.getElem_replicate]
    rw [hg]
    decide
  have hbit : x.testBit (7 * k + 6) = false := by
    have hc := congrArg (fun y => y.testBit (7 * k + 6)) h
    simp only [Nat.testBit_and, hfull, Bool.and_false] at hc
    exact hc.symm
  have hd128 : x / 2 ^ (7 * k) % 2 ^ 7 < 2 ^ 7 := Nat.mod_lt _ (by norm_num)
  have hb6 : (x / 2 ^ (7 * k) % 2 ^ 7).testBit 6 = false := by
    rw [Nat.testBit_mod_two_pow]
    simp only [show ((6:Nat) < 7) = True by simp, decide_True, Bool.true_and]
    rw [← Nat.shiftRight_eq_div_pow, Nat.testBit_shiftRight]
    exact hbit
  rw [Nat.testBit_to_div_mod] at hb6
  simp only [decide_eq_false_iff_not] at hb6
  omega

/-- C8 amended: mirroring is an involution on in-board bitboards (no bits in
the sentinel rows or above the board). -/
theorem c8_mirror_involution (b : Nat) (h : b &&& FULL_BOARD_MASK = b) :
    mirror (mirror b) = b := by
  have hb : b < 2 ^ 49 := by
    have h1 : b &&& FULL_BOARD_MASK ≤ FULL_BOARD_MASK := Nat.and_le_right
    rw [h] at h1
    have h2 : FULL_BOARD_MASK < 2 ^ 49 := by decide
    omega
  have hd := digit_lt_64_of_masked b h
  have k0 : b % 2 ^ 7 < 2 ^ 6 := by
    have := hd 0 (by omega)
    simpa using this
  have k1 : b / 2 ^ 7 % 2 ^ 7 < 2 ^ 6 := by
    have := hd 1 (by omega)
    simpa using this
  have k2 : b / 2 ^ 14 % 2 ^ 7 < 2 ^ 6 := by
    have := hd 2 (by omega)
    norm_num at this
    simpa using this
  have k3 : b / 2 ^ 21 % 2 ^ 7 < 2 ^ 6 := by
    have := hd 3 (by omega)
    norm_num at this
    simpa using this
  have k4 : b / 2 ^ 28 % 2 ^ 7 < 2 ^ 6 := by
    have := hd 4 (by omega)
    norm_num at this
    simpa using this
  have k5 : b / 2 ^ 35 % 2 ^ 7 < 2 ^ 6 := by
    have := hd 5 (by omega)
    norm_num at this
    simpa using this
  have k6 : b / 2 ^ 42 % 2 ^ 7 < 2 ^ 6 := by
    have := hd 6 (by omega)
    norm_num at this
    simpa using this
  conv_lhs => rw [← fromDigs_digsOf b hb]
  rw [digsOf, mirror_digs7 _ _ _ _ _ _ _ k0 k1 k2 k3 k4 k5 k6,
    mirror_digs7 _ _ _ _ _ _ _ k6 k5 k4 k3 k2 k1 k0]
  exact fromDigs_digsOf b hb

/-- C8 counterexample: on a bitboard with a sentinel bit set (bit 6), mirror
is not an involution — the claim fails for general 64-bit words. -/
theorem c8_counterexample : mirror (mirror 64) ≠ 64 := by decide

/-- Witness for C8 amended at the in-board bitboard 3. -/
theorem c8_witness : (3 : Nat) &&& FULL_BOARD_MASK = 3 ∧ mirror (mirror 3) = 3 :=
  ⟨by decide, c8_mirror_involution 3 (by decide)⟩

/-! ### The base-3 column key (for C6) -/

/-- Reference form of the `partial_key3` while loop on one column: walk the
played cells from row `i` for `n` rows, emitting digit 1 for the current
player's stones and 2 for the opponent's, then append the trailing zero
digit. -/
def colKeyFrom (pd : Nat) : Nat → Nat → Nat → Nat
  | _i, 0, key => key * 3
  | i, n + 1, key => colKeyFrom pd (i + 1) n (key * 3 + (if pd.testBit i then 1 else 2))

theorem and_two_pow_bne (x k : Nat) : (x &&& 2 ^ k != 0) = x.testBit k := by
  rw [Nat.and_comm, pow_and_eq_ite]
  have hp : (2 : Nat) ^ k ≠ 0 := by positivity
  cases tb : x.testBit k with
  | true => simp [hp]
  | false => simp

theorem pkey3Loop_spec (p occ pd hcol c : Nat)
    (hocc : ∀ i, i ≤ 6 → occ.testBit (7 * c + i) = decide (i < hcol))
    (hp : ∀ i, i < 7 → p.testBit (7 * c + i) = pd.testBit i)
    (hh : hcol ≤ 6) :
    ∀ n i key fuel, i + n = hcol → n < fuel →
      pkey3Loop p occ (2 ^ (7 * c + i)) key fuel = colKeyFrom pd i n key := by
  intro n
  induction n with
  | zero =>
    intro i key fuel hi hf
    cases fuel with
    | zero => omega
    | succ f =>
      rw [pkey3Loop]
      have ht : occ.testBit (7 * c + i) = false := by
        rw [hocc i (by omega)]
        simp
        omega
      rw [show (occ &&& 2 ^ (7 * c + i) != 0) = occ.testBit (7 * c + i) from
        and_two_pow_bne occ (7 * c + i), ht]
      rfl
  | succ n ih =>
    intro i key fuel hi hf
    cases fuel with
    | zero => omega
    | succ f =>
      rw [pkey3Loop]
      have ht : occ.testBit (7 * c + i) = true := by
        rw [hocc i (by omega)]
        simp
        omega
      rw [show (occ &&& 2 ^ (7 * c + i) != 0) = occ.testBit (7 * c + i) from
        and_two_pow_bne occ (7 * c + i), ht]
      simp only [if_pos rfl]
      have h1 := and_two_pow_bne p (7 * c + i)
      rw [hp i (by omega)] at h1
      have hpe : (p &&& 2 ^ (7 * c + i) == 0) = !pd.testBit i := by
        cases hb : pd.testBit i with
        | true =>
          rw [hb] at h1
          simp only [bne_iff_ne, ne_eq] at h1
          simp [h1]
        | false =>
          rw [hb] at h1
          simp only [bne_eq_false_iff_eq] at h1
          simp [h1]
      have hshift : (2 : Nat) ^ (7 * c + i) <<< 1 = 2 ^ (7 * c + (i + 1)) := by
        rw [Nat.shiftLeft_eq, ← Nat.pow_succ]
        rfl
      rw [hpe, hshift]
      have hrhs : colKeyFrom pd i (n + 1) key =
          colKeyFrom pd (i + 1) n (key * 3 + (if pd.testBit i then 1 else 2)) := rfl
      rw [hrhs]
      have hif : (key * 3 + (if (!pd.testBit i) then 2 else 1)) =
          (key * 3 + (if pd.testBit i then 1 else 2)) := by
        cases pd.testBit i <;> rfl
      rw [hif]
      exact ih (i + 1) _ f (by omega) (by omega)

theorem pkey3_spec (hs ps : List Nat) (b : Board) (hok : ColsOk hs ps)
    (hrep : reprOf hs ps b) (c : Nat) (hc : c < 7) (key : Nat) :
    b.pkey3 key c = colKeyFrom (ps.getD c 0) 0 (hs.getD c 0) key := by
  obtain ⟨hlen, plen, hbound⟩ := hok
  obtain ⟨ho, hpj, hm⟩ := hrep
  have hos_lt : ∀ d ∈ occDigs hs, d < 2 ^ 7 :=
    occDigs_lt hs (fun i hi => (hbound i (hlen ▸ hi)).1)
  have hps_lt : ∀ d ∈ ps, d < 2 ^ 7 := ps_lt hs ps ⟨hlen, plen, hbound⟩
  have hocc : ∀ i, i ≤ 6 →
      b.occupied_bb.testBit (7 * c + i) = decide (i < hs.getD c 0) := by
    intro i hi
    rw [ho, testBit_fromDigs _ hos_lt]
    have hdiv : (7 * c + i) / 7 = c := by omega
    have hmod : (7 * c + i) % 7 = i := by omega
    rw [hdiv, hmod, occDigs, getD_map_pow hs c (by omega),
      Nat.testBit_two_pow_sub_one]
  have hpt : ∀ i, i < 7 →
      b.player_bb.testBit (7 * c + i) = (ps.getD c 0).testBit i := by
    intro i hi
    rw [hpj, testBit_fromDigs _ hps_lt]
    have hdiv : (7 * c + i) / 7 = c := by omega
    have hmod : (7 * c + i) % 7 = i := by omega
    rw [hdiv, hmod]
  show pkey3Loop b.player_bb b.occupied_bb (bottom_piece_mask c) key 64 = _
  rw [bottom_piece_mask_eq,
    show (2 : Nat) ^ (7 * c) = 2 ^ (7 * c + 0) from rfl]
  exact pkey3Loop_spec b.player_bb b.occupied_bb (ps.getD c 0) (hs.getD c 0) c
    hocc hpt (hbound c hc).1 (hs.getD c 0) 0 key 64 (by omega)
    (by have := (hbound c hc).1; omega)

theorem exists_seven (l : List Nat) (h : l.length = 7) :
    ∃ a0 a1 a2 a3 a4 a5 a6, l = [a0, a1, a2, a3, a4, a5, a6] := by
  cases l with
  | nil => simp at h
  | cons a0 t0 =>
  cases t0 with
  | nil => simp at h
  | cons a1 t1 =>
  cases t1 with
  | nil => simp at h
  | cons a2 t2 =>
  cases t2 with
  | nil => simp at h
  | cons a3 t3 =>
  cases t3 with
  | nil => simp at h
  | cons a4 t4 =>
  cases t4 with
  | nil => simp at h
  | cons a5 t5 =>
  cases t5 with
  | nil => simp at h
  | cons a6 t6 =>
  cases t6 with
  | nil => exact ⟨a0, a1, a2, a3, a4, a5, a6, rfl⟩
  | cons a7 t7 => simp at h

theorem getD_reverse7 (l : List Nat) (c : Nat) (hlen : l.length = 7) (hc : c < 7) :
    l.reverse.getD c 0 = l.getD (6 - c) 0 := by
  obtain ⟨a0, a1, a2, a3, a4, a5, a6, rfl⟩ := exists_seven l hlen
  interval_cases c <;> rfl

theorem mirror_fromDigs_rev (l : List Nat) (hlen : l.length = 7)
    (hd : ∀ d ∈ l, d < 2 ^ 6) : mirror (fromDigs l) = fromDigs l.reverse := by
  obtain ⟨a0, a1, a2, a3, a4, a5, a6, rfl⟩ := exists_seven l hlen
  rw [mirror_digs7 a0 a1 a2 a3 a4 a5 a6 (hd a0 (by simp)) (hd a1 (by simp))
    (hd a2 (by simp)) (hd a3 (by simp)) (hd a4 (by simp)) (hd a5 (by simp))
    (hd a6 (by simp))]
  rfl

theorem mirror_repr (hs ps : List Nat) (b : Board) (hok : ColsOk hs ps)
    (hrep : reprOf hs ps b) :
    ColsOk hs.reverse ps.reverse ∧ reprOf hs.reverse ps.reverse b.mirror := by
  obtain ⟨hlen, plen, hbound⟩ := hok
  obtain ⟨ho, hpj, hm⟩ := hrep
  have hos6 : ∀ d ∈ occDigs hs, d < 2 ^ 6 := by
    intro d hd
    obtain ⟨x, hx, rfl⟩ := List.mem_map.mp hd
    obtain ⟨n, hn, rfl⟩ := List.getElem_of_mem hx
    have h1 := (hbound n (hlen ▸ hn)).1
    rw [List.getD_eq_getElem hs 0 hn] at h1
    have : 2 ^ hs[n] ≤ 2 ^ 6 := Nat.pow_le_pow_right (by omega) h1
    omega
  have hps6 : ∀ d ∈ ps, d < 2 ^ 6 := by
    apply forall_mem_of_forall_getD
    intro i hi
    rw [plen] at hi
    have h1 := (hbound i hi).1
    have h2 := (hbound i hi).2
    have : 2 ^ hs.getD i 0 ≤ 2 ^ 6 := Nat.pow_le_pow_right (by omega) h1
    omega
  refine ⟨⟨by simp [hlen], by simp [plen], ?_⟩, ?_, ?_, ?_⟩
  · intro i hi
    rw [getD_reverse7 hs i hlen hi, getD_reverse7 ps i plen hi]
    exact hbound (6 - i) (by omega)
  · show C4V.mirror b.occupied_bb = _
    rw [ho, mirror_fromDigs_rev (occDigs hs) (by rw [occDigs_length, hlen]) hos6]
    congr 1
    simp only [occDigs, List.map_reverse]
  · show C4V.mirror b.player_bb = _
    rw [hpj, mirror_fromDigs_rev ps plen hps6]
  · show b.num_moves = _
    rw [hm, List.sum_reverse]

theorem key3_eq (b : Board) : b.key3 =
    if (List.range WIDTH).foldl b.pkey3 0 < (List.range WIDTH).reverse.foldl b.pkey3 0
    then (List.range WIDTH).foldl b.pkey3 0 / 3
    else (List.range WIDTH).reverse.foldl b.pkey3 0 / 3 := rfl

theorem foldl_range7 (f : Nat → Nat → Nat) :
    (List.range WIDTH).foldl f 0 = f (f (f (f (f (f (f 0 0) 1) 2) 3) 4) 5) 6 := rfl

theorem foldl_range7_rev (f : Nat → Nat → Nat) :
    (List.range WIDTH).reverse.foldl f 0 = f (f (f (f (f (f (f 0 6) 5) 4) 3) 2) 1) 0 := rfl

/-- C6: the canonical base-3 key of a reachable position equals that of its
horizontally mirrored position. -/
theorem c6_key3_mirror_symmetric (b : Board) (hb : ReachableB b) :
    b.mirror.key3 = b.key3 := by
  obtain ⟨hs, ps, hok, hrep⟩ := reachable_valid hb
  obtain ⟨hokm, hrepm⟩ := mirror_repr hs ps b hok hrep
  have pk : ∀ c, c < 7 → ∀ key, b.pkey3 key c =
      colKeyFrom (ps.getD c 0) 0 (hs.getD c 0) key :=
    fun c hc key => pkey3_spec hs ps b hok hrep c hc key
  have pkm : ∀ c, c < 7 → ∀ key, b.mirror.pkey3 key c =
      colKeyFrom (ps.getD (6 - c) 0) 0 (hs.getD (6 - c) 0) key := by
    intro c hc key
    rw [pkey3_spec hs.reverse ps.reverse b.mirror hokm hrepm c hc key,
      getD_reverse7 ps c hok.2.1 hc, getD_reverse7 hs c hok.1 hc]
  rw [key3_eq, key3_eq, foldl_range7 b.pkey3, foldl_range7 b.mirror.pkey3,
    foldl_range7_rev b.pkey3, foldl_range7_rev b.mirror.pkey3]
  simp only [pk 0 (by omega), pk 1 (by omega), pk 2 (by omega), pk 3 (by omega),
    pk 4 (by omega), pk 5 (by omega), pk 6 (by omega), pkm 0 (by omega),
    pkm 1 (by omega), pkm 2 (by omega), pkm 3 (by omega), pkm 4 (by omega),
    pkm 5 (by omega), pkm 6 (by omega)]
  norm_num
  split_ifs <;> omega

/-- A small nontrivial reachable board for the C6 witness. -/
def c6WitnessBoard : Board := (playStepsB Board.new [0, 1, 3, 3]).getD Board.new

/-- Witness for C6 at a concrete reachable position. -/
theorem c6_witness : ReachableB c6WitnessBoard ∧
    c6WitnessBoard.mirror.key3 = c6WitnessBoard.key3 := by
  have hr := playStepsB_reachable [0, 1, 3, 3] Board.new c6WitnessBoard
    ReachableB.empty (by decide)
  exact ⟨hr, c6_key3_mirror_symmetric c6WitnessBoard hr⟩

/-! ### Analyzer and agent (engine.rs `Analysis`, agent.rs `Agent`) -/

/-- `engine::Rating`.  Rust derives `Ord` by declaration order:
Blunder < Mistake < Inaccuracy < Good < Best. -/
inductive Rating where
  | Blunder
  | Mistake
  | Inaccuracy
  | Good
  | Best
deriving DecidableEq, Repr

/-- The derived `Ord` of `Rating`, as a rank. -/
def Rating.rank : Rating → Nat
  | .Blunder => 0
  | .Mistake => 1
  | .Inaccuracy => 2
  | .Good => 3
  | .Best => 4

/-- `Outcome`. -/
inductive Outcome where
  | Win (player : Player)
  | Draw
deriving DecidableEq, Repr

/-- `engine::Analysis`: the per-column score array (an array of seven
`Option<i8>` in Rust), the side to move, and the ply count. -/
structure Analysis where
  scores : List (Option Int)
  player : Player
  num_moves : Nat
deriving DecidableEq, Repr

/-- `Analysis::best_score`. -/
def Analysis.best_score (a : Analysis) : Option Int :=
  (a.scores.filterMap id).max?

/-- `Analysis::predict`.  `u8` subtractions are modelled by truncated `Nat`
subtraction; they cannot underflow for scores in the engine's range. -/
def Analysis.predict (a : Analysis) (score : Int) : Outcome × Nat :=
  let moves_left := AREA - a.num_moves
  if score < 0 then (Outcome.Win a.player.other, moves_left / 2 + 1 - score.natAbs)
  else if score = 0 then (Outcome.Draw, (moves_left + 1) / 2)
  else (Outcome.Win a.player, (moves_left + 1) / 2 + 1 - score.natAbs)

/-- `Analysis::predictions`. -/
def Analysis.predictions (a : Analysis) : List (Option (Outcome × Nat)) :=
  a.scores.map (fun s => s.map a.predict)

/-- Rust `f32::round` applied to the exact quotient `p / q` (`q > 0`): round
half away from zero, implemented on integers. -/
def roundAwayDiv (p : Int) (q : Nat) : Int :=
  if p < 0 then -((2 * (-p) + q) / (2 * q)) else (2 * p + q) / (2 * q)

/-- Rust `as i8` on an integral float: saturating cast. -/
def i8Sat (z : Int) : Int := max (-128) (min 127 z)

/-- `Analysis::amplified_score`.  The Rust computation is in `f32`:
`(balanced as f32 * (2.0^(1 - n) + 1.0)).round() as i8` with `n` the
predicted plies to the end.  It is modelled as the exact real computation:
`balanced * (2^(1-n) + 1)` is an integer when `n ≤ 1` and otherwise equals
`balanced * (2^(n-1) + 1) / 2^(n-1)`, rounded half away from zero.  For the
small balanced scores and depths appearing in the theorems below, every
`f32` operation involved is exact, so the two models agree there. -/
def Analysis.amplified_score (a : Analysis) (score : Int) : Int :=
  let balanced_score : Int :=
    if score < 0 then score - (((a.num_moves + 1) / 2 : Nat) : Int)
    else if score = 0 then 0
    else score + ((a.num_moves / 2 : Nat) : Int)
  let n := (a.predict score).2
  if n ≤ 1 then i8Sat (balanced_score * (2 ^ (1 - n) + 1))
  else i8Sat (roundAwayDiv (balanced_score * (2 ^ (n - 1) + 1)) (2 ^ (n - 1)))

/-- `Analysis::rate`. -/
def Analysis.rate (a : Analysis) (score best : Int) : Rating :=
  if score = best then .Best
  else
    let s := a.amplified_score score
    let b := a.amplified_score best
    let diff := (s - b).natAbs
    if diff ≥ AREA / 2 then .Blunder
    else if diff ≥ AREA / 3 then .Mistake
    else if diff ≥ AREA / 6 ∨ b.sign ≠ s.sign then .Inaccuracy
    else .Good

/-- `Analysis::ratings`. -/
def Analysis.ratings (a : Analysis) : List (Option Rating) :=
  match a.best_score with
  | none => List.replicate WIDTH none
  | some best => a.scores.map (fun s => s.map (fun sc => a.rate sc best))

/-- `agent::AgentDifficulty`. -/
inductive AgentDifficulty where
  | Random
  | Easy
  | Medium
  | Hard
  | NearPerfect
  | Perfect
deriving DecidableEq, Repr

/-- `Agent::filter_moves_by_rating`. -/
def filter_moves_by_rating (a : Analysis) (worst_rating : Rating) : List Nat :=
  (a.ratings.zip (List.range WIDTH)).filterMap fun pr =>
    match pr.1 with
    | some r => if worst_rating.rank ≤ r.rank then some pr.2 else none
    | none => none

/-- `Agent::filter_moves_by_lookahead`. -/
def filter_moves_by_lookahead (a : Analysis) (lookahead : Nat) : List Nat :=
  let preds := a.predictions
  let winning := (preds.zip (List.range WIDTH)).filterMap fun pc =>
    match pc.1 with
    | some p => if p.1 = Outcome.Win a.player ∧ p.2 ≤ lookahead then some pc.2 else none
    | none => none
  if winning ≠ [] then winning
  else
    (preds.zip (List.range WIDTH)).filterMap fun pc =>
      match pc.1 with
      | some p =>
        if p.1 ≠ Outcome.Win a.player.other ∨ p.2 > lookahead then some pc.2 else none
      | none => none

/-- The fallback loop in `Agent::choose_move`: all columns with a score. -/
def legal_moves (a : Analysis) : List Nat :=
  (a.scores.zip (List.range WIDTH)).filterMap fun sc =>
    if sc.1.isSome then some sc.2 else none

/-- `Agent::choose_move`.  The thread-local RNG draw
`rng.random_range(0..len)` is modelled by an arbitrary `pick`, reduced
modulo the candidate count; the Rust panic on an empty range becomes
`none`. -/
def choose_move (difficulty : AgentDifficulty) (a : Analysis) (pick : Nat) :
    Option Nat :=
  let possible_moves :=
    match difficulty with
    | .Random => []
    | .Easy => filter_moves_by_lookahead a 1
    | .Medium => filter_moves_by_rating a .Mistake
    | .Hard => filter_moves_by_rating a .Inaccuracy
    | .NearPerfect => filter_moves_by_rating a .Good
    | .Perfect => filter_moves_by_rating a .Best
  let possible_moves := if possible_moves.isEmpty then legal_moves a else possible_moves
  possible_moves[pick % possible_moves.length]?

/-- Column `c` is rated and its rating meets the threshold `worst`. -/
def meets_threshold (a : Analysis) (worst : Rating) (c : Nat) : Prop :=
  ∃ r, a.ratings.getD c none = some r ∧ worst.rank ≤ r.rank

/-- Column `c` carries a score (is a legal move) in the analysis. -/
def is_legal_col (a : Analysis) (c : Nat) : Prop :=
  (a.scores.getD c none).isSome = true ∧ c < WIDTH

theorem mem_filterMap_zip_range {α : Type} (l : List α) (f : α × Nat → Option Nat)
    (c : Nat) (h : c ∈ (l.zip (List.range WIDTH)).filterMap f) :
    ∃ i, ∃ hi : i < l.length, i < WIDTH ∧ f (l[i], i) = some c := by
  obtain ⟨pr, hpr, hf⟩ := List.mem_filterMap.mp h
  obtain ⟨j, hj, rfl⟩ := List.getElem_of_mem hpr
  have hjl : j < l.length ∧ j < WIDTH := by
    rw [List.length_zip, List.length_range] at hj
    omega
  refine ⟨j, hjl.1, hjl.2, ?_⟩
  rw [List.getElem_zip, List.getElem_range] at hf
  exact hf

theorem filter_moves_by_rating_sound (a : Analysis) (worst : Rating) (c : Nat)
    (h : c ∈ filter_moves_by_rating a worst) : meets_threshold a worst c ∧ c < WIDTH := by
  obtain ⟨i, hi, hw, hf⟩ := mem_filterMap_zip_range _ _ _ h
  cases hr : a.ratings[i] with
  | none =>
    rw [hr] at hf
    simp at hf
  | some r =>
    rw [hr] at hf
    by_cases hrank : worst.rank ≤ r.rank
    · simp only [if_pos hrank, Option.some.injEq] at hf
      subst hf
      exact ⟨⟨r, by rw [List.getD_eq_getElem _ _ hi, hr], hrank⟩, hw⟩
    · simp only [if_neg hrank] at hf
      simp at hf

theorem legal_moves_sound (a : Analysis) (c : Nat) (h : c ∈ legal_moves a) :
    is_legal_col a c := by
  obtain ⟨i, hi, hw, hf⟩ := mem_filterMap_zip_range _ _ _ h
  by_cases hs : a.scores[i].isSome
  · simp only [if_pos hs, Option.some.injEq] at hf
    subst hf
    exact ⟨by rw [List.getD_eq_getElem _ _ hi]; exact hs, hw⟩
  · simp only [if_neg hs] at hf
    simp at hf

theorem mem_filterMap_zip_range_lt {α : Type} (l : List α) (f : α × Nat → Option Nat)
    (c : Nat) (hshape : ∀ pr x, f pr = some x → x = pr.2)
    (h : c ∈ (l.zip (List.range WIDTH)).filterMap f) : c < WIDTH := by
  obtain ⟨i, hi, hw, hf⟩ := mem_filterMap_zip_range l f c h
  have hx := hshape (l[i], i) c hf
  simp only at hx
  omega

theorem lookahead_mem_lt (a : Analysis) (n c : Nat)
    (h : c ∈ filter_moves_by_lookahead a n) : c < WIDTH := by
  unfold filter_moves_by_lookahead at h
  simp only [ne_eq] at h
  split at h
  · refine mem_filterMap_zip_range_lt _ _ c ?_ h
    intro pr x hfx
    split at hfx
    · split at hfx
      · simp only [Option.some.injEq] at hfx
        exact hfx.symm
      · simp at hfx
    · simp at hfx
  · refine mem_filterMap_zip_range_lt _ _ c ?_ h
    intro pr x hfx
    split at hfx
    · split at hfx
      · simp only [Option.some.injEq] at hfx
        exact hfx.symm
      · simp at hfx
    · simp at hfx

theorem mem_of_getElem_opt {l : List Nat} {i : Nat} {c : Nat}
    (h : l[i]? = some c) : c ∈ l := by
  have hi : i < l.length := by
    by_contra hcon
    rw [List.getElem?_eq_none (by omega)] at h
    simp at h
  rw [List.getElem?_eq_getElem hi] at h
  simp only [Option.some.injEq] at h
  rw [← h]
  exact List.getElem_mem hi

/-- C9 amended: the six difficulties of the code behave as follows.  `Random`
returns some legal column.  `Medium`, `Hard`, `NearPerfect` and `Perfect`
return a column whose rating is at least `Mistake`, `Inaccuracy`, `Good` and
`Best` respectively, falling back to a legal column when no column meets the
threshold.  `Easy` does not use a rating threshold at all: it returns a
column selected by the one-ply lookahead filter (or a legal column when that
filter is empty). -/
theorem c9_choose_move_behavior (d : AgentDifficulty) (a : Analysis) (pick : Nat)
    (c : Nat) (h : choose_move d a pick = some c) :
    match d with
    | .Random => is_legal_col a c
    | .Easy => (c ∈ filter_moves_by_lookahead a 1 ∧ c < WIDTH) ∨
        (filter_moves_by_lookahead a 1 = [] ∧ is_legal_col a c)
    | .Medium => (meets_threshold a .Mistake c ∧ c < WIDTH) ∨
        (filter_moves_by_rating a .Mistake = [] ∧ is_legal_col a c)
    | .Hard => (meets_threshold a .Inaccuracy c ∧ c < WIDTH) ∨
        (filter_moves_by_rating a .Inaccuracy = [] ∧ is_legal_col a c)
    | .NearPerfect => (meets_threshold a .Good c ∧ c < WIDTH) ∨
        (filter_moves_by_rating a .Good = [] ∧ is_legal_col a c)
    | .Perfect => (meets_threshold a .Best c ∧ c < WIDTH) ∨
        (filter_moves_by_rating a .Best = [] ∧ is_legal_col a c) := by
  cases d with
  | Random =>
    unfold choose_move at h
    dsimp only at h
    simp only [List.isEmpty_nil, if_pos rfl] at h
    exact legal_moves_sound a c (mem_of_getElem_opt h)
  | Easy =>
    unfold choose_move at h
    dsimp only at h
    by_cases hemp : (filter_moves_by_lookahead a 1).isEmpty
    · rw [if_pos hemp] at h
      exact Or.inr ⟨List.isEmpty_iff.mp hemp, legal_moves_sound a c (mem_of_getElem_opt h)⟩
    · rw [if_neg hemp] at h
      have hmem := mem_of_getElem_opt h
      exact Or.inl ⟨hmem, lookahead_mem_lt a 1 c hmem⟩
  | Medium =>
    unfold choose_move at h
    dsimp only at h
    by_cases hemp : (filter_moves_by_rating a .Mistake).isEmpty
    · rw [if_pos hemp] at h
      exact Or.inr ⟨List.isEmpty_iff.mp hemp, legal_moves_sound a c (mem_of_getElem_opt h)⟩
    · rw [if_neg hemp] at h
      exact Or.inl (filter_moves_by_rating_sound a .Mistake c (mem_of_getElem_opt h))
  | Hard =>
    unfold choose_move at h
    dsimp only at h
    by_cases hemp : (filter_moves_by_rating a .Inaccuracy).isEmpty
    · rw [if_pos hemp] at h
      exact Or.inr ⟨List.isEmpty_iff.mp hemp, legal_moves_sound a c (mem_of_getElem_opt h)⟩
    · rw [if_neg hemp] at h
      exact Or.inl (filter_moves_by_rating_sound a .Inaccuracy c (mem_of_getElem_opt h))
  | NearPerfect =>
    unfold choose_move at h
    dsimp only at h
    by_cases hemp : (filter_moves_by_rating a .Good).isEmpty
    · rw [if_pos hemp] at h
      exact Or.inr ⟨List.isEmpty_iff.mp hemp, legal_moves_sound a c (mem_of_getElem_opt h)⟩
    · rw [if_neg hemp] at h
      exact Or.inl (filter_moves_by_rating_sound a .Good c (mem_of_getElem_opt h))
  | Perfect =>
    unfold choose_move at h
    dsimp only at h
    by_cases hemp : (filter_moves_by_rating a .Best).isEmpty
    · rw [if_pos hemp] at h
      exact Or.inr ⟨List.isEmpty_iff.mp hemp, legal_moves_sound a c (mem_of_getElem_opt h)⟩
    · rw [if_neg hemp] at h
      exact Or.inl (filter_moves_by_rating_sound a .Best c (mem_of_getElem_opt h))

/-- An analysis (side P1, ply 20) with a winning column 0 (score 10) and a
losing-in-9 column 1 (score -3, rated Blunder). -/
def c9Analysis : Analysis :=
  ⟨[some 10, some (-3), none, none, none, none, none], Player.P1, 20⟩

/-- C9 counterexample: on `c9Analysis` the `Easy` agent can return column 1,
which is rated `Blunder` — below the `Mistake` threshold the claim assigns to
the easy difficulty — while the `Mistake`-threshold set is the nonempty
`[0]`, so the fallback clause does not apply either. -/
theorem c9_counterexample :
    choose_move .Easy c9Analysis 1 = some 1 ∧
      filter_moves_by_rating c9Analysis .Mistake = [0] ∧
      c9Analysis.ratings.getD 1 none = some Rating.Blunder := by
  refine ⟨by decide, by decide, by decide⟩

/-- Witness for the amended C9 at difficulty `Medium` on `c9Analysis`. -/
theorem c9_witness :
    choose_move .Medium c9Analysis 0 = some 0 ∧
      ((meets_threshold c9Analysis .Mistake 0 ∧ 0 < WIDTH) ∨
        (filter_moves_by_rating c9Analysis .Mistake = [] ∧ is_legal_col c9Analysis 0)) :=
  ⟨by decide, c9_choose_move_behavior .Medium c9Analysis 0 0 (by decide)⟩

/-! ### Bit-level toolkit for the search soundness development -/

theorem eq_zero_iff_testBit (x : Nat) : x = 0 ↔ ∀ i, x.testBit i = false := by
  constructor
  · intro h i
    rw [h, Nat.zero_testBit]
  · intro h
    apply Nat.eq_of_testBit_eq
    intro i
    rw [h i, Nat.zero_testBit]

theorem and_eq_zero_iff (x y : Nat) :
    x &&& y = 0 ↔ ∀ i, x.testBit i = true → y.testBit i = false := by
  rw [eq_zero_iff_testBit]
  constructor
  · intro h i hx
    have := h i
    rw [Nat.testBit_and, hx, Bool.true_and] at this
    exact this
  · intro h i
    rw [Nat.testBit_and]
    cases hx : x.testBit i with
    | false => rfl
    | true => rw [h i hx, Bool.and_false]

theorem testBit_shl (x s i : Nat) :
    (shl x s).testBit i = (decide (i < 64) && (decide (s ≤ i) && x.testBit (i - s))) := by
  unfold shl u64
  rw [Nat.testBit_mod_two_pow, Nat.testBit_shiftLeft]

theorem mul_two_and_aux (a b : Nat) : (2 * a) &&& (2 * b + 1) = 2 * (a &&& b) := by
  apply Nat.eq_of_testBit_eq
  intro i
  cases i with
  | zero =>
    simp only [Nat.testBit_and, Nat.testBit_zero]
    simp [Nat.mul_mod_right]
  | succ n =>
    rw [Nat.testBit_and, Nat.testBit_succ, Nat.testBit_succ, Nat.testBit_succ]
    have h1 : 2 * a / 2 = a := by omega
    have h2 : (2 * b + 1) / 2 = b := by omega
    have h3 : 2 * (a &&& b) / 2 = a &&& b := by omega
    rw [h1, h2, h3, Nat.testBit_and]

theorem mul_two_and_aux2 (a b : Nat) : (2 * a + 1) &&& (2 * b) = 2 * (a &&& b) := by
  apply Nat.eq_of_testBit_eq
  intro i
  cases i with
  | zero =>
    simp only [Nat.testBit_and, Nat.testBit_zero]
    simp [Nat.mul_mod_right]
  | succ n =>
    rw [Nat.testBit_and, Nat.testBit_succ, Nat.testBit_succ, Nat.testBit_succ]
    have h1 : (2 * a + 1) / 2 = a := by omega
    have h2 : 2 * b / 2 = b := by omega
    have h3 : 2 * (a &&& b) / 2 = a &&& b := by omega
    rw [h1, h2, h3, Nat.testBit_and]

/-- A nonzero number whose `x &&& (x - 1)` is zero is a power of two. -/
theorem single_of_and_pred (x : Nat) (hx : x ≠ 0) (h : x &&& (x - 1) = 0) :
    ∃ k, x = 2 ^ k := by
  induction x using Nat.strong_induction_on with
  | _ x ih =>
    rcases Nat.even_or_odd x with he | ho
    · obtain ⟨y, hy⟩ := he
      have hy2 : x = 2 * y := by omega
      have hyne : y ≠ 0 := by omega
      have hstep : x &&& (x - 1) = 2 * (y &&& (y - 1)) := by
        rw [hy2]
        have : 2 * y - 1 = 2 * (y - 1) + 1 := by omega
        rw [this, mul_two_and_aux]
      have hy0 : y &&& (y - 1) = 0 := by omega
      obtain ⟨k, hk⟩ := ih y (by omega) hyne hy0
      exact ⟨k + 1, by rw [hy2, hk, Nat.pow_succ]; ring⟩
    · obtain ⟨y, hy⟩ := ho
      rcases Nat.eq_zero_or_pos y with hy0 | hypos
      · exact ⟨0, by omega⟩
      · exfalso
        have hstep : x &&& (x - 1) = 2 * (y &&& y) := by
          rw [hy, show 2 * y + 1 - 1 = 2 * y by omega, mul_two_and_aux2]
        rw [Nat.and_self] at hstep
        omega

/-- A number all of whose set bits sit at position `k` is `0` or `2 ^ k`. -/
theorem subset_single_bit (x k : Nat) (h : ∀ i, x.testBit i = true → i = k) :
    x = 0 ∨ x = 2 ^ k := by
  cases hk : x.testBit k with
  | false =>
    left
    rw [eq_zero_iff_testBit]
    intro i
    cases hi : x.testBit i with
    | false => rfl
    | true => rw [h i hi] at hi; rw [hi] at hk; exact hk
  | true =>
    right
    apply Nat.eq_of_testBit_eq
    intro i
    rw [Nat.testBit_two_pow]
    by_cases hik : k = i
    · subst hik; simp [hk]
    · cases hi : x.testBit i with
      | false => simp [hik]
      | true => exact absurd (h i hi).symm hik

/-- A power of two has a set bit only at its exponent. -/
theorem testBit_pow_imp (k i : Nat) (h : (2 ^ k).testBit i = true) : i = k := by
  rw [Nat.testBit_two_pow] at h
  exact (of_decide_eq_true h).symm

/-! ### Lines of four and `check_win` -/

/-- Four collinear stones: `j`, `j+d`, `j+2d`, `j+3d` all set in `bb`.
The step `d` is 1 for vertical, 6/7/8 for the diagonal and horizontal runs of
the 7-bit column layout. -/
def Line (bb d j : Nat) : Prop :=
  bb.testBit j = true ∧ bb.testBit (j + d) = true ∧
    bb.testBit (j + 2 * d) = true ∧ bb.testBit (j + 3 * d) = true

/-- One paired-shift detector is zero exactly when no line with its step
exists. -/
theorem detector_eq_zero_iff (bb d d2 : Nat) (hd2 : d2 = 2 * d) :
    (bb &&& (bb >>> d)) &&& ((bb &&& (bb >>> d)) >>> d2) = 0 ↔
      ∀ j, ¬ Line bb d j := by
  subst hd2
  rw [eq_zero_iff_testBit]
  constructor
  · intro h j hline
    obtain ⟨h0, h1, h2, h3⟩ := hline
    have := h j
    rw [Nat.testBit_and, Nat.testBit_and, Nat.testBit_shiftRight,
      Nat.testBit_shiftRight, Nat.testBit_and, Nat.testBit_shiftRight] at this
    rw [show d + j = j + d by omega] at this
    rw [show 2 * d + j = j + 2 * d by omega] at this
    rw [show d + (j + 2 * d) = j + 3 * d by omega] at this
    rw [h0, h1, h2, h3] at this
    simp at this
  · intro h j
    by_contra hcon
    have hbit : ((bb &&& (bb >>> d)) &&&
        ((bb &&& (bb >>> d)) >>> (2 * d))).testBit j = true := by
      cases hb : ((bb &&& (bb >>> d)) &&&
          ((bb &&& (bb >>> d)) >>> (2 * d))).testBit j with
      | false => exact absurd hb hcon
      | true => rfl
    apply h j
    rw [Nat.testBit_and, Nat.testBit_and, Nat.testBit_shiftRight,
      Nat.testBit_shiftRight, Nat.testBit_and, Nat.testBit_shiftRight] at hbit
    rw [show d + j = j + d by omega] at hbit
    rw [show 2 * d + j = j + 2 * d by omega] at hbit
    rw [show d + (j + 2 * d) = j + 3 * d by omega] at hbit
    simp only [Bool.and_eq_true] at hbit
    exact ⟨hbit.1.1, hbit.1.2, hbit.2.1, hbit.2.2⟩

/-- `check_win` returns `none` exactly when the bitboard holds no line of four
in any of the four directions. -/
theorem check_win_none_iff (b : Board) (bb : Nat) :
    b.check_win bb = none ↔
      (∀ j, ¬ Line bb 8 j) ∧ (∀ j, ¬ Line bb 6 j) ∧
        (∀ j, ¬ Line bb 7 j) ∧ (∀ j, ¬ Line bb 1 j) := by
  have e8 := detector_eq_zero_iff bb 8 16 (by norm_num)
  have e6 := detector_eq_zero_iff bb 6 12 (by norm_num)
  have e7 := detector_eq_zero_iff bb 7 14 (by norm_num)
  have e1 := detector_eq_zero_iff bb 1 2 (by norm_num)
  rw [← e8, ← e6, ← e7, ← e1]
  unfold Board.check_win
  simp only [HEIGHT]
  norm_num
  by_cases hA : bb &&& bb >>> 8 &&& (bb &&& bb >>> 8) >>> 16 = 0 <;>
    by_cases hB : bb &&& bb >>> 6 &&& (bb &&& bb >>> 6) >>> 12 = 0 <;>
      by_cases hC : bb &&& bb >>> 7 &&& (bb &&& bb >>> 7) >>> 14 = 0 <;>
        by_cases hD : bb &&& bb >>> 1 &&& (bb &&& bb >>> 1) >>> 2 = 0 <;>
          simp [hA, hB, hC, hD]

/-! ### `winCells` and lines -/

/-- `winCells` written out as a flat union of its thirteen shift terms. -/
theorem winCells_eq (bb : Nat) : winCells bb =
    ((shl bb 1 &&& shl bb 2 &&& shl bb 3) |||
      ((shl bb 6 &&& shl bb 12) &&& shl bb 18) |||
      ((shl bb 6 &&& shl bb 12) &&& (bb >>> 6)) |||
      (((bb >>> 6) &&& (bb >>> 12)) &&& (bb >>> 18)) |||
      (((bb >>> 6) &&& (bb >>> 12)) &&& shl bb 6) |||
      ((shl bb 7 &&& shl bb 14) &&& shl bb 21) |||
      ((shl bb 7 &&& shl bb 14) &&& (bb >>> 7)) |||
      (((bb >>> 7) &&& (bb >>> 14)) &&& (bb >>> 21)) |||
      (((bb >>> 7) &&& (bb >>> 14)) &&& shl bb 7) |||
      ((shl bb 8 &&& shl bb 16) &&& shl bb 24) |||
      ((shl bb 8 &&& shl bb 16) &&& (bb >>> 8)) |||
      (((bb >>> 8) &&& (bb >>> 16)) &&& (bb >>> 24)) |||
      (((bb >>> 8) &&& (bb >>> 16)) &&& shl bb 8)) := rfl

theorem testBit_or_pow_left (bb k i : Nat) (h : bb.testBit i = true) :
    (bb ||| 2 ^ k).testBit i = true := by
  rw [Nat.testBit_or, h, Bool.true_or]

theorem testBit_or_pow_self (bb k : Nat) : (bb ||| 2 ^ k).testBit k = true := by
  rw [Nat.testBit_or, Nat.testBit_two_pow_self, Bool.or_true]

/-- A set tile of `winCells bb` together with the three supporting stones in
`bb` forms a line of four once the tile itself is added. -/
theorem winCells_to_line (bb k : Nat) (h : (winCells bb).testBit k = true) :
    ∃ d, (d = 1 ∨ d = 6 ∨ d = 7 ∨ d = 8) ∧ ∃ j, Line (bb ||| 2 ^ k) d j := by
  rw [winCells_eq] at h
  simp only [Nat.testBit_or, Bool.or_eq_true] at h
  rcases h with ((((((((((((h | h) | h) | h) | h) | h) | h) | h) | h) | h) | h) | h) | h)
  · -- vertical, tile on top
    simp only [Nat.testBit_and, testBit_shl, Bool.and_eq_true, decide_eq_true_eq] at h
    obtain ⟨⟨⟨hk64, hs1, hb1⟩, ⟨-, hs2, hb2⟩⟩, ⟨-, hs3, hb3⟩⟩ := h
    refine ⟨1, by norm_num, k - 3, ?_, ?_, ?_, ?_⟩
    · exact testBit_or_pow_left _ _ _ hb3
    · rw [show k - 3 + 1 = k - 2 by omega]
      exact testBit_or_pow_left _ _ _ hb2
    · rw [show k - 3 + 2 * 1 = k - 1 by omega]
      exact testBit_or_pow_left _ _ _ hb1
    · rw [show k - 3 + 3 * 1 = k by omega]
      exact testBit_or_pow_self _ _
  · -- step 6, tile on top
    simp only [Nat.testBit_and, testBit_shl, Bool.and_eq_true, decide_eq_true_eq] at h
    obtain ⟨⟨⟨hk64, hs1, hb1⟩, ⟨-, hs2, hb2⟩⟩, ⟨-, hs3, hb3⟩⟩ := h
    refine ⟨6, by norm_num, k - 18, ?_, ?_, ?_, ?_⟩
    · exact testBit_or_pow_left _ _ _ hb3
    · rw [show k - 18 + 6 = k - 12 by omega]
      exact testBit_or_pow_left _ _ _ hb2
    · rw [show k - 18 + 2 * 6 = k - 6 by omega]
      exact testBit_or_pow_left _ _ _ hb1
    · rw [show k - 18 + 3 * 6 = k by omega]
      exact testBit_or_pow_self _ _
  · -- step 6, tile second from top
    simp only [Nat.testBit_and, testBit_shl, Nat.testBit_shiftRight, Bool.and_eq_true,
      decide_eq_true_eq] at h
    obtain ⟨⟨⟨hk64, hs1, hb1⟩, ⟨-, hs2, hb2⟩⟩, hb3⟩ := h
    refine ⟨6, by norm_num, k - 12, ?_, ?_, ?_, ?_⟩
    · exact testBit_or_pow_left _ _ _ hb2
    · rw [show k - 12 + 6 = k - 6 by omega]
      exact testBit_or_pow_left _ _ _ hb1
    · rw [show k - 12 + 2 * 6 = k by omega]
      exact testBit_or_pow_self _ _
    · rw [show k - 12 + 3 * 6 = 6 + k by omega]
      exact testBit_or_pow_left _ _ _ hb3
  · -- step 6, tile at bottom
    simp only [Nat.testBit_and, Nat.testBit_shiftRight, Bool.and_eq_true] at h
    obtain ⟨⟨hb1, hb2⟩, hb3⟩ := h
    refine ⟨6, by norm_num, k, ?_, ?_, ?_, ?_⟩
    · exact testBit_or_pow_self _ _
    · rw [show k + 6 = 6 + k by omega]
      exact testBit_or_pow_left _ _ _ hb1
    · rw [show k + 2 * 6 = 12 + k by omega]
      exact testBit_or_pow_left _ _ _ hb2
    · rw [show k + 3 * 6 = 18 + k by omega]
      exact testBit_or_pow_left _ _ _ hb3
  · -- step 6, tile second from bottom
    simp only [Nat.testBit_and, testBit_shl, Nat.testBit_shiftRight, Bool.and_eq_true,
      decide_eq_true_eq] at h
    obtain ⟨⟨hb1, hb2⟩, ⟨hk64, hs3, hb3⟩⟩ := h
    refine ⟨6, by norm_num, k - 6, ?_, ?_, ?_, ?_⟩
    · exact testBit_or_pow_left _ _ _ hb3
    · rw [show k - 6 + 6 = k by omega]
      exact testBit_or_pow_self _ _
    · rw [show k - 6 + 2 * 6 = 6 + k by omega]
      exact testBit_or_pow_left _ _ _ hb1
    · rw [show k - 6 + 3 * 6 = 12 + k by omega]
      exact testBit_or_pow_left _ _ _ hb2
  · -- step 7, tile on top
    simp only [Nat.testBit_and, testBit_shl, Bool.and_eq_true, decide_eq_true_eq] at h
    obtain ⟨⟨⟨hk64, hs1, hb1⟩, ⟨-, hs2, hb2⟩⟩, ⟨-, hs3, hb3⟩⟩ := h
    refine ⟨7, by norm_num, k - 21, ?_, ?_, ?_, ?_⟩
    · exact testBit_or_pow_left _ _ _ hb3
    · rw [show k - 21 + 7 = k - 14 by omega]
      exact testBit_or_pow_left _ _ _ hb2
    · rw [show k - 21 + 2 * 7 = k - 7 by omega]
      exact testBit_or_pow_left _ _ _ hb1
    · rw [show k - 21 + 3 * 7 = k by omega]
      exact testBit_or_pow_self _ _
  · -- step 7, tile second from top
    simp only [Nat.testBit_and, testBit_shl, Nat.testBit_shiftRight, Bool.and_eq_true,
      decide_eq_true_eq] at h
    obtain ⟨⟨⟨hk64, hs1, hb1⟩, ⟨-, hs2, hb2⟩⟩, hb3⟩ := h
    refine ⟨7, by norm_num, k - 14, ?_, ?_, ?_, ?_⟩
    · exact testBit_or_pow_left _ _ _ hb2
    · rw [show k - 14 + 7 = k - 7 by omega]
      exact testBit_or_pow_left _ _ _ hb1
    · rw [show k - 14 + 2 * 7 = k by omega]
      exact testBit_or_pow_self _ _
    · rw [show k - 14 + 3 * 7 = 7 + k by omega]
      exact testBit_or_pow_left _ _ _ hb3
  · -- step 7, tile at bottom
    simp only [Nat.testBit_and, Nat.testBit_shiftRight, Bool.and_eq_true] at h
    obtain ⟨⟨hb1, hb2⟩, hb3⟩ := h
    refine ⟨7, by norm_num, k, ?_, ?_, ?_, ?_⟩
    · exact testBit_or_pow_self _ _
    · rw [show k + 7 = 7 + k by omega]
      exact testBit_or_pow_left _ _ _ hb1
    · rw [show k + 2 * 7 = 14 + k by omega]
      exact testBit_or_pow_left _ _ _ hb2
    · rw [show k + 3 * 7 = 21 + k by omega]
      exact testBit_or_pow_left _ _ _ hb3
  · -- step 7, tile second from bottom
    simp only [Nat.testBit_and, testBit_shl, Nat.testBit_shiftRight, Bool.and_eq_true,
      decide_eq_true_eq] at h
    obtain ⟨⟨hb1, hb2⟩, ⟨hk64, hs3, hb3⟩⟩ := h
    refine ⟨7, by norm_num, k - 7, ?_, ?_, ?_, ?_⟩
    · exact testBit_or_pow_left _ _ _ hb3
    · rw [show k - 7 + 7 = k by omega]
      exact testBit_or_pow_self _ _
    · rw [show k - 7 + 2 * 7 = 7 + k by omega]
      exact testBit_or_pow_left _ _ _ hb1
    · rw [show k - 7 + 3 * 7 = 14 + k by omega]
      exact testBit_or_pow_left _ _ _ hb2
  · -- step 8, tile on top
    simp only [Nat.testBit_and, testBit_shl, Bool.and_eq_true, decide_eq_true_eq] at h
    obtain ⟨⟨⟨hk64, hs1, hb1⟩, ⟨-, hs2, hb2⟩⟩, ⟨-, hs3, hb3⟩⟩ := h
    refine ⟨8, by norm_num, k - 24, ?_, ?_, ?_, ?_⟩
    · exact testBit_or_pow_left _ _ _ hb3
    · rw [show k - 24 + 8 = k - 16 by omega]
      exact testBit_or_pow_left _ _ _ hb2
    · rw [show k - 24 + 2 * 8 = k - 8 by omega]
      exact testBit_or_pow_left _ _ _ hb1
    · rw [show k - 24 + 3 * 8 = k by omega]
      exact testBit_or_pow_self _ _
  · -- step 8, tile second from top
    simp only [Nat.testBit_and, testBit_shl, Nat.testBit_shiftRight, Bool.and_eq_true,
      decide_eq_true_eq] at h
    obtain ⟨⟨⟨hk64, hs1, hb1⟩, ⟨-, hs2, hb2⟩⟩, hb3⟩ := h
    refine ⟨8, by norm_num, k - 16, ?_, ?_, ?_, ?_⟩
    · exact testBit_or_pow_left _ _ _ hb2
    · rw [show k - 16 + 8 = k - 8 by omega]
      exact testBit_or_pow_left _ _ _ hb1
    · rw [show k - 16 + 2 * 8 = k by omega]
      exact testBit_or_pow_self _ _
    · rw [show k - 16 + 3 * 8 = 8 + k by omega]
      exact testBit_or_pow_left _ _ _ hb3
  · -- step 8, tile at bottom
    simp only [Nat.testBit_and, Nat.testBit_shiftRight, Bool.and_eq_true] at h
    obtain ⟨⟨hb1, hb2⟩, hb3⟩ := h
    refine ⟨8, by norm_num, k, ?_, ?_, ?_, ?_⟩
    · exact testBit_or_pow_self _ _
    · rw [show k + 8 = 8 + k by omega]
      exact testBit_or_pow_left _ _ _ hb1
    · rw [show k + 2 * 8 = 16 + k by omega]
      exact testBit_or_pow_left _ _ _ hb2
    · rw [show k + 3 * 8 = 24 + k by omega]
      exact testBit_or_pow_left _ _ _ hb3
  · -- step 8, tile second from bottom
    simp only [Nat.testBit_and, testBit_shl, Nat.testBit_shiftRight, Bool.and_eq_true,
      decide_eq_true_eq] at h
    obtain ⟨⟨hb1, hb2⟩, ⟨hk64, hs3, hb3⟩⟩ := h
    refine ⟨8, by norm_num, k - 8, ?_, ?_, ?_, ?_⟩
    · exact testBit_or_pow_left _ _ _ hb3
    · rw [show k - 8 + 8 = k by omega]
      exact testBit_or_pow_self _ _
    · rw [show k - 8 + 2 * 8 = 8 + k by omega]
      exact testBit_or_pow_left _ _ _ hb1
    · rw [show k - 8 + 3 * 8 = 16 + k by omega]
      exact testBit_or_pow_left _ _ _ hb2

/-- Each tile of `FULL_BOARD_MASK` lies in the 7x7 area below the sentinel
row. -/
theorem testBit_FULL (m : Nat) :
    FULL_BOARD_MASK.testBit m = (decide (m < 49) && decide (m % 7 ≤ 5)) := by
  have hrep : ∀ d ∈ List.replicate 7 63, d < 2 ^ 7 := by
    intro d hd
    rw [List.eq_of_mem_replicate hd]
    norm_num
  rw [FULL_BOARD_MASK_eq, testBit_fromDigs _ hrep]
  by_cases hm : m / 7 < 7
  · rw [List.getD_eq_getElem _ 0 (by simpa using hm), List.getElem_replicate]
    have h49 : m < 49 := by omega
    simp only [h49, decide_True, Bool.true_and]
    have hr7 : m % 7 < 7 := Nat.mod_lt _ (by norm_num)
    generalize hr : m % 7 = r at *
    interval_cases r <;> decide
  · rw [List.getD_eq_default _ 0 (by simp only [List.length_replicate]; omega)]
    have h49 : ¬ (m < 49) := by omega
    simp [h49, Nat.zero_testBit]

/-- Bitboards inside the playing area have no sentinel-row or out-of-board
bits. -/
theorem no_sentinel (bb : Nat) (hfull : bb &&& FULL_BOARD_MASK = bb) (m : Nat)
    (hm : m % 7 = 6 ∨ 49 ≤ m) : bb.testBit m = false := by
  rw [← hfull, Nat.testBit_and, testBit_FULL]
  rcases hm with hm | hm
  · simp [hm]
  · simp [show ¬ (m < 49) by omega]

theorem or_of_or_pow (bb k i : Nat) (h : (bb ||| 2 ^ k).testBit i = true) :
    bb.testBit i = true ∨ i = k := by
  rw [Nat.testBit_or, Bool.or_eq_true] at h
  rcases h with h | h
  · exact Or.inl h
  · exact Or.inr (testBit_pow_imp k i h)

/-- If adding a single tile at `k` (a playable cell: inside the board, with
the tiles directly above it in its column empty) creates a line of four that
was not already present, then `k` is a `winCells` tile of `bb`. -/
theorem line_to_winCells (bb k d j : Nat) (hk49 : k < 49) (hkrow : k % 7 ≤ 5)
    (hfull : bb &&& FULL_BOARD_MASK = bb)
    (habove : ∀ i, 1 ≤ i → i ≤ 3 → k % 7 + i ≤ 5 → bb.testBit (k + i) = false)
    (hd : d = 1 ∨ d = 6 ∨ d = 7 ∨ d = 8)
    (hline : Line (bb ||| 2 ^ k) d j) (hnoline : ¬ Line bb d j) :
    (winCells bb).testBit k = true := by
  obtain ⟨hl0, hl1, hl2, hl3⟩ := hline
  have or0 := or_of_or_pow bb k j hl0
  have or1 := or_of_or_pow bb k (j + d) hl1
  have or2 := or_of_or_pow bb k (j + 2 * d) hl2
  have or3 := or_of_or_pow bb k (j + 3 * d) hl3
  rcases hd with rfl | rfl | rfl | rfl
  · rcases or0 with hb0 | he0 <;> rcases or1 with hb1 | he1 <;>
      rcases or2 with hb2 | he2 <;> rcases or3 with hb3 | he3
    · exact (hnoline ⟨hb0, hb1, hb2, hb3⟩).elim
    ·
      rw [winCells_eq]
      simp only [Nat.testBit_or, Nat.testBit_and, testBit_shl, Nat.testBit_shiftRight,
        Bool.or_eq_true, Bool.and_eq_true, decide_eq_true_eq]
      exact (Or.inl (Or.inl (Or.inl (Or.inl (Or.inl (Or.inl (Or.inl (Or.inl (Or.inl (Or.inl (Or.inl (Or.inl ⟨⟨⟨by omega, by omega, by
          rw [(show k - 1 = j + 2 * 1 by omega)]
          exact hb2⟩,
        ⟨by omega, by omega, by
          rw [(show k - 2 = j + 1 by omega)]
          exact hb1⟩⟩,
        ⟨by omega, by omega, by
          rw [(show k - 3 = j by omega)]
          exact hb0⟩⟩))))))))))))
    · exfalso
      have hup : bb.testBit (k + 1) = false := by
        by_cases hr : k % 7 = 5
        · exact no_sentinel bb hfull (k + 1) (Or.inl (by omega))
        · exact habove 1 (by omega) (by omega) (by omega)
      rw [(show j + 3 * 1 = k + 1 by omega)] at hb3
      rw [hup] at hb3
      exact Bool.noConfusion hb3
    · exfalso
      omega
    · exfalso
      have hup : bb.testBit (k + 1) = false := by
        by_cases hr : k % 7 = 5
        · exact no_sentinel bb hfull (k + 1) (Or.inl (by omega))
        · exact habove 1 (by omega) (by omega) (by omega)
      rw [(show j + 2 * 1 = k + 1 by omega)] at hb2
      rw [hup] at hb2
      exact Bool.noConfusion hb2
    · exfalso
      omega
    · exfalso
      omega
    · exfalso
      omega
    · exfalso
      have hup : bb.testBit (k + 1) = false := by
        by_cases hr : k % 7 = 5
        · exact no_sentinel bb hfull (k + 1) (Or.inl (by omega))
        · exact habove 1 (by omega) (by omega) (by omega)
      rw [(show j + 1 = k + 1 by omega)] at hb1
      rw [hup] at hb1
      exact Bool.noConfusion hb1
    · exfalso
      omega
    · exfalso
      omega
    · exfalso
      omega
    · exfalso
      omega
    · exfalso
      omega
    · exfalso
      omega
    · exfalso
      omega
  · rcases or0 with hb0 | he0 <;> rcases or1 with hb1 | he1 <;>
      rcases or2 with hb2 | he2 <;> rcases or3 with hb3 | he3
    · exact (hnoline ⟨hb0, hb1, hb2, hb3⟩).elim
    ·
      rw [winCells_eq]
      simp only [Nat.testBit_or, Nat.testBit_and, testBit_shl, Nat.testBit_shiftRight,
        Bool.or_eq_true, Bool.and_eq_true, decide_eq_true_eq]
      exact (Or.inl (Or.inl (Or.inl (Or.inl (Or.inl (Or.inl (Or.inl (Or.inl (Or.inl (Or.inl (Or.inl (Or.inr ⟨⟨⟨by omega, by omega, by
          rw [(show k - 6 = j + 2 * 6 by omega)]
          exact hb2⟩,
        ⟨by omega, by omega, by
          rw [(show k - 12 = j + 6 by omega)]
          exact hb1⟩⟩,
        ⟨by omega, by omega, by
          rw [(show k - 18 = j by omega)]
          exact hb0⟩⟩))))))))))))
    ·
      rw [winCells_eq]
      simp only [Nat.testBit_or, Nat.testBit_and, testBit_shl, Nat.testBit_shiftRight,
        Bool.or_eq_true, Bool.and_eq_true, decide_eq_true_eq]
      exact (Or.inl (Or.inl (Or.inl (Or.inl (Or.inl (Or.inl (Or.inl (Or.inl (Or.inl (Or.inl (Or.inr ⟨⟨⟨by omega, by omega, by
          rw [(show k - 6 = j + 6 by omega)]
          exact hb1⟩,
        ⟨by omega, by omega, by
          rw [(show k - 12 = j by omega)]
          exact hb0⟩⟩,
        (by
          rw [(show 6 + k = j + 3 * 6 by omega)]
          exact hb3 : bb.testBit (6 + k) = true)⟩)))))))))))
    · exfalso
      omega
    ·
      rw [winCells_eq]
      simp only [Nat.testBit_or, Nat.testBit_and, testBit_shl, Nat.testBit_shiftRight,
        Bool.or_eq_true, Bool.and_eq_true, decide_eq_true_eq]
      exact (Or.inl (Or.inl (Or.inl (Or.inl (Or.inl (Or.inl (Or.inl (Or.inl (Or.inr ⟨⟨(by
          rw [(show 6 + k = j + 2 * 6 by omega)]
          exact hb2 : bb.testBit (6 + k) = true),
        (by
          rw [(show 12 + k = j + 3 * 6 by omega)]
          exact hb3 : bb.testBit (12 + k) = true)⟩,
        ⟨by omega, by omega, by
          rw [(show k - 6 = j by omega)]
          exact hb0⟩⟩)))))))))
    · exfalso
      omega
    · exfalso
      omega
    · exfalso
      omega
    ·
      rw [winCells_eq]
      simp only [Nat.testBit_or, Nat.testBit_and, testBit_shl, Nat.testBit_shiftRight,
        Bool.or_eq_true, Bool.and_eq_true, decide_eq_true_eq]
      exact (Or.inl (Or.inl (Or.inl (Or.inl (Or.inl (Or.inl (Or.inl (Or.inl (Or.inl (Or.inr ⟨⟨(by
          rw [(show 6 + k = j + 6 by omega)]
          exact hb1 : bb.testBit (6 + k) = true),
        (by
          rw [(show 12 + k = j + 2 * 6 by omega)]
          exact hb2 : bb.testBit (12 + k) = true)⟩,
        (by
          rw [(show 18 + k = j + 3 * 6 by omega)]
          exact hb3 : bb.testBit (18 + k) = true)⟩))))))))))
    · exfalso
      omega
    · exfalso
      omega
    · exfalso
      omega
    · exfalso
      omega
    · exfalso
      omega
    · exfalso
      omega
    · exfalso
      omega
  · rcases or0 with hb0 | he0 <;> rcases or1 with hb1 | he1 <;>
      rcases or2 with hb2 | he2 <;> rcases or3 with hb3 | he3
    · exact (hnoline ⟨hb0, hb1, hb2, hb3⟩).elim
    ·
      rw [winCells_eq]
      simp only [Nat.testBit_or, Nat.testBit_and, testBit_shl, Nat.testBit_shiftRight,
        Bool.or_eq_true, Bool.and_eq_true, decide_eq_true_eq]
      exact (Or.inl (Or.inl (Or.inl (Or.inl (Or.inl (Or.inl (Or.inl (Or.inr ⟨⟨⟨by omega, by omega, by
          rw [(show k - 7 = j + 2 * 7 by omega)]
          exact hb2⟩,
        ⟨by omega, by omega, by
          rw [(show k - 14 = j + 7 by omega)]
          exact hb1⟩⟩,
        ⟨by omega, by omega, by
          rw [(show k - 21 = j by omega)]
          exact hb0⟩⟩))))))))
    ·
      rw [winCells_eq]
      simp only [Nat.testBit_or, Nat.testBit_and, testBit_shl, Nat.testBit_shiftRight,
        Bool.or_eq_true, Bool.and_eq_true, decide_eq_true_eq]
      exact (Or.inl (Or.inl (Or.inl (Or.inl (Or.inl (Or.inl (Or.inr ⟨⟨⟨by omega, by omega, by
          rw [(show k - 7 = j + 7 by omega)]
          exact hb1⟩,
        ⟨by omega, by omega, by
          rw [(show k - 14 = j by omega)]
          exact hb0⟩⟩,
        (by
          rw [(show 7 + k = j + 3 * 7 by omega)]
          exact hb3 : bb.testBit (7 + k) = true)⟩)))))))
    · exfalso
      omega
    ·
      rw [winCells_eq]
      simp only [Nat.testBit_or, Nat.testBit_and, testBit_shl, Nat.testBit_shiftRight,
        Bool.or_eq_true, Bool.and_eq_true, decide_eq_true_eq]
      exact (Or.inl (Or.inl (Or.inl (Or.inl (Or.inr ⟨⟨(by
          rw [(show 7 + k = j + 2 * 7 by omega)]
          exact hb2 : bb.testBit (7 + k) = true),
        (by
          rw [(show 14 + k = j + 3 * 7 by omega)]
          exact hb3 : bb.testBit (14 + k) = true)⟩,
        ⟨by omega, by omega, by
          rw [(show k - 7 = j by omega)]
          exact hb0⟩⟩)))))
    · exfalso
      omega
    · exfalso
      omega
    · exfalso
      omega
    ·
      rw [winCells_eq]
      simp only [Nat.testBit_or, Nat.testBit_and, testBit_shl, Nat.testBit_shiftRight,
        Bool.or_eq_true, Bool.and_eq_true, decide_eq_true_eq]
      exact (Or.inl (Or.inl (Or.inl (Or.inl (Or.inl (Or.inr ⟨⟨(by
          rw [(show 7 + k = j + 7 by omega)]
          exact hb1 : bb.testBit (7 + k) = true),
        (by
          rw [(show 14 + k = j + 2 * 7 by omega)]
          exact hb2 : bb.testBit (14 + k) = true)⟩,
        (by
          rw [(show 21 + k = j + 3 * 7 by omega)]
          exact hb3 : bb.testBit (21 + k) = true)⟩))))))
    · exfalso
      omega
    · exfalso
      omega
    · exfalso
      omega
    · exfalso
      omega
    · exfalso
      omega
    · exfalso
      omega
    · exfalso
      omega
  · rcases or0 with hb0 | he0 <;> rcases or1 with hb1 | he1 <;>
      rcases or2 with hb2 | he2 <;> rcases or3 with hb3 | he3
    · exact (hnoline ⟨hb0, hb1, hb2, hb3⟩).elim
    ·
      rw [winCells_eq]
      simp only [Nat.testBit_or, Nat.testBit_and, testBit_shl, Nat.testBit_shiftRight,
        Bool.or_eq_true, Bool.and_eq_true, decide_eq_true_eq]
      exact (Or.inl (Or.inl (Or.inl (Or.inr ⟨⟨⟨by omega, by omega, by
          rw [(show k - 8 = j + 2 * 8 by omega)]
          exact hb2⟩,
        ⟨by omega, by omega, by
          rw [(show k - 16 = j + 8 by omega)]
          exact hb1⟩⟩,
        ⟨by omega, by omega, by
          rw [(show k - 24 = j by omega)]
          exact hb0⟩⟩))))
    ·
      rw [winCells_eq]
      simp only [Nat.testBit_or, Nat.testBit_and, testBit_shl, Nat.testBit_shiftRight,
        Bool.or_eq_true, Bool.and_eq_true, decide_eq_true_eq]
      exact (Or.inl (Or.inl (Or.inr ⟨⟨⟨by omega, by omega, by
          rw [(show k - 8 = j + 8 by omega)]
          exact hb1⟩,
        ⟨by omega, by omega, by
          rw [(show k - 16 = j by omega)]
          exact hb0⟩⟩,
        (by
          rw [(show 8 + k = j + 3 * 8 by omega)]
          exact hb3 : bb.testBit (8 + k) = true)⟩)))
    · exfalso
      omega
    ·
      rw [winCells_eq]
      simp only [Nat.testBit_or, Nat.testBit_and, testBit_shl, Nat.testBit_shiftRight,
        Bool.or_eq_true, Bool.and_eq_true, decide_eq_true_eq]
      exact (Or.inr ⟨⟨(by
          rw [(show 8 + k = j + 2 * 8 by omega)]
          exact hb2 : bb.testBit (8 + k) = true),
        (by
          rw [(show 16 + k = j + 3 * 8 by omega)]
          exact hb3 : bb.testBit (16 + k) = true)⟩,
        ⟨by omega, by omega, by
          rw [(show k - 8 = j by omega)]
          exact hb0⟩⟩)
    · exfalso
      omega
    · exfalso
      omega
    · exfalso
      omega
    ·
      rw [winCells_eq]
      simp only [Nat.testBit_or, Nat.testBit_and, testBit_shl, Nat.testBit_shiftRight,
        Bool.or_eq_true, Bool.and_eq_true, decide_eq_true_eq]
      exact (Or.inl (Or.inr ⟨⟨(by
          rw [(show 8 + k = j + 8 by omega)]
          exact hb1 : bb.testBit (8 + k) = true),
        (by
          rw [(show 16 + k = j + 2 * 8 by omega)]
          exact hb2 : bb.testBit (16 + k) = true)⟩,
        (by
          rw [(show 24 + k = j + 3 * 8 by omega)]
          exact hb3 : bb.testBit (24 + k) = true)⟩))
    · exfalso
      omega
    · exfalso
      omega
    · exfalso
      omega
    · exfalso
      omega
    · exfalso
      omega
    · exfalso
      omega
    · exfalso
      omega

/-! ### The playable cells of a well-formed board -/

theorem getD_replicate7 (v i : Nat) (hi : i < 7) : (List.replicate 7 v).getD i 0 = v := by
  interval_cases i <;> rfl

theorem getD_map_fn (f : Nat → Nat) (l : List Nat) (n : Nat) (hn : n < l.length) :
    (l.map f).getD n 0 = f (l.getD n 0) := by
  rw [List.getD_eq_getElem _ 0 (by simpa using hn), List.getElem_map,
    List.getD_eq_getElem _ 0 hn]

/-- Per-column digits of `possible_bb`: the single playable cell of each open
column, nothing for full columns. -/
def possDigs (hs : List Nat) : List Nat :=
  hs.map (fun h => if h ≤ 5 then 2 ^ h else 0)

theorem possDigs_length (hs : List Nat) : (possDigs hs).length = hs.length := by
  simp [possDigs]

theorem possDigs_lt (hs : List Nat) : ∀ d ∈ possDigs hs, d < 2 ^ 6 := by
  intro d hd
  obtain ⟨x, hx, rfl⟩ := List.mem_map.mp hd
  by_cases hx5 : x ≤ 5
  · simp only [if_pos hx5]
    calc 2 ^ x ≤ 2 ^ 5 := Nat.pow_le_pow_right (by omega) hx5
      _ < 2 ^ 6 := by norm_num
  · simp only [if_neg hx5]
    positivity

theorem possible_repr (hs ps : List Nat) (b : Board) (hok : ColsOk hs ps)
    (hrep : reprOf hs ps b) : b.possible_bb = fromDigs (possDigs hs) := by
  obtain ⟨hlen, plen, hbound⟩ := hok
  obtain ⟨ho, hp, hm⟩ := hrep
  have hos_lt : ∀ d ∈ occDigs hs, d < 2 ^ 7 :=
    occDigs_lt hs (fun i hi => (hbound i (hlen ▸ hi)).1)
  have hoslen : (occDigs hs).length = 7 := by rw [occDigs_length, hlen]
  have hsum_eq : b.occupied_bb + BOTTOM_ROW_MASK =
      fromDigs (List.zipWith (· + ·) (occDigs hs) (List.replicate 7 1)) := by
    rw [ho, BOTTOM_ROW_MASK_eq, fromDigs_add _ _ (by rw [hoslen, List.length_replicate])]
  have hzlen : (List.zipWith (· + ·) (occDigs hs) (List.replicate 7 1)).length = 7 := by
    rw [List.length_zipWith, hoslen, List.length_replicate]
    simp
  have hz_lt : ∀ d ∈ List.zipWith (· + ·) (occDigs hs) (List.replicate 7 1), d < 2 ^ 7 := by
    apply forall_mem_of_forall_getD
    intro i hi
    rw [hzlen] at hi
    rw [getD_zipWith (· + ·) rfl _ _ (by rw [hoslen, List.length_replicate]) i,
      getD_replicate7 1 i hi, occDigs, getD_map_pow hs i (by omega)]
    have hh := (hbound i hi).1
    have : 2 ^ hs.getD i 0 ≤ 2 ^ 6 := Nat.pow_le_pow_right (by omega) hh
    omega
  have hsmall : fromDigs (List.zipWith (· + ·) (occDigs hs) (List.replicate 7 1)) < 2 ^ 64 := by
    have := fromDigs_lt _ hz_lt
    rw [hzlen] at this
    calc fromDigs _ < 2 ^ (7 * 7) := this
      _ < 2 ^ 64 := by norm_num
  show u64 (b.occupied_bb + BOTTOM_ROW_MASK) &&& FULL_BOARD_MASK = _
  rw [hsum_eq, u64_eq_of_lt hsmall, FULL_BOARD_MASK_eq,
    fromDigs_bitwise (· &&& ·) (· && ·) Nat.testBit_and rfl _ _
      (by rw [hzlen, List.length_replicate])
      hz_lt (by
        intro d hd
        rw [List.eq_of_mem_replicate hd]
        norm_num)]
  congr 1
  apply list_ext_getD
  · rw [List.length_zipWith, hzlen, List.length_replicate, possDigs_length, hlen]
    simp
  · intro i hi
    rw [List.length_zipWith, hzlen, List.length_replicate] at hi
    simp only [Nat.min_self] at hi
    rw [getD_zipWith (· &&& ·) rfl _ _ (by rw [hzlen, List.length_replicate]) i,
      getD_zipWith (· + ·) rfl _ _ (by rw [hoslen, List.length_replicate]) i,
      getD_replicate7 1 i (by omega), getD_replicate7 63 i (by omega),
      occDigs, getD_map_pow hs i (by omega),
      possDigs, getD_map_fn _ hs i (by omega)]
    have hh := (hbound i (by omega)).1
    have hpow : 0 < 2 ^ hs.getD i 0 := Nat.pos_pow_of_pos _ (by omega)
    rw [show 2 ^ hs.getD i 0 - 1 + 1 = 2 ^ hs.getD i 0 by omega]
    generalize hgen : hs.getD i 0 = h at *
    interval_cases h <;> decide

theorem testBit_possible (hs ps : List Nat) (b : Board) (hok : ColsOk hs ps)
    (hrep : reprOf hs ps b) (k : Nat) :
    b.possible_bb.testBit k = true ↔
      k < 49 ∧ hs.getD (k / 7) 0 = k % 7 ∧ k % 7 ≤ 5 := by
  have hlen := hok.1
  have hlt7 : ∀ d ∈ possDigs hs, d < 2 ^ 7 := by
    intro d hd
    have := possDigs_lt hs d hd
    omega
  rw [possible_repr hs ps b hok hrep, testBit_fromDigs _ hlt7]
  by_cases hk : k / 7 < 7
  · rw [possDigs, getD_map_fn _ hs (k / 7) (by omega)]
    by_cases h5 : hs.getD (k / 7) 0 ≤ 5
    · rw [if_pos h5, Nat.testBit_two_pow]
      constructor
      · intro h
        have := of_decide_eq_true h
        omega
      · intro ⟨h49, heq, hr⟩
        exact decide_eq_true (by omega)
    · rw [if_neg h5, Nat.zero_testBit]
      constructor
      · intro h
        exact absurd h (by simp)
      · intro ⟨h49, heq, hr⟩
        omega
  · rw [List.getD_eq_default _ 0 (by rw [possDigs_length, hlen]; omega), Nat.zero_testBit]
    constructor
    · intro h
      exact absurd h (by simp)
    · intro ⟨h49, heq, hr⟩
      omega

theorem testBit_occ (hs ps : List Nat) (b : Board) (hok : ColsOk hs ps)
    (hrep : reprOf hs ps b) (m : Nat) :
    b.occupied_bb.testBit m =
      (decide (m < 49) && decide (m % 7 < hs.getD (m / 7) 0)) := by
  have hlen := hok.1
  have hos_lt : ∀ d ∈ occDigs hs, d < 2 ^ 7 :=
    occDigs_lt hs (fun i hi => (hok.2.2 i (hlen ▸ hi)).1)
  rw [hrep.1, testBit_fromDigs _ hos_lt]
  by_cases hm : m / 7 < 7
  · rw [occDigs, getD_map_pow hs (m / 7) (by omega), Nat.testBit_two_pow_sub_one]
    have h49 : m < 49 := by omega
    simp [h49]
  · rw [List.getD_eq_default _ 0 (by rw [occDigs_length, hlen]; omega), Nat.zero_testBit]
    have h49 : ¬ (m < 49) := by omega
    simp [h49]

theorem testBit_player (hs ps : List Nat) (b : Board) (hok : ColsOk hs ps)
    (hrep : reprOf hs ps b) (m : Nat) :
    b.player_bb.testBit m = (ps.getD (m / 7) 0).testBit (m % 7) := by
  rw [hrep.2.1, testBit_fromDigs _ (ps_lt hs ps hok)]

/-- The current player occupies a sub-board of the occupied tiles. -/
theorem player_sub_occ (hs ps : List Nat) (b : Board) (hok : ColsOk hs ps)
    (hrep : reprOf hs ps b) (m : Nat) (h : b.player_bb.testBit m = true) :
    b.occupied_bb.testBit m = true := by
  rw [testBit_player hs ps b hok hrep] at h
  rw [testBit_occ hs ps b hok hrep]
  have hlen := hok.1
  have plen := hok.2.1
  by_cases hm : m / 7 < 7
  · have hb := (hok.2.2 (m / 7) hm).2
    have hht := (hok.2.2 (m / 7) hm).1
    by_cases hr : m % 7 < hs.getD (m / 7) 0
    · rw [decide_eq_true (show m < 49 by omega), decide_eq_true hr]
      rfl
    · exfalso
      have : ps.getD (m / 7) 0 < 2 ^ (m % 7) := by
        calc ps.getD (m / 7) 0 < 2 ^ hs.getD (m / 7) 0 := hb
          _ ≤ 2 ^ (m % 7) := Nat.pow_le_pow_right (by omega) (by omega)
      rw [Nat.testBit_lt_two_pow this] at h
      exact Bool.noConfusion h
  · exfalso
    rw [List.getD_eq_default _ 0 (by omega), Nat.zero_testBit] at h
    exact Bool.noConfusion h

/-- The opponent likewise occupies a sub-board of the occupied tiles. -/
theorem opp_sub_occ (hs ps : List Nat) (b : Board) (hok : ColsOk hs ps)
    (hrep : reprOf hs ps b) (m : Nat) (h : b.opponent_bb.testBit m = true) :
    b.occupied_bb.testBit m = true := by
  unfold Board.opponent_bb at h
  rw [Nat.testBit_xor] at h
  cases ho : b.occupied_bb.testBit m with
  | true => rfl
  | false =>
    rw [ho] at h
    cases hp : b.player_bb.testBit m with
    | false => rw [hp] at h; exact Bool.noConfusion h
    | true =>
      rw [← ho]
      exact player_sub_occ hs ps b hok hrep m hp

/-- Bitboards with digits below `2 ^ 6` avoid the sentinel row. -/
theorem fromDigs_and_FULL (ds : List Nat) (hds : ∀ d ∈ ds, d < 2 ^ 6)
    (hlen : ds.length ≤ 7) :
    fromDigs ds &&& FULL_BOARD_MASK = fromDigs ds := by
  have hds7 : ∀ d ∈ ds, d < 2 ^ 7 := by
    intro d hd
    have := hds d hd
    omega
  apply Nat.eq_of_testBit_eq
  intro i
  rw [Nat.testBit_and, testBit_FULL, testBit_fromDigs _ hds7]
  cases hbit : (ds.getD (i / 7) 0).testBit (i % 7) with
  | false => rw [Bool.false_and]
  | true =>
    rw [Bool.true_and]
    have hd6 : ds.getD (i / 7) 0 < 2 ^ 6 := by
      by_cases hi : i / 7 < ds.length
      · rw [List.getD_eq_getElem _ 0 hi]
        exact hds _ (List.getElem_mem hi)
      · rw [List.getD_eq_default _ 0 (by omega)]
        positivity
    have hr6 : i % 7 < 6 := by
      by_contra hcon
      have : ds.getD (i / 7) 0 < 2 ^ (i % 7) := by
        calc ds.getD (i / 7) 0 < 2 ^ 6 := hd6
          _ ≤ 2 ^ (i % 7) := Nat.pow_le_pow_right (by omega) (by omega)
      rw [Nat.testBit_lt_two_pow this] at hbit
      exact Bool.noConfusion hbit
    have hlt : i < 7 * ds.length := by
      by_contra hcon
      have : ds.getD (i / 7) 0 = 0 := List.getD_eq_default _ 0 (by omega)
      rw [this, Nat.zero_testBit] at hbit
      exact Bool.noConfusion hbit
    simp [show i < 49 by omega, show i % 7 ≤ 5 by omega]

theorem open_iff (hs ps : List Nat) (b : Board) (hok : ColsOk hs ps)
    (hrep : reprOf hs ps b) (c : Nat) (hc : c < 7) :
    b.is_open c = true ↔ hs.getD c 0 ≤ 5 := by
  constructor
  · exact open_height_le hs ps b hok hrep c hc
  · intro h5
    unfold Board.is_open
    rw [top_piece_mask_eq, Nat.and_comm, pow_and_eq_ite]
    have hbit : b.occupied_bb.testBit (7 * c + 5) = false := by
      rw [testBit_occ hs ps b hok hrep]
      have e1 : (7 * c + 5) / 7 = c := by omega
      have e2 : (7 * c + 5) % 7 = 5 := by omega
      rw [e1, e2]
      rw [decide_eq_false (show ¬ (5 < hs.getD c 0) by omega), Bool.and_false]
    rw [hbit]
    simp

theorem exists_open (hs ps : List Nat) (b : Board) (hok : ColsOk hs ps)
    (hrep : reprOf hs ps b) (hnf : b.num_moves < 42) :
    ∃ c, c < 7 ∧ b.is_open c = true := by
  by_contra hcon
  push_neg at hcon
  have hall : ∀ i, i < 7 → hs.getD i 0 = 6 := by
    intro i hi
    have h1 := (hok.2.2 i hi).1
    have h2 := hcon i hi
    by_contra hne
    exact h2 ((open_iff hs ps b hok hrep i hi).mpr (by omega))
  have heq : hs = List.replicate 7 6 := by
    apply list_ext_getD
    · rw [hok.1, List.length_replicate]
    · intro i hi
      rw [hok.1] at hi
      rw [hall i hi, getD_replicate7 6 i hi]
  have : hs.sum = 42 := by rw [heq]; decide
  rw [hrep.2.2] at hnf
  omega

theorem playable_cell (hs ps : List Nat) (b : Board) (hok : ColsOk hs ps)
    (hrep : reprOf hs ps b) (c : Nat) (hc : c < 7) (hopen : b.is_open c = true) :
    b.possible_bb.testBit (7 * c + hs.getD c 0) = true := by
  have h5 := open_height_le hs ps b hok hrep c hc hopen
  rw [testBit_possible hs ps b hok hrep]
  have e1 : (7 * c + hs.getD c 0) / 7 = c := by omega
  have e2 : (7 * c + hs.getD c 0) % 7 = hs.getD c 0 := by omega
  rw [e1, e2]
  exact ⟨by omega, rfl, by omega⟩

theorem possible_col_single (hs ps : List Nat) (b : Board) (hok : ColsOk hs ps)
    (hrep : reprOf hs ps b) (c : Nat) (hc : c < 7) :
    b.possible_bb &&& column_mask c =
      (if hs.getD c 0 ≤ 5 then 2 ^ hs.getD c 0 else 0) * 2 ^ (7 * c) := by
  rw [possible_repr hs ps b hok hrep, fromDigs_and_column _ (possDigs_lt hs) c,
    possDigs, getD_map_fn _ hs c (by rw [hok.1]; omega)]

theorem possible_empty_bit (hs ps : List Nat) (b : Board) (hok : ColsOk hs ps)
    (hrep : reprOf hs ps b) (k : Nat) (hk : b.possible_bb.testBit k = true) :
    (b.occupied_bb ^^^ FULL_BOARD_MASK).testBit k = true := by
  obtain ⟨h49, hdig, hr⟩ := (testBit_possible hs ps b hok hrep k).mp hk
  rw [Nat.testBit_xor, testBit_occ hs ps b hok hrep, testBit_FULL,
    decide_eq_false (show ¬ (k % 7 < hs.getD (k / 7) 0) by omega),
    decide_eq_true h49, decide_eq_true hr, Bool.and_false]
  rfl

/-- Masking with the playable cells removes the emptiness mask from
`winning_bb`. -/
theorem winning_and_possible (hs ps : List Nat) (b : Board) (hok : ColsOk hs ps)
    (hrep : reprOf hs ps b) (bb : Nat) :
    b.winning_bb bb &&& b.possible_bb = winCells bb &&& b.possible_bb := by
  unfold Board.winning_bb
  apply Nat.eq_of_testBit_eq
  intro i
  rw [Nat.testBit_and, Nat.testBit_and, Nat.testBit_and]
  cases hp : b.possible_bb.testBit i with
  | false => rw [Bool.and_false, Bool.and_false]
  | true =>
    rw [possible_empty_bit hs ps b hok hrep i hp]
    simp

theorem sub_and_FULL (x y : Nat) (hsub : ∀ i, x.testBit i = true → y.testBit i = true)
    (hy : y &&& FULL_BOARD_MASK = y) : x &&& FULL_BOARD_MASK = x := by
  apply Nat.eq_of_testBit_eq
  intro i
  rw [Nat.testBit_and]
  cases hx : x.testBit i with
  | false => rw [Bool.false_and]
  | true =>
    have hyb := hsub i hx
    have := congrArg (fun z : Nat => z.testBit i) hy
    simp only [Nat.testBit_and] at this
    rw [hyb, Bool.true_and] at this
    rw [this, Bool.true_and]

theorem occ_and_FULL (hs ps : List Nat) (b : Board) (hok : ColsOk hs ps)
    (hrep : reprOf hs ps b) : b.occupied_bb &&& FULL_BOARD_MASK = b.occupied_bb := by
  rw [hrep.1]
  apply fromDigs_and_FULL
  · apply forall_mem_of_forall_getD
    intro i hi
    rw [occDigs_length] at hi
    rw [occDigs, getD_map_pow hs i hi]
    have := (hok.2.2 i (by rw [hok.1] at hi; omega)).1
    have : 2 ^ hs.getD i 0 ≤ 2 ^ 6 := Nat.pow_le_pow_right (by omega) this
    omega
  · rw [occDigs_length, hok.1]

theorem player_and_FULL (hs ps : List Nat) (b : Board) (hok : ColsOk hs ps)
    (hrep : reprOf hs ps b) : b.player_bb &&& FULL_BOARD_MASK = b.player_bb :=
  sub_and_FULL _ _ (player_sub_occ hs ps b hok hrep) (occ_and_FULL hs ps b hok hrep)

theorem opp_and_FULL (hs ps : List Nat) (b : Board) (hok : ColsOk hs ps)
    (hrep : reprOf hs ps b) : b.opponent_bb &&& FULL_BOARD_MASK = b.opponent_bb :=
  sub_and_FULL _ _ (opp_sub_occ hs ps b hok hrep) (occ_and_FULL hs ps b hok hrep)

/-- A playable cell has the gravity property: the (at most three) cells
directly above it inside its column are empty, both for the players and for
the occupancy board. -/
theorem playable_gravity (hs ps : List Nat) (b : Board) (hok : ColsOk hs ps)
    (hrep : reprOf hs ps b) (bb : Nat)
    (hsub : ∀ i, bb.testBit i = true → b.occupied_bb.testBit i = true)
    (k : Nat) (hk : b.possible_bb.testBit k = true) :
    ∀ i, 1 ≤ i → i ≤ 3 → k % 7 + i ≤ 5 → bb.testBit (k + i) = false := by
  obtain ⟨h49, hdig, hr⟩ := (testBit_possible hs ps b hok hrep k).mp hk
  intro i h1 h3 h5
  cases hb : bb.testBit (k + i) with
  | false => rfl
  | true =>
    exfalso
    have hocc := hsub (k + i) hb
    rw [testBit_occ hs ps b hok hrep] at hocc
    have e1 : (k + i) / 7 = k / 7 := by omega
    have e2 : (k + i) % 7 = k % 7 + i := by omega
    rw [e1, e2] at hocc
    simp only [Bool.and_eq_true, decide_eq_true_eq] at hocc
    omega

/-- Playing the single playable cell of a column coincides with
`play_unchecked` for well-formed boards. -/
theorem play_bb_cell_eq (hs ps : List Nat) (b : Board) (hok : ColsOk hs ps)
    (hrep : reprOf hs ps b) (c : Nat) (hc : c < 7) (hopen : b.is_open c = true) :
    b.play_bb (2 ^ (7 * c + hs.getD c 0)) = b.play_unchecked c := by
  have h5 := open_height_le hs ps b hok hrep c hc hopen
  obtain ⟨hlen, plen, hbound⟩ := hok
  obtain ⟨ho, hp, hm⟩ := hrep
  have hoslen : (occDigs hs).length = 7 := by rw [occDigs_length, hlen]
  have hos_lt : ∀ d ∈ occDigs hs, d < 2 ^ 7 :=
    occDigs_lt hs (fun i hi => (hbound i (hlen ▸ hi)).1)
  have hgetc : (occDigs hs).getD c 0 = 2 ^ hs.getD c 0 - 1 :=
    getD_map_pow hs c (by omega)
  have hsum : b.occupied_bb + bottom_piece_mask c =
      fromDigs ((occDigs hs).set c (2 ^ hs.getD c 0 - 1 + 1)) := by
    rw [ho, bottom_piece_mask_eq, ← hgetc, fromDigs_add_pow _ c (by omega)]
  have hset_lt : ∀ d ∈ (occDigs hs).set c (2 ^ hs.getD c 0 - 1 + 1), d < 2 ^ 7 := by
    intro d hd
    rcases List.mem_or_eq_of_mem_set hd with hmem | rfl
    · exact hos_lt d hmem
    · have : 2 ^ hs.getD c 0 ≤ 2 ^ 6 :=
        Nat.pow_le_pow_right (by omega) (by omega)
      omega
  have hsmall : fromDigs ((occDigs hs).set c (2 ^ hs.getD c 0 - 1 + 1)) < 2 ^ 64 := by
    have := fromDigs_lt _ hset_lt
    rw [List.length_set, hoslen] at this
    calc fromDigs _ < 2 ^ (7 * 7) := this
      _ < 2 ^ 64 := by norm_num
  have hor : b.occupied_bb ||| 2 ^ (7 * c + hs.getD c 0) =
      b.occupied_bb ||| u64 (b.occupied_bb + bottom_piece_mask c) := by
    rw [hsum, u64_eq_of_lt hsmall, ho]
    have hlhs : (2 : Nat) ^ (7 * c + hs.getD c 0) =
        fromDigs ((List.replicate 7 0).set c (2 ^ hs.getD c 0)) := by
      rw [fromDigs_single c _ hc, Nat.pow_add, Nat.mul_comm]
    rw [hlhs,
      fromDigs_bitwise (· ||| ·) (· || ·) Nat.testBit_or rfl _ _
        (by rw [hoslen, List.length_set, List.length_replicate])
        hos_lt (by
          intro d hd
          rcases List.mem_or_eq_of_mem_set hd with hmem | rfl
          · rw [List.eq_of_mem_replicate hmem]
            positivity
          · have : 2 ^ hs.getD c 0 ≤ 2 ^ 6 :=
              Nat.pow_le_pow_right (by omega) (by omega)
            omega),
      fromDigs_bitwise (· ||| ·) (· || ·) Nat.testBit_or rfl _ _
        (by rw [hoslen, List.length_set, hoslen])
        hos_lt hset_lt]
    congr 1
    rw [show (List.replicate 7 0) = List.replicate (occDigs hs).length 0 by rw [hoslen],
      zipWith_replicate_set (· ||| ·) (fun x => Nat.or_zero x) _ c _ (by omega),
      zipWith_set_right (· ||| ·) (fun x => Nat.or_self x) _ c _ (by omega),
      hgetc]
    have hpow : 0 < 2 ^ hs.getD c 0 := Nat.pos_pow_of_pos _ (by omega)
    have hdig : 2 ^ hs.getD c 0 - 1 ||| 2 ^ hs.getD c 0 =
        2 ^ hs.getD c 0 - 1 ||| (2 ^ hs.getD c 0 - 1 + 1) := by
      congr 1
      omega
    rw [← hdig]
  unfold Board.play_unchecked Board.play_bb
  rw [hor]

/-- Every non-losing move is playable. -/
theorem nlm_sub_possible (b : Board) (i : Nat)
    (h : b.non_losing_moves_bb.testBit i = true) :
    b.possible_bb.testBit i = true := by
  unfold Board.non_losing_moves_bb at h
  by_cases h1 : (b.possible_bb &&& b.winning_bb b.opponent_bb != 0) = true
  · rw [if_pos h1] at h
    by_cases h2 : (b.possible_bb &&& b.winning_bb b.opponent_bb &&&
        ((b.possible_bb &&& b.winning_bb b.opponent_bb) - 1) != 0) = true
    · rw [if_pos h2] at h
      rw [Nat.zero_testBit] at h
      exact Bool.noConfusion h
    · rw [if_neg h2] at h
      simp only [Nat.testBit_and, Bool.and_eq_true] at h
      exact h.1.1
  · rw [if_neg h1] at h
    rw [Nat.testBit_and] at h
    simp only [Bool.and_eq_true] at h
    exact h.1

/-- A nonzero column move extracted from `non_losing_moves_bb` is exactly the
playable cell of its column. -/
theorem nlm_col_move (hs ps : List Nat) (b : Board) (hok : ColsOk hs ps)
    (hrep : reprOf hs ps b) (c : Nat) (hc : c < 7)
    (hne : b.non_losing_moves_bb &&& column_mask c ≠ 0) :
    b.non_losing_moves_bb &&& column_mask c = 2 ^ (7 * c + hs.getD c 0) ∧
      hs.getD c 0 ≤ 5 ∧ b.is_open c = true ∧
      b.non_losing_moves_bb.testBit (7 * c + hs.getD c 0) = true := by
  have hsub : ∀ i, (b.non_losing_moves_bb &&& column_mask c).testBit i = true →
      i = 7 * c + hs.getD c 0 ∧ hs.getD c 0 ≤ 5 := by
    intro i hi
    rw [Nat.testBit_and] at hi
    simp only [Bool.and_eq_true] at hi
    have hposs := nlm_sub_possible b i hi.1
    obtain ⟨h49, hdig, hr⟩ := (testBit_possible hs ps b hok hrep i).mp hposs
    have hcol := hi.2
    rw [testBit_column_mask] at hcol
    simp only [Bool.and_eq_true, decide_eq_true_eq] at hcol
    have hidiv : i / 7 = c := by omega
    rw [hidiv] at hdig
    constructor
    · omega
    · omega
  rcases subset_single_bit _ (7 * c + hs.getD c 0) (fun i hi => (hsub i hi).1) with h0 | heq
  · exact absurd h0 hne
  · have hbit : (b.non_losing_moves_bb &&& column_mask c).testBit
        (7 * c + hs.getD c 0) = true := by
      rw [heq]
      exact Nat.testBit_two_pow_self
    have h5 := (hsub _ hbit).2
    have hnlm : b.non_losing_moves_bb.testBit (7 * c + hs.getD c 0) = true := by
      rw [Nat.testBit_and] at hbit
      simp only [Bool.and_eq_true] at hbit
      exact hbit.1
    exact ⟨heq, h5, (open_iff hs ps b hok hrep c hc).mpr h5, hnlm⟩

/-! ### Children of a search position -/

theorem play_bb_opponent (b : Board) (k : Nat) (hocc : b.occupied_bb.testBit k = false)
    (hpk : b.player_bb.testBit k = false) :
    (b.play_bb (2 ^ k)).opponent_bb = b.player_bb ||| 2 ^ k := by
  unfold Board.play_bb Board.opponent_bb
  apply Nat.eq_of_testBit_eq
  intro i
  simp only [Nat.testBit_xor, Nat.testBit_or]
  by_cases hik : i = k
  · subst hik
    rw [hocc, hpk, Nat.testBit_two_pow_self]
    rfl
  · rw [Nat.testBit_two_pow, decide_eq_false (fun hl => hik hl.symm)]
    cases hp : b.player_bb.testBit i <;> cases ho : b.occupied_bb.testBit i <;> rfl

theorem not_won_linefree (b : Board) (h : b.has_opponent_won = false) :
    b.check_win b.opponent_bb = none := by
  unfold Board.has_opponent_won Board.opponent_winning_bb at h
  cases hc : b.check_win b.opponent_bb with
  | none => rfl
  | some v => rw [hc] at h; exact Bool.noConfusion h

theorem possible_bit_lt (b : Board) (i : Nat) (h : b.possible_bb.testBit i = true) :
    i < 49 := by
  by_contra hcon
  have h1 : b.possible_bb ≤ FULL_BOARD_MASK := Nat.and_le_right
  have h2 : FULL_BOARD_MASK < 2 ^ 49 := by decide
  have h3 : b.possible_bb < 2 ^ i :=
    lt_of_lt_of_le (lt_of_le_of_lt h1 h2) (Nat.pow_le_pow_right (by omega) (by omega))
  rw [Nat.testBit_lt_two_pow h3] at h
  exact Bool.noConfusion h

/-- A non-losing move never sits directly below an opponent winning cell. -/
theorem nlm_bit_not_above (b : Board) (i : Nat)
    (h : b.non_losing_moves_bb.testBit i = true) :
    (b.winning_bb b.opponent_bb).testBit (i + 1) = false := by
  have hi49 : i < 49 := possible_bit_lt b i (nlm_sub_possible b i h)
  have hstep : (u64not (b.winning_bb b.opponent_bb >>> 1)).testBit i = true := by
    unfold Board.non_losing_moves_bb at h
    by_cases h1 : (b.possible_bb &&& b.winning_bb b.opponent_bb != 0) = true
    · rw [if_pos h1] at h
      by_cases h2 : (b.possible_bb &&& b.winning_bb b.opponent_bb &&&
          ((b.possible_bb &&& b.winning_bb b.opponent_bb) - 1) != 0) = true
      · rw [if_pos h2, Nat.zero_testBit] at h
        exact Bool.noConfusion h
      · rw [if_neg h2] at h
        simp only [Nat.testBit_and, Bool.and_eq_true] at h
        exact h.2
    · rw [if_neg h1] at h
      simp only [Nat.testBit_and, Bool.and_eq_true] at h
      exact h.2
  rw [testBit_u64not _ _ (by omega)] at hstep
  cases hw : (b.winning_bb b.opponent_bb >>> 1).testBit i with
  | false =>
    rw [Nat.testBit_shiftRight, show 1 + i = i + 1 by omega] at hw
    exact hw
  | true => rw [hw] at hstep; exact Bool.noConfusion hstep

/-- When some non-losing move exists, every other playable cell is not an
opponent winning cell. -/
theorem nlm_other_possible_safe (b : Board) (k i : Nat)
    (hk : b.non_losing_moves_bb.testBit k = true)
    (hi : b.possible_bb.testBit i = true) (hne : i ≠ k) :
    (b.winning_bb b.opponent_bb).testBit i = false := by
  unfold Board.non_losing_moves_bb at hk
  by_cases h1 : (b.possible_bb &&& b.winning_bb b.opponent_bb != 0) = true
  · rw [if_pos h1] at hk
    by_cases h2 : (b.possible_bb &&& b.winning_bb b.opponent_bb &&&
        ((b.possible_bb &&& b.winning_bb b.opponent_bb) - 1) != 0) = true
    · rw [if_pos h2, Nat.zero_testBit] at hk
      exact Bool.noConfusion hk
    · rw [if_neg h2] at hk
      simp only [Nat.testBit_and, Bool.and_eq_true] at hk
      have hfk : (b.possible_bb &&& b.winning_bb b.opponent_bb).testBit k = true := by
        rw [Nat.testBit_and, hk.1.1, hk.1.2]
        rfl
      have hne0 : b.possible_bb &&& b.winning_bb b.opponent_bb ≠ 0 := by
        intro hz
        rw [hz, Nat.zero_testBit] at hfk
        exact Bool.noConfusion hfk
      have hand : b.possible_bb &&& b.winning_bb b.opponent_bb &&&
          ((b.possible_bb &&& b.winning_bb b.opponent_bb) - 1) = 0 := by
        simpa using h2
      obtain ⟨m, hm⟩ := single_of_and_pred _ hne0 hand
      have hkm : k = m := testBit_pow_imp m k (by rw [← hm]; exact hfk)
      cases hwi : (b.winning_bb b.opponent_bb).testBit i with
      | false => rfl
      | true =>
        exfalso
        have hfi : (b.possible_bb &&& b.winning_bb b.opponent_bb).testBit i = true := by
          rw [Nat.testBit_and, hi, hwi]
          rfl
        have him : i = m := testBit_pow_imp m i (by rw [← hm]; exact hfi)
        omega
  · rw [if_neg h1] at hk
    have h0 : b.possible_bb &&& b.winning_bb b.opponent_bb = 0 := by simpa using h1
    rw [and_eq_zero_iff] at h0
    exact h0 i hi

/-- If the mover has no immediate winning cell and no line already, playing
any playable cell leaves the combined board line-free. -/
theorem check_win_play (hs ps : List Nat) (b : Board) (hok : ColsOk hs ps)
    (hrep : reprOf hs ps b) (hpw : b.check_win b.player_bb = none)
    (hcw : b.can_win_next = false) (k : Nat)
    (hk : b.possible_bb.testBit k = true) :
    b.check_win (b.player_bb ||| 2 ^ k) = none := by
  by_contra hcon
  have hex : ∃ d, (d = 1 ∨ d = 6 ∨ d = 7 ∨ d = 8) ∧
      ∃ j, Line (b.player_bb ||| 2 ^ k) d j := by
    by_contra hno
    push_neg at hno
    apply hcon
    rw [check_win_none_iff]
    refine ⟨?_, ?_, ?_, ?_⟩ <;> intro j hline
    · exact hno 8 (by norm_num) j hline
    · exact hno 6 (by norm_num) j hline
    · exact hno 7 (by norm_num) j hline
    · exact hno 1 (by norm_num) j hline
  obtain ⟨d, hd, j, hline⟩ := hex
  have hnoline : ¬ Line b.player_bb d j := by
    intro hl
    rw [check_win_none_iff] at hpw
    rcases hd with rfl | rfl | rfl | rfl
    · exact hpw.2.2.2 j hl
    · exact hpw.2.1 j hl
    · exact hpw.2.2.1 j hl
    · exact hpw.1 j hl
  obtain ⟨h49, hdig, hr⟩ := (testBit_possible hs ps b hok hrep k).mp hk
  have hwc := line_to_winCells b.player_bb k d j h49 hr
    (player_and_FULL hs ps b hok hrep)
    (playable_gravity hs ps b hok hrep _ (player_sub_occ hs ps b hok hrep) k hk)
    hd hline hnoline
  have hbitk : (b.winning_bb b.player_bb &&& b.possible_bb).testBit k = true := by
    rw [winning_and_possible hs ps b hok hrep, Nat.testBit_and, hwc, hk]
    rfl
  unfold Board.can_win_next at hcw
  have hzero : b.winning_bb b.player_bb &&& b.possible_bb = 0 := by simpa using hcw
  rw [hzero, Nat.zero_testBit] at hbitk
  exact Bool.noConfusion hbitk

/-- With no immediate mover win, no child of a line-free position is an
already-won position. -/
theorem child_not_won (hs ps : List Nat) (b : Board) (hok : ColsOk hs ps)
    (hrep : reprOf hs ps b) (hpw : b.check_win b.player_bb = none)
    (hcw : b.can_win_next = false) (c : Nat) (hc : c < 7)
    (hopen : b.is_open c = true) :
    (b.play_unchecked c).has_opponent_won = false := by
  have hk := playable_cell hs ps b hok hrep c hc hopen
  have h5 := open_height_le hs ps b hok hrep c hc hopen
  have hocc : b.occupied_bb.testBit (7 * c + hs.getD c 0) = false := by
    rw [testBit_occ hs ps b hok hrep]
    have e2 : (7 * c + hs.getD c 0) % 7 = hs.getD c 0 := by omega
    have e1 : (7 * c + hs.getD c 0) / 7 = c := by omega
    rw [e1, e2, decide_eq_false (show ¬ (hs.getD c 0 < hs.getD c 0) by omega),
      Bool.and_false]
  have hpk : b.player_bb.testBit (7 * c + hs.getD c 0) = false := by
    cases hb : b.player_bb.testBit (7 * c + hs.getD c 0) with
    | false => rfl
    | true =>
      rw [player_sub_occ hs ps b hok hrep _ hb] at hocc
      exact Bool.noConfusion hocc
  rw [← play_bb_cell_eq hs ps b hok hrep c hc hopen]
  unfold Board.has_opponent_won Board.opponent_winning_bb
  rw [play_bb_opponent b _ hocc hpk]
  show (b.check_win (b.player_bb ||| 2 ^ (7 * c + hs.getD c 0))).isSome = false
  rw [check_win_play hs ps b hok hrep hpw hcw _ hk]
  rfl

/-- Playing a non-losing move leaves the opponent without an immediate
winning reply: the child position has `can_win_next = false`. -/
theorem nlm_child_safe (hs ps : List Nat) (b : Board) (hok : ColsOk hs ps)
    (hrep : reprOf hs ps b) (c : Nat) (hc : c < 7)
    (hbit : b.non_losing_moves_bb.testBit (7 * c + hs.getD c 0) = true)
    (h5 : hs.getD c 0 ≤ 5) :
    (b.play_unchecked c).can_win_next = false := by
  have hopen : b.is_open c = true := (open_iff hs ps b hok hrep c hc).mpr h5
  obtain ⟨hok2, hrep2⟩ := play_repr hs ps b hok hrep c hc hopen
  have hkdiv : (7 * c + hs.getD c 0) / 7 = c := by omega
  unfold Board.can_win_next
  have hcp : (b.play_unchecked c).player_bb = b.opponent_bb := rfl
  rw [hcp]
  have hzero : (b.play_unchecked c).winning_bb b.opponent_bb &&&
      (b.play_unchecked c).possible_bb = 0 := by
    rw [winning_and_possible _ _ _ hok2 hrep2 b.opponent_bb, Nat.and_comm,
      and_eq_zero_iff]
    intro i hip
    obtain ⟨h49, hdig, hr5⟩ := (testBit_possible _ _ _ hok2 hrep2 i).mp hip
    by_cases hcc : i / 7 = c
    · -- the cell freed above the played move
      rw [hcc, getD_set_self hs c _ (by rw [hok.1]; omega)] at hdig
      have hik : i = 7 * c + hs.getD c 0 + 1 := by omega
      cases hw : (winCells b.opponent_bb).testBit i with
      | false => rfl
      | true =>
        exfalso
        have hempty : (b.occupied_bb ^^^ FULL_BOARD_MASK).testBit i = true := by
          rw [Nat.testBit_xor, testBit_occ hs ps b hok hrep, hcc,
            testBit_FULL,
            decide_eq_false (show ¬ (i % 7 < hs.getD c 0) by omega),
            decide_eq_true h49, decide_eq_true hr5, Bool.and_false]
          rfl
        have how : (b.winning_bb b.opponent_bb).testBit i = true := by
          unfold Board.winning_bb
          rw [Nat.testBit_and, hw, hempty]
          rfl
        have := nlm_bit_not_above b _ hbit
        rw [← hik] at this
        rw [this] at how
        exact Bool.noConfusion how
    · -- an unchanged column
      rw [getD_set_ne hs c (i / 7) _ (Ne.symm hcc)] at hdig
      have hbposs : b.possible_bb.testBit i = true :=
        (testBit_possible hs ps b hok hrep i).mpr ⟨h49, hdig, hr5⟩
      have hown := nlm_other_possible_safe b _ i hbit hbposs (by
        intro hik
        rw [hik] at hcc
        exact hcc hkdiv)
      cases hw : (winCells b.opponent_bb).testBit i with
      | false => rfl
      | true =>
        exfalso
        have hempty := possible_empty_bit hs ps b hok hrep i hbposs
        have how : (b.winning_bb b.opponent_bb).testBit i = true := by
          unfold Board.winning_bb
          rw [Nat.testBit_and, hw, hempty]
          rfl
        rw [hown] at how
        exact Bool.noConfusion how
  rw [hzero]
  rfl

theorem ne_zero_has_bit (x : Nat) (hx : x ≠ 0) : ∃ i, x.testBit i = true := by
  by_contra hno
  push_neg at hno
  apply hx
  rw [eq_zero_iff_testBit]
  intro i
  cases hb : x.testBit i with
  | false => rfl
  | true => exact absurd hb (hno i)

theorem winning_bit_wc (b : Board) (bb m : Nat)
    (h : (b.winning_bb bb).testBit m = true) : (winCells bb).testBit m = true := by
  unfold Board.winning_bb at h
  rw [Nat.testBit_and, Bool.and_eq_true] at h
  exact h.1

/-- Winning cells of a well-formed board are empty in-board cells. -/
theorem winning_bit_empty (hs ps : List Nat) (b : Board) (hok : ColsOk hs ps)
    (hrep : reprOf hs ps b) (bb m : Nat)
    (h : (b.winning_bb bb).testBit m = true) :
    m < 49 ∧ m % 7 ≤ 5 ∧ b.occupied_bb.testBit m = false := by
  unfold Board.winning_bb at h
  rw [Nat.testBit_and, Bool.and_eq_true] at h
  have h2 := h.2
  rw [Nat.testBit_xor, testBit_FULL] at h2
  cases ho : b.occupied_bb.testBit m with
  | false =>
    rw [ho] at h2
    simp only [Bool.false_xor, Bool.and_eq_true, decide_eq_true_eq] at h2
    exact ⟨h2.1, h2.2, rfl⟩
  | true =>
    exfalso
    have hob := ho
    rw [testBit_occ hs ps b hok hrep] at hob
    simp only [Bool.and_eq_true, decide_eq_true_eq] at hob
    have hgd : hs.getD (m / 7) 0 ≤ 6 := (hok.2.2 (m / 7) (by omega)).1
    rw [ho, decide_eq_true hob.1, decide_eq_true (show m % 7 ≤ 5 by omega)] at h2
    exact Bool.noConfusion h2

theorem two_possible_cols (hs ps : List Nat) (b : Board) (hok : ColsOk hs ps)
    (hrep : reprOf hs ps b) (x y : Nat) (hx : b.possible_bb.testBit x = true)
    (hy : b.possible_bb.testBit y = true) (hne : x ≠ y) : x / 7 ≠ y / 7 := by
  obtain ⟨hx49, hxd, hx5⟩ := (testBit_possible hs ps b hok hrep x).mp hx
  obtain ⟨hy49, hyd, hy5⟩ := (testBit_possible hs ps b hok hrep y).mp hy
  intro hcol
  rw [hcol] at hxd
  omega

/-- A `winCells` cell of the opponent that is playable in a child makes the
child a win-in-one for its mover. -/
theorem child_canwin_of_cell (hs2 ps2 : List Nat) (child : Board)
    (hok2 : ColsOk hs2 ps2) (hrep2 : reprOf hs2 ps2 child) (x : Nat)
    (hwc : (winCells child.player_bb).testBit x = true)
    (hcp : child.possible_bb.testBit x = true) :
    child.can_win_next = true := by
  unfold Board.can_win_next
  have hb : (child.winning_bb child.player_bb &&& child.possible_bb).testBit x = true := by
    rw [winning_and_possible hs2 ps2 child hok2 hrep2, Nat.testBit_and, hwc, hcp]
    rfl
  simp only [bne_iff_ne, ne_eq]
  intro h0
  rw [h0, Nat.zero_testBit] at hb
  exact Bool.noConfusion hb

/-- Skipping the playable cell of an open column that is not among the
non-losing moves gives the opponent an immediate winning reply. -/
theorem pruned_child_canwin (hs ps : List Nat) (b : Board) (hok : ColsOk hs ps)
    (hrep : reprOf hs ps b) (c : Nat) (hc : c < 7) (hopen : b.is_open c = true)
    (hnotnlm : b.non_losing_moves_bb.testBit (7 * c + hs.getD c 0) = false) :
    (b.play_unchecked c).can_win_next = true := by
  have h5 := open_height_le hs ps b hok hrep c hc hopen
  have hkposs := playable_cell hs ps b hok hrep c hc hopen
  obtain ⟨hok2, hrep2⟩ := play_repr hs ps b hok hrep c hc hopen
  have hcp : (b.play_unchecked c).player_bb = b.opponent_bb := rfl
  have hkdiv : (7 * c + hs.getD c 0) / 7 = c := by omega
  have hkmod : (7 * c + hs.getD c 0) % 7 = hs.getD c 0 := by omega
  -- cells playable in the child from unchanged columns
  have hother : ∀ x, b.possible_bb.testBit x = true → x / 7 ≠ c →
      (b.play_unchecked c).possible_bb.testBit x = true := by
    intro x hx hxc
    obtain ⟨hx49, hxd, hx5⟩ := (testBit_possible hs ps b hok hrep x).mp hx
    refine (testBit_possible _ _ _ hok2 hrep2 x).mpr ⟨hx49, ?_, hx5⟩
    rw [getD_set_ne hs c (x / 7) _ (Ne.symm hxc)]
    exact hxd
  -- an opponent winning cell over an unchanged column wins the child
  have hfromow : ∀ x, (b.winning_bb b.opponent_bb).testBit x = true →
      b.possible_bb.testBit x = true → x ≠ 7 * c + hs.getD c 0 →
      (b.play_unchecked c).can_win_next = true := by
    intro x hwx hpx hxk
    have hxc : x / 7 ≠ c := by
      have := two_possible_cols hs ps b hok hrep x (7 * c + hs.getD c 0) hpx hkposs hxk
      rw [hkdiv] at this
      exact this
    refine child_canwin_of_cell _ _ _ hok2 hrep2 x ?_ (hother x hpx hxc)
    rw [hcp]
    exact winning_bit_wc b _ x hwx
  -- the cell directly above the played move wins the child
  have hfromabove : (b.winning_bb b.opponent_bb).testBit (7 * c + hs.getD c 0 + 1) = true →
      (b.play_unchecked c).can_win_next = true := by
    intro how
    obtain ⟨ha49, ha5, -⟩ := winning_bit_empty hs ps b hok hrep _ _ how
    have hj5 : hs.getD c 0 + 1 ≤ 5 := by omega
    refine child_canwin_of_cell _ _ _ hok2 hrep2 (7 * c + hs.getD c 0 + 1) ?_ ?_
    · rw [hcp]
      exact winning_bit_wc b _ _ how
    · refine (testBit_possible _ _ _ hok2 hrep2 _).mpr ⟨by omega, ?_, by omega⟩
      have e1 : (7 * c + hs.getD c 0 + 1) / 7 = c := by omega
      have e2 : (7 * c + hs.getD c 0 + 1) % 7 = hs.getD c 0 + 1 := by omega
      rw [e1, e2, getD_set_self hs c _ (by rw [hok.1]; omega)]
  -- now analyse the three branches of non_losing_moves_bb
  unfold Board.non_losing_moves_bb at hnotnlm
  by_cases h1 : (b.possible_bb &&& b.winning_bb b.opponent_bb != 0) = true
  · rw [if_pos h1] at hnotnlm
    by_cases h2 : (b.possible_bb &&& b.winning_bb b.opponent_bb &&&
        ((b.possible_bb &&& b.winning_bb b.opponent_bb) - 1) != 0) = true
    · -- several forced blocks: one of them is over an unchanged column
      have hne0 : b.possible_bb &&& b.winning_bb b.opponent_bb ≠ 0 := by
        simpa using h1
      obtain ⟨a, ha⟩ := ne_zero_has_bit _ hne0
      have hsecond : ∃ x, (b.possible_bb &&& b.winning_bb b.opponent_bb).testBit x = true ∧
          x ≠ a := by
        by_contra hno
        push_neg at hno
        have hsingle : b.possible_bb &&& b.winning_bb b.opponent_bb = 2 ^ a := by
          rcases subset_single_bit _ a (fun i hi => by
            by_contra hia
            exact hia (hno i hi)) with h0 | hp
          · exact absurd h0 hne0
          · exact hp
        have : b.possible_bb &&& b.winning_bb b.opponent_bb &&&
            ((b.possible_bb &&& b.winning_bb b.opponent_bb) - 1) = 0 := by
          rw [hsingle]
          exact pow_and_pred a
        rw [this] at h2
        simp at h2
      obtain ⟨x, hx, hxa⟩ := hsecond
      rw [Nat.testBit_and, Bool.and_eq_true] at ha hx
      -- a and x sit in different columns, so one avoids column c
      by_cases hac : a = 7 * c + hs.getD c 0
      · refine hfromow x hx.2 hx.1 ?_
        rw [← hac]
        exact hxa
      · exact hfromow a ha.2 ha.1 hac
    · -- a single forced block
      rw [if_neg h2] at hnotnlm
      have hne0 : b.possible_bb &&& b.winning_bb b.opponent_bb ≠ 0 := by
        simpa using h1
      have hand : b.possible_bb &&& b.winning_bb b.opponent_bb &&&
          ((b.possible_bb &&& b.winning_bb b.opponent_bb) - 1) = 0 := by
        simpa using h2
      obtain ⟨m, hm⟩ := single_of_and_pred _ hne0 hand
      by_cases hmk : m = 7 * c + hs.getD c 0
      · -- we are skipping the forced block itself only because of the mask:
        -- the cell above is an opponent winning cell
        apply hfromabove
        have hfk : (b.possible_bb &&& b.winning_bb b.opponent_bb).testBit
            (7 * c + hs.getD c 0) = true := by
          rw [hm, hmk]
          exact Nat.testBit_two_pow_self
        have hmask : (u64not (b.winning_bb b.opponent_bb >>> 1)).testBit
            (7 * c + hs.getD c 0) = false := by
          cases hmb : (u64not (b.winning_bb b.opponent_bb >>> 1)).testBit
              (7 * c + hs.getD c 0) with
          | false => rfl
          | true =>
            exfalso
            rw [Nat.testBit_and, hfk, hmb] at hnotnlm
            exact Bool.noConfusion hnotnlm
        rw [testBit_u64not _ _ (by omega)] at hmask
        cases hsh : (b.winning_bb b.opponent_bb >>> 1).testBit (7 * c + hs.getD c 0) with
        | false => rw [hsh] at hmask; exact Bool.noConfusion hmask
        | true =>
          rw [Nat.testBit_shiftRight] at hsh
          rw [show 7 * c + hs.getD c 0 + 1 = 1 + (7 * c + hs.getD c 0) by omega]
          exact hsh
      · -- the forced block is elsewhere and stays playable
        have hfm : (b.possible_bb &&& b.winning_bb b.opponent_bb).testBit m = true := by
          rw [hm]
          exact Nat.testBit_two_pow_self
        rw [Nat.testBit_and, Bool.and_eq_true] at hfm
        exact hfromow m hfm.2 hfm.1 hmk
  · -- no forced block: the skipped cell is masked by a win directly above
    rw [if_neg h1] at hnotnlm
    apply hfromabove
    have hmask : (u64not (b.winning_bb b.opponent_bb >>> 1)).testBit
        (7 * c + hs.getD c 0) = false := by
      cases hmb : (u64not (b.winning_bb b.opponent_bb >>> 1)).testBit
          (7 * c + hs.getD c 0) with
      | false => rfl
      | true =>
        exfalso
        rw [Nat.testBit_and, hkposs, hmb] at hnotnlm
        exact Bool.noConfusion hnotnlm
    rw [testBit_u64not _ _ (by omega)] at hmask
    cases hsh : (b.winning_bb b.opponent_bb >>> 1).testBit (7 * c + hs.getD c 0) with
    | false => rw [hsh] at hmask; exact Bool.noConfusion hmask
    | true =>
      rw [Nat.testBit_shiftRight] at hsh
      rw [show 7 * c + hs.getD c 0 + 1 = 1 + (7 * c + hs.getD c 0) by omega]
      exact hsh

/-- Playing a cell from `winning_bb player &&& possible_bb` produces a won
position. -/
theorem won_after_winning_cell (hs ps : List Nat) (b : Board) (hok : ColsOk hs ps)
    (hrep : reprOf hs ps b) (k : Nat)
    (hwin : (b.winning_bb b.player_bb &&& b.possible_bb).testBit k = true) :
    (b.play_unchecked (k / 7)).has_opponent_won = true ∧ k / 7 < 7 ∧
      b.is_open (k / 7) = true ∧ k = 7 * (k / 7) + hs.getD (k / 7) 0 := by
  rw [Nat.testBit_and, Bool.and_eq_true] at hwin
  obtain ⟨hw, hp⟩ := hwin
  obtain ⟨h49, hdig, hr5⟩ := (testBit_possible hs ps b hok hrep k).mp hp
  have hc7 : k / 7 < 7 := by omega
  have hkeq : k = 7 * (k / 7) + hs.getD (k / 7) 0 := by omega
  have hopen : b.is_open (k / 7) = true :=
    (open_iff hs ps b hok hrep _ hc7).mpr (by omega)
  obtain ⟨-, -, hocc⟩ := winning_bit_empty hs ps b hok hrep _ _ hw
  have hpk : b.player_bb.testBit k = false := by
    cases hb : b.player_bb.testBit k with
    | false => rfl
    | true =>
      rw [player_sub_occ hs ps b hok hrep _ hb] at hocc
      exact Bool.noConfusion hocc
  refine ⟨?_, hc7, hopen, hkeq⟩
  have hplay : b.play_unchecked (k / 7) = b.play_bb (2 ^ k) := by
    rw [← play_bb_cell_eq hs ps b hok hrep _ hc7 hopen, ← hkeq]
  rw [hplay]
  unfold Board.has_opponent_won Board.opponent_winning_bb
  rw [play_bb_opponent b k hocc hpk]
  show (b.check_win (b.player_bb ||| 2 ^ k)).isSome = true
  obtain ⟨d, hd, j, hline⟩ := winCells_to_line _ k (winning_bit_wc b _ k hw)
  cases hcw2 : b.check_win (b.player_bb ||| 2 ^ k) with
  | some v => rfl
  | none =>
    exfalso
    rw [check_win_none_iff] at hcw2
    rcases hd with rfl | rfl | rfl | rfl
    · exact hcw2.2.2.2 j hline
    · exact hcw2.2.1 j hline
    · exact hcw2.2.2.1 j hline
    · exact hcw2.1 j hline

/-! ### The game-theoretic reference score -/

/-- Maximum of a list of integers (`0` on the empty list, which never occurs
at use sites). -/
def listMaxI : List Int → Int
  | [] => 0
  | [x] => x
  | x :: y :: xs => max x (listMaxI (y :: xs))

theorem listMaxI_le (l : List Int) (v : Int) (hne : l ≠ [])
    (h : ∀ x ∈ l, x ≤ v) : listMaxI l ≤ v := by
  induction l with
  | nil => exact absurd rfl hne
  | cons x xs ih =>
    cases xs with
    | nil => exact h x (by simp)
    | cons y ys =>
      show max x (listMaxI (y :: ys)) ≤ v
      exact max_le (h x (by simp))
        (ih (by simp) (fun z hz => h z (List.mem_cons_of_mem x hz)))

theorem le_listMaxI (l : List Int) (x : Int) (hx : x ∈ l) : x ≤ listMaxI l := by
  induction l with
  | nil => simp at hx
  | cons a as ih =>
    cases as with
    | nil =>
      have : x = a := by simpa using hx
      exact le_of_eq this
    | cons b bs =>
      show x ≤ max a (listMaxI (b :: bs))
      rcases List.mem_cons.mp hx with rfl | hmem
      · exact le_max_left _ _
      · exact le_trans (ih hmem) (le_max_right _ _)

theorem filterMap_congr_mem {α β : Type} (l : List α) (f g : α → Option β)
    (h : ∀ a ∈ l, f a = g a) : l.filterMap f = l.filterMap g := by
  induction l with
  | nil => rfl
  | cons a as ih =>
    rw [List.filterMap_cons, List.filterMap_cons, h a (by simp),
      ih (fun x hx => h x (List.mem_cons_of_mem a hx))]

/-- The true (perfect-play) negamax score of a position under the crate's
scoring convention: an already-won position counts
`-(22 - ceil(num_moves / 2))` for the player to move (the winner used
`ceil(num_moves / 2)` stones), a full board is a draw worth `0`, and any
other position is the best negated score over the playable columns.  The
fuel argument dominates the number of remaining moves. -/
def trueScore : Nat → Board → Int
  | 0, _ => 0
  | fuel + 1, b =>
    if b.has_opponent_won then -(((44 - b.num_moves) / 2 : Nat) : Int)
    else if 42 ≤ b.num_moves then 0
    else
      listMaxI ((List.range 7).filterMap fun c =>
        if b.is_open c then some (-(trueScore fuel (b.play_unchecked c))) else none)

/-- The true score with its canonical fuel. -/
def Score (b : Board) : Int := trueScore (43 - b.num_moves) b

theorem trueScore_won (fuel : Nat) (b : Board) (hw : b.has_opponent_won = true) :
    trueScore (fuel + 1) b = -(((44 - b.num_moves) / 2 : Nat) : Int) := by
  conv_lhs => rw [trueScore]
  rw [hw, if_pos rfl]

theorem trueScore_full (fuel : Nat) (b : Board) (hw : b.has_opponent_won = false)
    (hf : 42 ≤ b.num_moves) : trueScore (fuel + 1) b = 0 := by
  conv_lhs => rw [trueScore]
  rw [hw, if_neg (by simp), if_pos hf]

theorem trueScore_node (fuel : Nat) (b : Board) (hw : b.has_opponent_won = false)
    (hf : b.num_moves < 42) :
    trueScore (fuel + 1) b = listMaxI ((List.range 7).filterMap fun c =>
      if b.is_open c then some (-(trueScore fuel (b.play_unchecked c))) else none) := by
  conv_lhs => rw [trueScore]
  rw [hw, if_neg (by simp), if_neg (by omega)]

theorem play_num (b : Board) (c : Nat) (h : b.num_moves < 255) :
    (b.play_unchecked c).num_moves = b.num_moves + 1 := by
  show (b.num_moves + 1) % 256 = b.num_moves + 1
  omega

theorem Score_won (b : Board) (hw : b.has_opponent_won = true)
    (hn : b.num_moves ≤ 42) :
    Score b = -(((44 - b.num_moves) / 2 : Nat) : Int) := by
  unfold Score
  rw [show 43 - b.num_moves = (42 - b.num_moves) + 1 by omega, trueScore_won _ _ hw]

theorem Score_full (b : Board) (hw : b.has_opponent_won = false)
    (hn : b.num_moves = 42) : Score b = 0 := by
  unfold Score
  rw [show 43 - b.num_moves = 0 + 1 by omega, trueScore_full _ _ hw (by omega)]

theorem Score_node (b : Board) (hw : b.has_opponent_won = false)
    (hf : b.num_moves < 42) :
    Score b = listMaxI ((List.range 7).filterMap fun c =>
      if b.is_open c then some (-(Score (b.play_unchecked c))) else none) := by
  unfold Score
  rw [show 43 - b.num_moves = (42 - b.num_moves) + 1 by omega,
    trueScore_node _ _ hw hf]
  congr 1
  apply filterMap_congr_mem
  intro c hc
  by_cases ho : b.is_open c
  · have hnum : (b.play_unchecked c).num_moves = b.num_moves + 1 :=
      play_num b c (by omega)
    have hfuel : 43 - (b.play_unchecked c).num_moves = 42 - b.num_moves := by
      rw [hnum]
      omega
    rw [ho, if_pos rfl, if_pos rfl, hfuel]
  · have hof : b.is_open c = false := by simpa using ho
    rw [hof, if_neg (by simp), if_neg (by simp)]

theorem mem_childVals (fuel : Nat) (b : Board) (x : Int) :
    x ∈ (List.range 7).filterMap (fun c =>
        if b.is_open c then some (-(trueScore fuel (b.play_unchecked c))) else none) ↔
      ∃ c, c < 7 ∧ b.is_open c = true ∧ x = -(trueScore fuel (b.play_unchecked c)) := by
  rw [List.mem_filterMap]
  constructor
  · rintro ⟨c, hc, hx⟩
    rw [List.mem_range] at hc
    by_cases ho : b.is_open c
    · rw [if_pos ho] at hx
      exact ⟨c, hc, ho, (Option.some.inj hx).symm⟩
    · rw [if_neg ho] at hx
      exact absurd hx (by simp)
  · rintro ⟨c, hc, ho, rfl⟩
    exact ⟨c, List.mem_range.mpr hc, by rw [if_pos ho]⟩

theorem mem_scoreVals (b : Board) (x : Int) :
    x ∈ (List.range 7).filterMap (fun c =>
        if b.is_open c then some (-(Score (b.play_unchecked c))) else none) ↔
      ∃ c, c < 7 ∧ b.is_open c = true ∧ x = -(Score (b.play_unchecked c)) := by
  rw [List.mem_filterMap]
  constructor
  · rintro ⟨c, hc, hx⟩
    rw [List.mem_range] at hc
    by_cases ho : b.is_open c
    · rw [if_pos ho] at hx
      exact ⟨c, hc, ho, (Option.some.inj hx).symm⟩
    · rw [if_neg ho] at hx
      exact absurd hx (by simp)
  · rintro ⟨c, hc, ho, rfl⟩
    exact ⟨c, List.mem_range.mpr hc, by rw [if_pos ho]⟩

theorem hs_sum_lt_of_low (hs : List Nat) (hlen : hs.length = 7)
    (hall : ∀ i, i < 7 → hs.getD i 0 ≤ 6) (c : Nat) (hc : c < 7)
    (h5 : hs.getD c 0 ≤ 5) : hs.sum ≤ 41 := by
  have hset := sum_set_getD hs c 6 (by omega)
  have hsetle : (hs.set c 6).sum ≤ 42 := by
    apply hs_sum_le _ (by rw [List.length_set, hlen])
    intro i hi
    by_cases hic : c = i
    · subst hic
      rw [getD_set_self hs c 6 (by omega)]
    · rw [getD_set_ne hs c i 6 hic]
      exact hall i hi
  omega

/-- Perfect-play scores are bounded by the position scores: at worst the
mover loses as soon as possible, at best wins at once. -/
theorem score_bounds : ∀ (fuel : Nat) (b : Board) (hs ps : List Nat),
    ColsOk hs ps → reprOf hs ps b → b.num_moves + fuel = 42 →
    b.has_opponent_won = false →
    -(((42 - b.num_moves) / 2 : Nat) : Int) ≤ Score b ∧
      Score b ≤ (((43 - b.num_moves) / 2 : Nat) : Int) := by
  intro fuel
  induction fuel with
  | zero =>
    intro b hs ps hok hrep hn hw
    rw [Score_full b hw (by omega)]
    constructor <;> omega
  | succ fuel ih =>
    intro b hs ps hok hrep hn hw
    have hnum : b.num_moves < 42 := by omega
    rw [Score_node b hw hnum]
    obtain ⟨c0, hc0, hopen0⟩ := exists_open hs ps b hok hrep hnum
    have hmem0 : -(Score (b.play_unchecked c0)) ∈ (List.range 7).filterMap (fun c =>
        if b.is_open c then some (-(Score (b.play_unchecked c))) else none) :=
      (mem_scoreVals b _).mpr ⟨c0, hc0, hopen0, rfl⟩
    have hchild : ∀ c, c < 7 → b.is_open c = true →
        -(((42 - b.num_moves) / 2 : Nat) : Int) ≤ -(Score (b.play_unchecked c)) ∧
          -(Score (b.play_unchecked c)) ≤ (((43 - b.num_moves) / 2 : Nat) : Int) := by
      intro c hc hopen
      obtain ⟨hok2, hrep2⟩ := play_repr hs ps b hok hrep c hc hopen
      have hnum2 : (b.play_unchecked c).num_moves = b.num_moves + 1 :=
        play_num b c (by omega)
      cases hw2 : (b.play_unchecked c).has_opponent_won with
      | true =>
        rw [Score_won _ hw2 (by omega)]
        rw [hnum2]
        constructor <;> · push_cast; omega
      | false =>
        obtain ⟨hlo, hhi⟩ := ih (b.play_unchecked c) _ _ hok2 hrep2 (by omega) hw2
        rw [hnum2] at hlo hhi
        constructor <;> · push_cast at hlo hhi ⊢; omega
    constructor
    · calc -(((42 - b.num_moves) / 2 : Nat) : Int)
          ≤ -(Score (b.play_unchecked c0)) := (hchild c0 hc0 hopen0).1
        _ ≤ _ := le_listMaxI _ _ hmem0
    · apply listMaxI_le _ _ (List.ne_nil_of_mem hmem0)
      intro x hx
      obtain ⟨c, hc, hopen, rfl⟩ := (mem_scoreVals b x).mp hx
      exact (hchild c hc hopen).2

/-- Without an immediate winning cell the mover cannot reach the one-move
win value: the score is at most `(41 - n) / 2`. -/
theorem score_upper_nowin (b : Board) (hs ps : List Nat) (hok : ColsOk hs ps)
    (hrep : reprOf hs ps b) (hw : b.has_opponent_won = false)
    (hpw : b.check_win b.player_bb = none) (hcw : b.can_win_next = false) :
    Score b ≤ (((41 - b.num_moves) / 2 : Nat) : Int) := by
  have hn42 : b.num_moves ≤ 42 := by
    rw [hrep.2.2]
    exact hs_sum_le hs hok.1 (fun i hi => (hok.2.2 i hi).1)
  by_cases hf : b.num_moves = 42
  · rw [Score_full b hw hf]
    positivity
  · have hnum : b.num_moves < 42 := by omega
    rw [Score_node b hw hnum]
    obtain ⟨c0, hc0, hopen0⟩ := exists_open hs ps b hok hrep hnum
    apply listMaxI_le _ _ (List.ne_nil_of_mem
      ((mem_scoreVals b _).mpr ⟨c0, hc0, hopen0, rfl⟩))
    intro x hx
    obtain ⟨c, hc, hopen, rfl⟩ := (mem_scoreVals b x).mp hx
    obtain ⟨hok2, hrep2⟩ := play_repr hs ps b hok hrep c hc hopen
    have hw2 := child_not_won hs ps b hok hrep hpw hcw c hc hopen
    have hnum2 : (b.play_unchecked c).num_moves = b.num_moves + 1 :=
      play_num b c (by omega)
    have hlo := (score_bounds (42 - (b.play_unchecked c).num_moves)
      (b.play_unchecked c) _ _ hok2 hrep2 (by omega) hw2).1
    rw [hnum2] at hlo
    push_cast at hlo ⊢
    omega

/-- With an immediate winning cell the mover achieves at least the one-move
win value `(43 - n) / 2`. -/
theorem score_lower_win (b : Board) (hs ps : List Nat) (hok : ColsOk hs ps)
    (hrep : reprOf hs ps b) (hw : b.has_opponent_won = false)
    (hcw : b.can_win_next = true) :
    (((43 - b.num_moves) / 2 : Nat) : Int) ≤ Score b := by
  unfold Board.can_win_next at hcw
  have hne0 : b.winning_bb b.player_bb &&& b.possible_bb ≠ 0 := by
    simpa using hcw
  obtain ⟨k, hk⟩ := ne_zero_has_bit _ hne0
  obtain ⟨hwon, hc7, hopen, hkeq⟩ := won_after_winning_cell hs ps b hok hrep k hk
  have h5 : hs.getD (k / 7) 0 ≤ 5 := open_height_le hs ps b hok hrep _ hc7 hopen
  have hsum : b.num_moves ≤ 41 := by
    rw [hrep.2.2]
    exact hs_sum_lt_of_low hs hok.1 (fun i hi => (hok.2.2 i hi).1) _ hc7 h5
  have hnum2 : (b.play_unchecked (k / 7)).num_moves = b.num_moves + 1 :=
    play_num b _ (by omega)
  have hmem : -(Score (b.play_unchecked (k / 7))) ∈ (List.range 7).filterMap (fun c =>
      if b.is_open c then some (-(Score (b.play_unchecked c))) else none) :=
    (mem_scoreVals b _).mpr ⟨k / 7, hc7, hopen, rfl⟩
  rw [Score_node b hw (by omega)]
  calc (((43 - b.num_moves) / 2 : Nat) : Int)
      ≤ -(Score (b.play_unchecked (k / 7))) := by
        rw [Score_won _ hwon (by omega), hnum2]
        push_cast
        omega
    _ ≤ _ := le_listMaxI _ _ hmem

/-! ### The engine: transposition table, move sorter and negamax search -/

/-- `Cache` from `cache.rs`.  The `HashMap` is modelled as an association
list: `insert` prepends and `get` returns the first binding, which matches
the overwrite semantics of `HashMap::insert`; the tail of the list keeps the
full insertion history. -/
structure Cache where
  max_depth : Nat
  table : List (Nat × Int)
deriving Repr

/-- `Cache::new` (the `Default` has `max_depth = AREA`). -/
def Cache.new (max_depth : Nat) : Cache := ⟨max_depth, []⟩

/-- `Cache::get`. -/
def Cache.get (c : Cache) (key : Nat) : Option Int :=
  (c.table.find? (fun p => p.1 == key)).map (fun p => p.2)

/-- `Cache::insert`. -/
def Cache.insert (c : Cache) (key : Nat) (value : Int) : Cache :=
  { c with table := (key, value) :: c.table }

/-- `REV_MOVE_ORDER` from `engine.rs`: the reversed column exploration
order, built by the same formula as the `const` initializer. -/
def REV_MOVE_ORDER : List Nat :=
  (List.range 7).map (fun i =>
    let n := 7 - i - 1
    7 / 2 + n % 2 * (n / 2 + 1) - (1 - n % 2) * (n / 2))

theorem REV_MOVE_ORDER_eq : REV_MOVE_ORDER = [0, 6, 1, 5, 2, 4, 3] := by decide

/-- `MoveSorter::insert`: entries are kept sorted by winning-move count in
ascending order; the insertion walks from the tail over the entries with a
strictly larger count, exactly as the array shift in the source. -/
def sorterInsert (entries : List (Nat × Nat)) (e : Nat × Nat) : List (Nat × Nat) :=
  let parts := entries.reverse.span (fun p => decide (e.2 < p.2))
  parts.2.reverse ++ e :: parts.1.reverse

/-- The first loop of `Engine::negamax`: collect the nonzero column moves of
`non_losing_moves` into the move sorter. -/
def insertColMoves (b : Board) (non_losing_moves : Nat) : List (Nat × Nat) :=
  REV_MOVE_ORDER.foldl (fun acc col =>
    let move_board := non_losing_moves &&& column_mask col
    if move_board != 0 then
      sorterInsert acc (move_board, b.count_winning_moves move_board)
    else acc) []

/-- `MoveSorter`'s iterator pops entries from the tail, so the loop over
`moves` visits the reversed entry list. -/
def sorterMoves (entries : List (Nat × Nat)) : List Nat :=
  entries.reverse.map (fun p => p.1)

/-- `Engine` from `engine.rs` (the `u64` node counter wraps). -/
structure Engine where
  node_count : Nat
  opening_book : Cache
  tt_cache : Cache

/-- `Engine::new`: empty caches with default depth `AREA`. -/
def Engine.new : Engine := ⟨0, ⟨AREA, []⟩, ⟨AREA, []⟩⟩

/-- The second loop of `Engine::negamax` over the sorted moves: search each
child with the negated window, return early on a beta cutoff, and otherwise
store the `alpha` fail-low bound in the transposition table.  The recursive
call is abstracted as `f`. -/
def negamaxLoop (f : Engine → Board → Int × Engine) (b : Board)
    (alpha beta : Int) : List Nat → Engine → Int × Engine
  | [], eng => (alpha, { eng with tt_cache := eng.tt_cache.insert b.key alpha })
  | m :: rest, eng =>
    let r := f eng (b.play_bb m)
    if beta ≤ -r.1 then (-r.1, r.2)
    else negamaxLoop f b alpha beta rest r.2

/-- `Engine::negamax`.  The Rust recursion terminates because every child
has one more stone; the shallow embedding makes this explicit with a fuel
argument that dominates `42 - num_moves + 1` at every call site. -/
def negamax : Nat → Engine → Board → Int → Int → Int × Engine
  | 0, eng, _board, alpha, _beta => (alpha, eng)
  | fuel + 1, eng, board, alpha, beta =>
    let eng := { eng with node_count := (eng.node_count + 1) % 2 ^ 64 }
    if board.is_full then (0, eng)
    else
      let non_losing_moves := board.non_losing_moves_bb
      if non_losing_moves == 0 then (-(board.position_score false), eng)
      else
        let min := -(board.position_score false) + 1
        if beta ≤ min then (min, eng)
        else
          let max := (eng.tt_cache.get board.key).getD (-min + 1)
          if max ≤ alpha then (max, eng)
          else
            negamaxLoop (fun e nb => negamax fuel e nb (-beta) (-alpha)) board
              alpha beta (sorterMoves (insertColMoves board non_losing_moves)) eng

/-- The bisection loop of `Engine::solve`.  Each iteration strictly shrinks
the `[min, max]` window, so fuel `64` is never exhausted; `i8` division
truncates toward zero, hence `Int.tdiv`. -/
def solveLoop : Nat → Engine → Board → Int → Int → Int × Engine
  | 0, eng, _board, mn, _mx => (mn, eng)
  | fuel + 1, eng, board, mn, mx =>
    if mn < mx then
      let midpoint0 := mn + Int.tdiv (mx - mn) 2
      let midpoint :=
        if midpoint0 ≤ 0 ∧ Int.tdiv mn 2 < midpoint0 then Int.tdiv mn 2
        else if 0 ≤ midpoint0 ∧ Int.tdiv mx 2 > midpoint0 then Int.tdiv mx 2
        else midpoint0
      let r := negamax 43 eng board midpoint (midpoint + 1)
      if r.1 ≤ midpoint then solveLoop fuel r.2 board mn r.1
      else solveLoop fuel r.2 board r.1 mx
    else (mn, eng)

/-- `Engine::solve`: the immediate-win check, the opening-book probe (the
`u128 → u64` conversion succeeds iff `key3 < 2 ^ 64`), then iterative
narrowing around negamax null-window probes. -/
def Engine.solve (eng : Engine) (board : Board) : Int × Engine :=
  if board.can_win_next then (board.position_score true, eng)
  else
    if board.num_moves ≤ eng.opening_book.max_depth ∧ board.key3 < 2 ^ 64 then
      match eng.opening_book.get board.key3 with
      | some score => (score, eng)
      | none =>
        let mx := board.position_score false
        solveLoop 64 eng board (-mx) mx
    else
      let mx := board.position_score false
      solveLoop 64 eng board (-mx) mx

/-- `From<&Game> for Board`: the engine views a game through its fields
(current-player bitboard, occupancy bitboard, move count). -/
def boardOfGame (g : Game) : Board := ⟨g.player_board, g.pieces_board, g.moves⟩

/-- `Engine::evaluate`: reset the node counter and solve the game's board. -/
def Engine.evaluate (eng : Engine) (g : Game) : Int × Engine :=
  Engine.solve { eng with node_count := 0 } (boardOfGame g)

/-! ### Transposition-table soundness -/

/-- The upper-bound invariant of the transposition table: every stored pair
bounds the true score of the (unique) well-formed, not-yet-won board with
that key from above. -/
def SoundTT (table : List (Nat × Int)) : Prop :=
  ∀ (b : Board) (v : Int), ValidB b → b.has_opponent_won = false →
    (b.key, v) ∈ table → Score b ≤ v

theorem cacheGet_mem (c : Cache) (k : Nat) (v : Int) (h : c.get k = some v) :
    (k, v) ∈ c.table := by
  unfold Cache.get at h
  rw [Option.map_eq_some'] at h
  obtain ⟨p, hfind, hv⟩ := h
  have hmem := List.mem_of_find?_eq_some hfind
  have hkey : p.1 = k := by
    have := List.find?_some hfind
    simpa using this
  have hp : p = (k, v) := by
    obtain ⟨p1, p2⟩ := p
    simp only at hkey hv
    rw [hkey, hv]
  rw [← hp]
  exact hmem

theorem soundTT_insert (table : List (Nat × Int)) (k : Nat) (v : Int)
    (hs : SoundTT table)
    (hk : ∀ (b : Board), ValidB b → b.has_opponent_won = false → b.key = k →
      Score b ≤ v) : SoundTT ((k, v) :: table) := by
  intro b w hv hnw hmem
  rcases List.mem_cons.mp hmem with heq | hmem2
  · simp only [Prod.mk.injEq] at heq
    rw [heq.2]
    exact hk b hv hnw heq.1
  · exact hs b w hv hnw hmem2

theorem mem_sorterInsert (l : List (Nat × Nat)) (e x : Nat × Nat) :
    x ∈ sorterInsert l e ↔ x = e ∨ x ∈ l := by
  unfold sorterInsert
  rw [List.span_eq_take_drop]
  have hl : l.reverse.takeWhile (fun p => decide (e.2 < p.2)) ++
      l.reverse.dropWhile (fun p => decide (e.2 < p.2)) = l.reverse :=
    List.takeWhile_append_dropWhile _ _
  have hiff : x ∈ l ↔ (x ∈ l.reverse.takeWhile (fun p => decide (e.2 < p.2)) ∨
      x ∈ l.reverse.dropWhile (fun p => decide (e.2 < p.2))) := by
    rw [← List.mem_reverse]
    conv_lhs => rw [← hl]
    rw [List.mem_append]
  simp only [List.mem_append, List.mem_cons, List.mem_reverse]
  constructor
  · rintro (h | h | h)
    · exact Or.inr (hiff.mpr (Or.inr h))
    · exact Or.inl h
    · exact Or.inr (hiff.mpr (Or.inl h))
  · rintro (h | h)
    · exact Or.inr (Or.inl h)
    · rcases hiff.mp h with h2 | h2
      · exact Or.inr (Or.inr h2)
      · exact Or.inl h2

theorem mem_insertColMoves (b : Board) (nlm : Nat) (x : Nat × Nat) :
    x ∈ insertColMoves b nlm ↔ ∃ c, c ∈ REV_MOVE_ORDER ∧
      nlm &&& column_mask c ≠ 0 ∧
      x = (nlm &&& column_mask c, b.count_winning_moves (nlm &&& column_mask c)) := by
  unfold insertColMoves
  suffices h : ∀ (cols : List Nat) (acc : List (Nat × Nat)),
      x ∈ cols.foldl (fun acc col =>
        let move_board := nlm &&& column_mask col
        if move_board != 0 then
          sorterInsert acc (move_board, b.count_winning_moves move_board)
        else acc) acc ↔
      x ∈ acc ∨ ∃ c, c ∈ cols ∧ nlm &&& column_mask c ≠ 0 ∧
        x = (nlm &&& column_mask c, b.count_winning_moves (nlm &&& column_mask c)) by
    rw [h REV_MOVE_ORDER []]
    simp
  intro cols
  induction cols with
  | nil =>
    intro acc
    simp
  | cons c cs ih =>
    intro acc
    rw [List.foldl_cons, ih]
    dsimp only
    by_cases hc : (nlm &&& column_mask c != 0) = true
    · rw [if_pos hc]
      have hcne : nlm &&& column_mask c ≠ 0 := by simpa using hc
      constructor
      · rintro (hmem | ⟨c2, hc2, hne2, hx2⟩)
        · rcases (mem_sorterInsert acc _ x).mp hmem with rfl | hacc
          · exact Or.inr ⟨c, List.mem_cons_self c cs, hcne, rfl⟩
          · exact Or.inl hacc
        · exact Or.inr ⟨c2, List.mem_cons_of_mem c hc2, hne2, hx2⟩
      · rintro (hacc | ⟨c2, hc2, hne2, hx2⟩)
        · exact Or.inl ((mem_sorterInsert acc _ x).mpr (Or.inr hacc))
        · rcases List.mem_cons.mp hc2 with rfl | hcs
          · exact Or.inl ((mem_sorterInsert acc _ x).mpr (Or.inl hx2))
          · exact Or.inr ⟨c2, hcs, hne2, hx2⟩
    · rw [if_neg hc]
      have hceq : nlm &&& column_mask c = 0 := by simpa using hc
      constructor
      · rintro (hacc | ⟨c2, hc2, hne2, hx2⟩)
        · exact Or.inl hacc
        · exact Or.inr ⟨c2, List.mem_cons_of_mem c hc2, hne2, hx2⟩
      · rintro (hacc | ⟨c2, hc2, hne2, hx2⟩)
        · exact Or.inl hacc
        · rcases List.mem_cons.mp hc2 with rfl | hcs
          · exact absurd hceq hne2
          · exact Or.inr ⟨c2, hcs, hne2, hx2⟩

theorem mem_REV_MOVE_ORDER (c : Nat) : c ∈ REV_MOVE_ORDER ↔ c < 7 := by
  rw [REV_MOVE_ORDER_eq]
  constructor
  · intro h
    fin_cases h <;> omega
  · intro h
    interval_cases c <;> decide

/-- The moves visited by the negamax loop are exactly the nonzero column
moves of `non_losing_moves`. -/
theorem mem_sorterMoves (b : Board) (nlm : Nat) (m : Nat) :
    m ∈ sorterMoves (insertColMoves b nlm) ↔
      ∃ c, c < 7 ∧ nlm &&& column_mask c ≠ 0 ∧ m = nlm &&& column_mask c := by
  unfold sorterMoves
  rw [List.mem_map]
  constructor
  · rintro ⟨p, hp, rfl⟩
    rw [List.mem_reverse] at hp
    obtain ⟨c, hc, hne, hx⟩ := (mem_insertColMoves b nlm p).mp hp
    exact ⟨c, (mem_REV_MOVE_ORDER c).mp hc, hne, by rw [hx]⟩
  · rintro ⟨c, hc, hne, rfl⟩
    refine ⟨(nlm &&& column_mask c, b.count_winning_moves (nlm &&& column_mask c)),
      ?_, rfl⟩
    rw [List.mem_reverse]
    exact (mem_insertColMoves b nlm _).mpr ⟨c, (mem_REV_MOVE_ORDER c).mpr hc, hne, rfl⟩

/-! ### Score comparison helpers for the search -/

theorem score_le_of_children (hs ps : List Nat) (b : Board) (hok : ColsOk hs ps)
    (hrep : reprOf hs ps b) (hnw : b.has_opponent_won = false)
    (hnum : b.num_moves < 42) (v : Int)
    (h : ∀ c, c < 7 → b.is_open c = true → -(Score (b.play_unchecked c)) ≤ v) :
    Score b ≤ v := by
  rw [Score_node b hnw hnum]
  obtain ⟨c0, hc0, hopen0⟩ := exists_open hs ps b hok hrep hnum
  apply listMaxI_le _ _ (List.ne_nil_of_mem
    ((mem_scoreVals b _).mpr ⟨c0, hc0, hopen0, rfl⟩))
  intro x hx
  obtain ⟨c, hc, hopen, rfl⟩ := (mem_scoreVals b x).mp hx
  exact h c hc hopen

theorem child_le_score (b : Board) (hnw : b.has_opponent_won = false)
    (hnum : b.num_moves < 42) (c : Nat) (hc : c < 7) (hopen : b.is_open c = true) :
    -(Score (b.play_unchecked c)) ≤ Score b := by
  rw [Score_node b hnw hnum]
  exact le_listMaxI _ _ ((mem_scoreVals b _).mpr ⟨c, hc, hopen, rfl⟩)

/-- Skipped (pruned) children concede at least the immediate counter-win. -/
theorem pruned_bound (hs ps : List Nat) (b : Board) (hok : ColsOk hs ps)
    (hrep : reprOf hs ps b) (hnw : b.has_opponent_won = false)
    (hpw : b.check_win b.player_bb = none) (hcw : b.can_win_next = false)
    (c : Nat) (hc : c < 7) (hopen : b.is_open c = true)
    (hnot : b.non_losing_moves_bb.testBit (7 * c + hs.getD c 0) = false) :
    -(Score (b.play_unchecked c)) ≤ -(((42 - b.num_moves) / 2 : Nat) : Int) := by
  obtain ⟨hok2, hrep2⟩ := play_repr hs ps b hok hrep c hc hopen
  have h5 := open_height_le hs ps b hok hrep c hc hopen
  have hsum : b.num_moves ≤ 41 := by
    rw [hrep.2.2]
    exact hs_sum_lt_of_low hs hok.1 (fun i hi => (hok.2.2 i hi).1) c hc h5
  have hnum2 : (b.play_unchecked c).num_moves = b.num_moves + 1 :=
    play_num b c (by omega)
  have hcwn := pruned_child_canwin hs ps b hok hrep c hc hopen hnot
  have hnw2 := child_not_won hs ps b hok hrep hpw hcw c hc hopen
  have hge := score_lower_win (b.play_unchecked c) _ _ hok2 hrep2 hnw2 hcwn
  rw [hnum2] at hge
  have hcast : ((43 - (b.num_moves + 1)) / 2 : Nat) = ((42 - b.num_moves) / 2 : Nat) := by
    omega
  rw [hcast] at hge
  omega

theorem nlm_col_ne (hs ps : List Nat) (b : Board) (hok : ColsOk hs ps)
    (hrep : reprOf hs ps b) (c : Nat) (hc : c < 7) (h5 : hs.getD c 0 ≤ 5)
    (hbit : b.non_losing_moves_bb.testBit (7 * c + hs.getD c 0) = true) :
    b.non_losing_moves_bb &&& column_mask c ≠ 0 := by
  intro hzero
  have hcol : (column_mask c).testBit (7 * c + hs.getD c 0) = true := by
    rw [testBit_column_mask]
    simp only [Bool.and_eq_true, decide_eq_true_eq]
    omega
  have hb : (b.non_losing_moves_bb &&& column_mask c).testBit
      (7 * c + hs.getD c 0) = true := by
    rw [Nat.testBit_and, hbit, hcol]
    rfl
  rw [hzero, Nat.zero_testBit] at hb
  exact Bool.noConfusion hb

/-- At 41 stones a mover without an immediate winning cell is locked into
the draw: the only remaining reply fills the board without a line. -/
theorem score_draw41 (hs ps : List Nat) (b : Board) (hok : ColsOk hs ps)
    (hrep : reprOf hs ps b) (hnw : b.has_opponent_won = false)
    (hpw : b.check_win b.player_bb = none) (hcw : b.can_win_next = false)
    (hn : b.num_moves = 41) : Score b = 0 := by
  have hnum : b.num_moves < 42 := by omega
  obtain ⟨c0, hc0, hopen0⟩ := exists_open hs ps b hok hrep hnum
  have hall : ∀ c, c < 7 → b.is_open c = true →
      -(Score (b.play_unchecked c)) = 0 := by
    intro c hc hopen
    have hnw2 := child_not_won hs ps b hok hrep hpw hcw c hc hopen
    have hnum2 := play_num b c (by omega)
    rw [Score_full (b.play_unchecked c) hnw2 (by omega)]
    exact neg_zero
  rw [Score_node b hnw hnum]
  apply le_antisymm
  · apply listMaxI_le _ _ (List.ne_nil_of_mem
      ((mem_scoreVals b _).mpr ⟨c0, hc0, hopen0, rfl⟩))
    intro x hx
    obtain ⟨c, hc, hopen, rfl⟩ := (mem_scoreVals b x).mp hx
    exact le_of_eq (hall c hc hopen)
  · have hmem := le_listMaxI _ _ ((mem_scoreVals b _).mpr ⟨c0, hc0, hopen0, rfl⟩)
    rw [hall c0 hc0 hopen0] at hmem
    exact hmem

/-- Soundness of a null-window `negamax` probe on a well-formed search
position whose players are both line-free and whose mover has no immediate
win.  The transposition table stays sound, a fail-low return bounds the
true score from above, and a fail-high return bounds it from below — except
for the overstated static bound at 41 stones, where the true score is the
forced draw `0`; that exception can never reach a table insertion because
of the fail-low threshold of the caller. -/
theorem negamax_sound : ∀ (fuel : Nat) (eng : Engine) (b : Board) (alpha beta : Int),
    beta = alpha + 1 →
    ∀ (hs ps : List Nat), ColsOk hs ps → reprOf hs ps b →
      b.has_opponent_won = false → b.check_win b.player_bb = none →
      b.can_win_next = false → 43 ≤ fuel + b.num_moves →
      SoundTT eng.tt_cache.table →
      SoundTT (negamax fuel eng b alpha beta).2.tt_cache.table ∧
        ((negamax fuel eng b alpha beta).1 ≤ alpha →
          Score b ≤ (negamax fuel eng b alpha beta).1) ∧
        (beta ≤ (negamax fuel eng b alpha beta).1 →
          ((negamax fuel eng b alpha beta).1 ≤ Score b ∨
            (b.num_moves = 41 ∧ Score b = 0))) := by
  intro fuel
  induction fuel with
  | zero =>
    intro eng b alpha beta hbeta hs ps hok hrep hnw hpw hcw hfuel hsound
    exfalso
    have h42 : b.num_moves ≤ 42 := by
      rw [hrep.2.2]
      exact hs_sum_le hs hok.1 (fun i hi => (hok.2.2 i hi).1)
    omega
  | succ fuel ih =>
    intro eng b alpha beta hbeta hs ps hok hrep hnw hpw hcw hfuel hsound
    subst hbeta
    have h42 : b.num_moves ≤ 42 := by
      rw [hrep.2.2]
      exact hs_sum_le hs hok.1 (fun i hi => (hok.2.2 i hi).1)
    have hps0 : b.position_score false = (((42 - b.num_moves) / 2 : Nat) : Int) := rfl
    simp only [negamax]
    by_cases hfull : b.is_full = true
    · rw [if_pos hfull]
      have hfull42 : b.num_moves = 42 := by
        unfold Board.is_full at hfull
        have h1 : AREA ≤ b.num_moves := of_decide_eq_true hfull
        have h2 : AREA = 42 := rfl
        omega
      refine ⟨hsound, ?_, ?_⟩
      · intro h
        rw [Score_full b hnw hfull42]
      · intro h
        left
        rw [Score_full b hnw hfull42]
    · rw [if_neg hfull]
      have hnum : b.num_moves < 42 := by
        unfold Board.is_full at hfull
        have h2 : AREA = 42 := rfl
        by_contra hcon
        exact hfull (decide_eq_true (by omega))
      by_cases hnlm : (b.non_losing_moves_bb == 0) = true
      · rw [if_pos hnlm]
        dsimp only
        have hz : b.non_losing_moves_bb = 0 := by simpa using hnlm
        refine ⟨hsound, ?_, ?_⟩
        · intro h
          rw [hps0]
          apply score_le_of_children hs ps b hok hrep hnw hnum
          intro c hc hopen
          have := pruned_bound hs ps b hok hrep hnw hpw hcw c hc hopen
            (by rw [hz]; exact Nat.zero_testBit _)
          exact this
        · intro h
          left
          rw [hps0]
          obtain ⟨c0, hc0, hopen0⟩ := exists_open hs ps b hok hrep hnum
          obtain ⟨hok2, hrep2⟩ := play_repr hs ps b hok hrep c0 hc0 hopen0
          have hnw2 := child_not_won hs ps b hok hrep hpw hcw c0 hc0 hopen0
          have hnum2 := play_num b c0 (by omega)
          have hup := (score_bounds (42 - (b.play_unchecked c0).num_moves)
            (b.play_unchecked c0) _ _ hok2 hrep2 (by rw [hnum2]; omega) hnw2).2
          rw [hnum2] at hup
          have hle := child_le_score b hnw hnum c0 hc0 hopen0
          have hcast : ((43 - (b.num_moves + 1)) / 2 : Nat) =
              ((42 - b.num_moves) / 2 : Nat) := by omega
          rw [hcast] at hup
          omega
      · rw [if_neg hnlm]
        have hnlmne : b.non_losing_moves_bb ≠ 0 := by simpa using hnlm
        by_cases hmin : ((alpha + 1 : Int) ≤ -(b.position_score false) + 1)
        · rw [if_pos hmin]
          dsimp only
          refine ⟨hsound, ?_, ?_⟩
          · intro h
            exfalso
            omega
          · intro h
            by_cases hn41 : b.num_moves = 41
            · exact Or.inr ⟨hn41, score_draw41 hs ps b hok hrep hnw hpw hcw hn41⟩
            · left
              rw [hps0]
              obtain ⟨k, hk⟩ := ne_zero_has_bit _ hnlmne
              have hposs := nlm_sub_possible b k hk
              obtain ⟨h49, hdig, hr5⟩ := (testBit_possible hs ps b hok hrep k).mp hposs
              have hc7 : k / 7 < 7 := by omega
              have hkeq : k = 7 * (k / 7) + hs.getD (k / 7) 0 := by omega
              have hopen : b.is_open (k / 7) = true :=
                (open_iff hs ps b hok hrep _ hc7).mpr (by omega)
              obtain ⟨hok2, hrep2⟩ := play_repr hs ps b hok hrep (k / 7) hc7 hopen
              have hnw2 := child_not_won hs ps b hok hrep hpw hcw (k / 7) hc7 hopen
              have hcw2 := nlm_child_safe hs ps b hok hrep (k / 7) hc7
                (by rw [← hkeq]; exact hk) (by omega)
              have hpw2 : (b.play_unchecked (k / 7)).check_win
                  (b.play_unchecked (k / 7)).player_bb = none :=
                not_won_linefree b hnw
              have hnum2 := play_num b (k / 7) (by omega)
              have hupper := score_upper_nowin (b.play_unchecked (k / 7)) _ _
                hok2 hrep2 hnw2 hpw2 hcw2
              rw [hnum2] at hupper
              have hle := child_le_score b hnw hnum (k / 7) hc7 hopen
              have hcast : ((41 - (b.num_moves + 1)) / 2 : Nat) =
                  ((40 - b.num_moves) / 2 : Nat) := by omega
              rw [hcast] at hupper
              have harith : -(((42 - b.num_moves) / 2 : Nat) : Int) + 1 ≤
                  -(((40 - b.num_moves) / 2 : Nat) : Int) := by
                have hn40 : b.num_moves ≤ 40 := by omega
                push_cast
                omega
              omega
        · rw [if_neg hmin]
          by_cases hmax : ((eng.tt_cache.get b.key).getD
                (-(-(b.position_score false) + 1) + 1) ≤ alpha)
          · rw [if_pos hmax]
            dsimp only
            refine ⟨hsound, ?_, ?_⟩
            · intro h
              cases hget : eng.tt_cache.get b.key with
              | some v =>
                rw [hget] at h hmax
                exact hsound b v ⟨hs, ps, hok, hrep⟩ hnw
                  (cacheGet_mem eng.tt_cache b.key v hget)
              | none =>
                rw [hget] at h hmax
                have hupper := score_upper_nowin b hs ps hok hrep hnw hpw hcw
                show Score b ≤ (Option.getD none (-(-(b.position_score false) + 1) + 1))
                rw [Option.getD_none, hps0]
                have : (((41 - b.num_moves) / 2 : Nat) : Int) ≤
                    (((42 - b.num_moves) / 2 : Nat) : Int) := by
                  push_cast
                  omega
                omega
            · intro h
              exfalso
              omega
          · rw [if_neg hmax]
            have hminle : -(b.position_score false) + 1 ≤ alpha := by omega
            -- the move loop
            have loop : ∀ (L2 : List Nat) (eng2 : Engine),
                SoundTT eng2.tt_cache.table →
                (∀ m, m ∈ L2 →
                  m ∈ sorterMoves (insertColMoves b b.non_losing_moves_bb)) →
                (∀ m, m ∈ sorterMoves (insertColMoves b b.non_losing_moves_bb) →
                  m ∉ L2 → -(Score (b.play_bb m)) ≤ alpha) →
                SoundTT ((negamaxLoop (fun e nb => negamax fuel e nb (-(alpha + 1)) (-alpha))
                    b alpha (alpha + 1) L2 eng2).2.tt_cache.table) ∧
                  ((negamaxLoop (fun e nb => negamax fuel e nb (-(alpha + 1)) (-alpha))
                      b alpha (alpha + 1) L2 eng2).1 ≤ alpha →
                    Score b ≤ (negamaxLoop (fun e nb => negamax fuel e nb (-(alpha + 1)) (-alpha))
                      b alpha (alpha + 1) L2 eng2).1) ∧
                  (alpha + 1 ≤ (negamaxLoop (fun e nb => negamax fuel e nb (-(alpha + 1)) (-alpha))
                      b alpha (alpha + 1) L2 eng2).1 →
                    ((negamaxLoop (fun e nb => negamax fuel e nb (-(alpha + 1)) (-alpha))
                      b alpha (alpha + 1) L2 eng2).1 ≤ Score b ∨
                      (b.num_moves = 41 ∧ Score b = 0))) := by
              intro L2
              induction L2 with
              | nil =>
                intro eng2 hsound2 hmem hdone
                simp only [negamaxLoop]
                have hallle : Score b ≤ alpha := by
                  apply score_le_of_children hs ps b hok hrep hnw hnum
                  intro c hc hopen
                  by_cases hbit : b.non_losing_moves_bb.testBit
                      (7 * c + hs.getD c 0) = true
                  · have h5 := open_height_le hs ps b hok hrep c hc hopen
                    obtain ⟨hcoleq, -, -, -⟩ := nlm_col_move hs ps b hok hrep c hc
                      (nlm_col_ne hs ps b hok hrep c hc h5 hbit)
                    have hmemL : b.non_losing_moves_bb &&& column_mask c ∈
                        sorterMoves (insertColMoves b b.non_losing_moves_bb) :=
                      (mem_sorterMoves b _ _).mpr ⟨c, hc,
                        by rw [hcoleq]; exact (Nat.pos_pow_of_pos _ (by omega)).ne', rfl⟩
                    have hb := hdone _ hmemL (by simp)
                    rw [hcoleq, play_bb_cell_eq hs ps b hok hrep c hc hopen] at hb
                    exact hb
                  · have hbf : b.non_losing_moves_bb.testBit (7 * c + hs.getD c 0) = false := by
                      cases hx : b.non_losing_moves_bb.testBit (7 * c + hs.getD c 0) with
                      | false => rfl
                      | true => exact absurd hx hbit
                    have := pruned_bound hs ps b hok hrep hnw hpw hcw c hc hopen hbf
                    rw [hps0] at hminle
                    omega
                refine ⟨?_, ?_, ?_⟩
                · show SoundTT ((b.key, alpha) :: eng2.tt_cache.table)
                  apply soundTT_insert _ _ _ hsound2
                  intro b2 hv2 hnw2 hkey
                  have hbeq : b2 = b := valid_key_inj b2 b hv2 ⟨hs, ps, hok, hrep⟩ hkey
                  rw [hbeq]
                  exact hallle
                · intro _
                  exact hallle
                · intro h
                  exfalso
                  omega
              | cons m rest ihL =>
                intro eng2 hsound2 hmem hdone
                obtain ⟨c, hc, hcne, hmeq⟩ :=
                  (mem_sorterMoves b _ _).mp (hmem m (List.mem_cons_self m rest))
                obtain ⟨hcoleq, h5, hopen, hbit⟩ := nlm_col_move hs ps b hok hrep c hc hcne
                have hplay : b.play_bb m = b.play_unchecked c := by
                  rw [hmeq, hcoleq]
                  exact play_bb_cell_eq hs ps b hok hrep c hc hopen
                obtain ⟨hok2, hrep2⟩ := play_repr hs ps b hok hrep c hc hopen
                have hnw2 := child_not_won hs ps b hok hrep hpw hcw c hc hopen
                have hcw2 := nlm_child_safe hs ps b hok hrep c hc hbit h5
                have hpw2 : (b.play_unchecked c).check_win
                    (b.play_unchecked c).player_bb = none := not_won_linefree b hnw
                have hnum2 := play_num b c (by omega)
                have hih := ih eng2 (b.play_unchecked c) (-(alpha + 1)) (-alpha)
                  (by ring) _ _ hok2 hrep2 hnw2 hpw2 hcw2 (by rw [hnum2]; omega) hsound2
                obtain ⟨hS2, hA2, hB2⟩ := hih
                simp only [negamaxLoop]
                rw [hplay]
                by_cases hcut : (alpha + 1 : Int) ≤
                    -((negamax fuel eng2 (b.play_unchecked c) (-(alpha + 1)) (-alpha)).1)
                · rw [if_pos hcut]
                  dsimp only
                  refine ⟨hS2, ?_, ?_⟩
                  · intro h
                    exfalso
                    omega
                  · intro h
                    left
                    have hchle := hA2 (by omega)
                    have := child_le_score b hnw hnum c hc hopen
                    omega
                · rw [if_neg hcut]
                  have hres := hB2 (by omega)
                  have hbound : -(Score (b.play_unchecked c)) ≤ alpha := by
                    rcases hres with hle | ⟨hn41, hzero⟩
                    · omega
                    · rw [hzero, neg_zero]
                      rw [hnum2] at hn41
                      rw [hps0] at hminle
                      have hn40 : b.num_moves = 40 := by omega
                      rw [hn40] at hminle
                      have : ((42 - 40) / 2 : Nat) = 1 := by norm_num
                      rw [this] at hminle
                      omega
                  apply ihL
                  · exact hS2
                  · intro m2 hm2
                    exact hmem m2 (List.mem_cons_of_mem m hm2)
                  · intro m2 hm2L hm2rest
                    by_cases hm2m : m2 = m
                    · rw [hm2m, hplay]
                      exact hbound
                    · exact hdone m2 hm2L (by
                        intro hmem2
                        rcases List.mem_cons.mp hmem2 with heq | hmem3
                        · exact hm2m heq
                        · exact hm2rest hmem3)
            exact loop (sorterMoves (insertColMoves b b.non_losing_moves_bb))
              { eng with node_count := (eng.node_count + 1) % 2 ^ 64 }
              hsound (fun m hm => hm) (fun m hm hnotm => absurd hm hnotm)

/-- Every probe of the bisection loop preserves the soundness of the
transposition table. -/
theorem solveLoop_sound : ∀ (fuel : Nat) (eng : Engine) (b : Board) (mn mx : Int),
    ∀ (hs ps : List Nat), ColsOk hs ps → reprOf hs ps b →
      b.has_opponent_won = false → b.check_win b.player_bb = none →
      b.can_win_next = false → SoundTT eng.tt_cache.table →
      SoundTT (solveLoop fuel eng b mn mx).2.tt_cache.table := by
  intro fuel
  induction fuel with
  | zero =>
    intro eng b mn mx hs ps hok hrep hnw hpw hcw hsound
    exact hsound
  | succ fuel ih =>
    intro eng b mn mx hs ps hok hrep hnw hpw hcw hsound
    simp only [solveLoop]
    by_cases hlt : mn < mx
    · rw [if_pos hlt]
      have h42 : b.num_moves ≤ 42 := by
        rw [hrep.2.2]
        exact hs_sum_le hs hok.1 (fun i hi => (hok.2.2 i hi).1)
      set mid := (if mn + Int.tdiv (mx - mn) 2 ≤ 0 ∧
            Int.tdiv mn 2 < mn + Int.tdiv (mx - mn) 2 then
          Int.tdiv mn 2
        else
          if 0 ≤ mn + Int.tdiv (mx - mn) 2 ∧
              Int.tdiv mx 2 > mn + Int.tdiv (mx - mn) 2 then
            Int.tdiv mx 2
          else mn + Int.tdiv (mx - mn) 2) with hmid
      have hneg := negamax_sound 43 eng b mid (mid + 1) rfl hs ps hok hrep hnw hpw
        hcw (by omega) hsound
      by_cases hle : (negamax 43 eng b mid (mid + 1)).1 ≤ mid
      · rw [if_pos hle]
        exact ih _ b _ _ hs ps hok hrep hnw hpw hcw hneg.1
      · rw [if_neg hle]
        exact ih _ b _ _ hs ps hok hrep hnw hpw hcw hneg.1
    · rw [if_neg hlt]
      exact hsound

/-- `Engine::solve` preserves the soundness of the transposition table. -/
theorem solve_sound (eng : Engine) (b : Board) (hs ps : List Nat)
    (hok : ColsOk hs ps) (hrep : reprOf hs ps b)
    (hnw : b.has_opponent_won = false) (hpw : b.check_win b.player_bb = none)
    (hsound : SoundTT eng.tt_cache.table) :
    SoundTT (Engine.solve eng b).2.tt_cache.table := by
  unfold Engine.solve
  by_cases hcw : b.can_win_next = true
  · rw [if_pos hcw]
    exact hsound
  · rw [if_neg hcw]
    have hcwf : b.can_win_next = false := by
      cases hx : b.can_win_next with
      | false => rfl
      | true => exact absurd hx hcw
    by_cases hbook : (b.num_moves ≤ eng.opening_book.max_depth ∧ b.key3 < 2 ^ 64)
    · rw [if_pos hbook]
      cases hget : eng.opening_book.get b.key3 with
      | some score => exact hsound
      | none =>
        exact solveLoop_sound 64 eng b _ _ hs ps hok hrep hnw hpw hcwf hsound
    · rw [if_neg hbook]
      exact solveLoop_sound 64 eng b _ _ hs ps hok hrep hnw hpw hcwf hsound

/-! ### C2: the transposition table as an upper bound

The invariant holds for every evaluated position in which no player has yet
connected four.  It fails for finished games, which `Engine::evaluate` also
accepts: below, a legal 38-move game ending with the winning move is
evaluated, and the search stores a pair whose value underestimates the true
score of the (reachable, not-yet-won) position carrying that key. -/

def c2Moves : List Nat :=
  [2, 6, 4, 5, 1, 3, 4, 6, 4, 4, 2, 0, 6, 5, 0, 4, 2, 3, 1, 2,
   4, 2, 2, 1, 1, 0, 5, 6, 1, 5, 1, 6, 6, 3, 0, 0, 0, 3]

def c2Game : Game :=
  (playChars Game.new "37562457553176153423533221672627741114".toList).2

def c2Descendant : Board := (playStepsB Board.new (c2Moves ++ [3])).getD Board.new

/-- C2 (counterexample to the unrestricted claim): the move string builds a
legal game whose last (38th) move wins; giving it to `Engine::evaluate` makes
the search insert the pair `(c2Descendant.key, 0)` into the transposition
table, yet `c2Descendant` — the well-formed, reachable, not-yet-won position
with that key — has true negamax score `2 > 0`. -/
theorem c2_counterexample :
    (playChars Game.new "37562457553176153423533221672627741114".toList).1 = none ∧
    boardOfGame c2Game = (playStepsB Board.new c2Moves).getD Board.new ∧
    (c2Descendant.key, (0 : Int)) ∈ (Engine.new.evaluate c2Game).2.tt_cache.table ∧
    ReachableB c2Descendant ∧ c2Descendant.has_opponent_won = false ∧
    (0 : Int) < Score c2Descendant :=
  ⟨by decide, by decide, by decide,
    playStepsB_reachable (c2Moves ++ [3]) Board.new c2Descendant ReachableB.empty
      (by decide),
    by decide, by decide⟩

/-- C2 (amended): if `Engine::evaluate` is given a game whose board is
reachable and in which neither player has already connected four, and every
pair already in the transposition table upper-bounds the true score of the
well-formed not-yet-won position with its key, then after the call every
pair in the table — in particular every pair inserted during the search,
since insertion never removes entries — satisfies `Score ≤ v`. -/
theorem c2_tt_upper_bound (eng : Engine) (g : Game)
    (hreach : ReachableB (boardOfGame g))
    (hnw : (boardOfGame g).has_opponent_won = false)
    (hpw : (boardOfGame g).check_win (boardOfGame g).player_bb = none)
    (hsound : SoundTT eng.tt_cache.table) :
    SoundTT (eng.evaluate g).2.tt_cache.table := by
  obtain ⟨hs, ps, hok, hrep⟩ := reachable_valid hreach
  unfold Engine.evaluate
  exact solve_sound _ _ hs ps hok hrep hnw hpw hsound

/-- Witness for the amended C2 theorem: a fresh engine evaluating the empty
game keeps its (empty, vacuously sound) transposition table sound. -/
theorem c2_witness : SoundTT (Engine.new.evaluate Game.new).2.tt_cache.table :=
  c2_tt_upper_bound Engine.new Game.new ReachableB.empty (by decide) (by decide)
    (fun _ _ _ _ h => absurd h (List.not_mem_nil _))

end C4V
